import Mathlib

/-!
# Verification of the PACT-Plugin hook utilities

A shallow embedding, in Lean 4, of the pure computational cores of the
PACT-Plugin repository (Python), together with theorems settling the claims
of the natural-language specification.

Conventions used throughout:

* Python strings are modelled as `List Char` (with `String` wrappers at the
  API boundary); Python's `re` patterns that the code uses are embedded as
  explicit character-level matchers.
* JSON values decoded by `json.loads` are modelled by the inductive `JValue`;
  a file's raw bytes are modelled by `FileData`, which is either a decodable
  JSON value or an undecodable blob (`junk`).
* Fallible Python code is modelled with `Except PyErr`; an uncaught Python
  exception is an `Except.error`.
* Process environments are records of `os.environ.get` results; the
  filesystem is a partial map from path strings to `FileData`.
-/

/-- Python exception kinds that the modelled code can raise. -/
inductive PyErr where
  | attributeError
  | keyError
  | typeError
  | valueError
  deriving DecidableEq, Repr

/-! ## shared/team_utils.py -/

namespace TeamUtils

/-- The character class of `re.sub(r"[/\\._]+", "-", name)` in
`derive_team_name`: path separators and unsafe characters. -/
def sepChar (c : Char) : Bool :=
  c = '/' || c = '\\' || c = '.' || c = '_'

/-- `re.sub(r"[/\\._]+", "-", name)`: every maximal run of separator
characters is replaced by a single hyphen.  The Boolean state records whether
the previous character belonged to such a run. -/
def subSepsAux : Bool → List Char → List Char
  | _, [] => []
  | inRun, c :: rest =>
    if sepChar c then
      if inRun then subSepsAux true rest else '-' :: subSepsAux true rest
    else
      c :: subSepsAux false rest

/-- `name.strip("-")`: remove all leading and trailing hyphens. -/
def stripH (l : List Char) : List Char :=
  ((l.dropWhile (fun c => c == '-')).reverse.dropWhile (fun c => c == '-')).reverse

/-- `re.sub(r"-{2,}", "-", name)`: collapse hyphen runs to a single hyphen.
(Runs of length one are also "collapsed" to one hyphen, which is the
identity, so the state machine form is equivalent to the regex.)  The state
records whether the previous output character came from a hyphen run. -/
def collapseH : Bool → List Char → List Char
  | _, [] => []
  | inRun, c :: rest =>
    if c == '-' then
      if inRun then collapseH true rest else '-' :: collapseH true rest
    else
      c :: collapseH false rest

/-- The branch prefixes stripped by `derive_team_name`, in source order. -/
def branchPrefixes : List (List Char) :=
  ["feature/", "bugfix/", "hotfix/", "fix/", "chore/", "release/"].map String.toList

/-- The prefix-stripping loop of `derive_team_name`: the first matching
prefix is removed, then the loop breaks. -/
def stripFirstMatching : List (List Char) → List Char → List Char
  | [], name => name
  | p :: ps, name =>
    if p.isPrefixOf name then name.drop p.length else stripFirstMatching ps name

/-- `team_utils.derive_team_name`, translated clause by clause from the
source. -/
def derive_team_name (branch_name : String) : String :=
  if branch_name = "" then "pact-session"
  else
    let name := stripFirstMatching branchPrefixes branch_name.toList
    let name := collapseH false (stripH (subSepsAux false name))
    if name = [] then "pact-session" else String.mk name

/-- `true` iff the list contains two consecutive hyphens. -/
def hasDoubleHyphen : List Char → Bool
  | a :: b :: rest => (a == '-' && b == '-') || hasDoubleHyphen (b :: rest)
  | _ => false

/-! ### Lemmas about the normalization pipeline -/

theorem subSepsAux_no_sep (b : Bool) (l : List Char) :
    ∀ c ∈ subSepsAux b l, sepChar c = false := by
  induction l generalizing b with
  | nil => intro c hc; simp [subSepsAux] at hc
  | cons a rest ih =>
    intro c hc
    by_cases ha : sepChar a
    · cases b with
      | true => simpa [subSepsAux, ha] using ih true c (by simpa [subSepsAux, ha] using hc)
      | false =>
        simp [subSepsAux, ha] at hc
        rcases hc with rfl | hc
        · decide
        · exact ih true c hc
    · simp [subSepsAux, ha] at hc
      rcases hc with rfl | hc
      · simpa using ha
      · exact ih false c hc

theorem collapseH_mem (b : Bool) (l : List Char) :
    ∀ c ∈ collapseH b l, c ∈ l := by
  induction l generalizing b with
  | nil => intro c hc; simp [collapseH] at hc
  | cons a rest ih =>
    intro c hc
    by_cases ha : a == '-'
    · cases b with
      | true =>
        simp only [collapseH, ha, if_true] at hc
        exact List.mem_cons_of_mem _ (ih true c hc)
      | false =>
        simp only [collapseH, ha, if_true] at hc
        rcases List.mem_cons.mp hc with rfl | hc
        · have : a = '-' := by simpa using ha
          subst this; exact List.mem_cons_self _ _
        · exact List.mem_cons_of_mem _ (ih true c hc)
    · simp only [collapseH, ha, if_false] at hc
      rcases List.mem_cons.mp hc with rfl | hc
      · exact List.mem_cons_self _ _
      · exact List.mem_cons_of_mem _ (ih false c hc)

theorem stripH_mem (l : List Char) : ∀ c ∈ stripH l, c ∈ l := by
  intro c hc
  unfold stripH at hc
  rw [List.mem_reverse] at hc
  have h2 := (List.dropWhile_sublist (l := (l.dropWhile (fun c => c == '-')).reverse)
    (p := fun c => c == '-')).subset hc
  rw [List.mem_reverse] at h2
  exact (List.dropWhile_sublist (l := l) (p := fun c => c == '-')).subset h2

theorem dropWhile_head_not (p : Char → Bool) (l : List Char) (c : Char)
    (h : (l.dropWhile p).head? = some c) : p c = false := by
  induction l with
  | nil => simp [List.dropWhile] at h
  | cons a rest ih =>
    by_cases ha : p a
    · rw [List.dropWhile_cons, if_pos ha] at h
      exact ih h
    · rw [List.dropWhile_cons, if_neg ha] at h
      simp at h
      subst h
      simpa using ha

/-- The result of `strip("-")` does not begin with a hyphen. -/
theorem stripH_head (l : List Char) (c : Char)
    (h : (stripH l).head? = some c) : (c == '-') = false := by
  unfold stripH at h
  rw [List.head?_reverse] at h
  -- the trailing dropWhile is a suffix of its input, so its last element is
  -- the input's last element
  set m := l.dropWhile (fun c => c == '-') with hm
  have hsplit := List.takeWhile_append_dropWhile (p := fun c => c == '-') (l := m.reverse)
  set X := m.reverse.dropWhile (fun c => c == '-') with hX
  have hXne : X ≠ [] := by
    intro hnil
    rw [hnil] at h
    simp at h
  have hlast : X.getLast? = m.reverse.getLast? := by
    conv_rhs => rw [← hsplit]
    exact (List.getLast?_append_of_ne_nil _ hXne).symm
  rw [hlast, List.getLast?_reverse] at h
  exact dropWhile_head_not (fun c => c == '-') l c h

/-- The result of `strip("-")` does not end with a hyphen. -/
theorem stripH_last (l : List Char) (c : Char)
    (h : (stripH l).getLast? = some c) : (c == '-') = false := by
  unfold stripH at h
  rw [List.getLast?_reverse] at h
  exact dropWhile_head_not (fun c => c == '-')
    ((l.dropWhile (fun c => c == '-')).reverse) c h

theorem getLast?_cons_ne_nil {x : Char} {X : List Char} (h : X ≠ []) :
    (x :: X).getLast? = X.getLast? := by
  cases X with
  | nil => exact absurd rfl h
  | cons y ys => rw [List.getLast?_cons_cons]

theorem collapseH_cons (b : Bool) (c : Char) (rest : List Char) :
    collapseH b (c :: rest) =
      if c == '-' then
        (if b then collapseH true rest else '-' :: collapseH true rest)
      else c :: collapseH false rest := rfl

theorem hasDoubleHyphen_cons₂ (a b : Char) (rest : List Char) :
    hasDoubleHyphen (a :: b :: rest) =
      ((a == '-' && b == '-') || hasDoubleHyphen (b :: rest)) := rfl

/-- Hyphen-collapsing: when the state says a hyphen run is open, the output
never starts with a hyphen; and the output never contains two consecutive
hyphens. -/
theorem collapseH_sound (b : Bool) (l : List Char) :
    (b = true → (collapseH b l).head? ≠ some '-') ∧
      hasDoubleHyphen (collapseH b l) = false := by
  induction l generalizing b with
  | nil => exact ⟨fun _ => by simp [collapseH], rfl⟩
  | cons a rest ih =>
    by_cases ha : (a == '-') = true
    · cases b with
      | true =>
        rw [collapseH_cons, if_pos ha, if_pos rfl]
        exact ih true
      | false =>
        rw [collapseH_cons, if_pos ha, if_neg (by simp)]
        refine ⟨fun h => absurd h (by simp), ?_⟩
        rcases ih true with ⟨ihhead, ihdouble⟩
        cases hcr : collapseH true rest with
        | nil => rfl
        | cons d t =>
          have hd : (d == '-') = false := by
            rw [Bool.eq_false_iff]
            intro hdt
            have hd' : d = '-' := by simpa using hdt
            exact (ihhead rfl) (by rw [hcr, hd']; rfl)
          rw [hasDoubleHyphen_cons₂, ← hcr, ihdouble, hd]
          simp
    · rw [collapseH_cons, if_neg ha]
      rcases ih false with ⟨_, ihdouble⟩
      refine ⟨fun _ => ?_, ?_⟩
      · simp only [List.head?_cons, ne_eq, Option.some.injEq]
        intro hc
        exact ha (by simp [hc])
      · cases hcr : collapseH false rest with
        | nil => rfl
        | cons d t =>
          rw [hasDoubleHyphen_cons₂, ← hcr, ihdouble]
          have ha' : (a == '-') = false := by simpa using ha
          rw [ha']
          simp

/-- Hyphen-collapsing preserves a non-hyphen last character (and in
particular nonemptiness). -/
theorem collapseH_last (b : Bool) (l : List Char) (hne : l ≠ [])
    (h : ∀ c, l.getLast? = some c → (c == '-') = false) :
    collapseH b l ≠ [] ∧ (collapseH b l).getLast? = l.getLast? := by
  induction l generalizing b with
  | nil => exact absurd rfl hne
  | cons a rest ih =>
    cases rest with
    | nil =>
      have ha : (a == '-') = false := h a (by simp)
      rw [collapseH_cons, if_neg (by simp [ha])]
      exact ⟨by simp, rfl⟩
    | cons a2 rest2 =>
      have hlast : (a :: a2 :: rest2).getLast? = (a2 :: rest2).getLast? :=
        getLast?_cons_ne_nil (by simp)
      have h2 : ∀ c, (a2 :: rest2).getLast? = some c → (c == '-') = false := by
        intro c hc; exact h c (hlast ▸ hc)
      by_cases ha : (a == '-') = true
      · cases b with
        | true =>
          rw [collapseH_cons, if_pos ha, if_pos rfl, hlast]
          exact ih true (by simp) h2
        | false =>
          rw [collapseH_cons, if_pos ha, if_neg (by simp), hlast]
          have hrec := ih true (by simp) h2
          exact ⟨by simp, by rw [getLast?_cons_ne_nil hrec.1]; exact hrec.2⟩
      · rw [collapseH_cons, if_neg ha, hlast]
        have hrec := ih false (by simp) h2
        exact ⟨by simp, by rw [getLast?_cons_ne_nil hrec.1]; exact hrec.2⟩

/-- Hyphen-collapsing preserves a non-hyphen first character. -/
theorem collapseH_head (l : List Char)
    (h : ∀ c, l.head? = some c → (c == '-') = false) :
    ∀ c, (collapseH false l).head? = some c → (c == '-') = false := by
  intro c hc
  cases l with
  | nil => simp [collapseH] at hc
  | cons a rest =>
    have ha : (a == '-') = false := h a rfl
    rw [collapseH_cons, if_neg (by simp [ha])] at hc
    simp only [List.head?_cons, Option.some.injEq] at hc
    subst hc
    exact ha

/--
**C8.** For every input string, `derive_team_name` returns a non-empty
string that contains none of the characters `/`, `\`, `.`, `_`, does not
begin or end with `-`, and contains no two consecutive `-` characters; for
the empty string, and whenever normalization empties the name, it returns
`"pact-session"`.
-/
theorem derive_team_name_invariants (s : String) :
    derive_team_name s ≠ "" ∧
    (∀ c ∈ (derive_team_name s).toList, sepChar c = false) ∧
    (derive_team_name s).toList.head? ≠ some '-' ∧
    (derive_team_name s).toList.getLast? ≠ some '-' ∧
    hasDoubleHyphen (derive_team_name s).toList = false ∧
    (s = "" → derive_team_name s = "pact-session") ∧
    (collapseH false (stripH (subSepsAux false (stripFirstMatching branchPrefixes s.toList))) = [] →
      derive_team_name s = "pact-session") := by
  by_cases hs : s = ""
  · subst hs
    exact ⟨by decide, by decide, by decide, by decide, by decide,
      fun _ => rfl, fun _ => rfl⟩
  · set m := stripH (subSepsAux false (stripFirstMatching branchPrefixes s.toList)) with hm
    by_cases hname : collapseH false m = []
    · have hres : derive_team_name s = "pact-session" := by
        show (if s = "" then "pact-session"
          else if collapseH false m = [] then "pact-session"
          else String.mk (collapseH false m)) = "pact-session"
        rw [if_neg hs, if_pos hname]
      rw [hres]
      exact ⟨by decide, by decide, by decide, by decide, by decide,
        fun h => absurd h hs, fun _ => rfl⟩
    · have hres : derive_team_name s = String.mk (collapseH false m) := by
        show (if s = "" then "pact-session"
          else if collapseH false m = [] then "pact-session"
          else String.mk (collapseH false m)) = String.mk (collapseH false m)
        rw [if_neg hs, if_neg hname]
      have htl : (derive_team_name s).toList = collapseH false m := by
        rw [hres]
        rfl
      refine ⟨?_, ?_, ?_, ?_, ?_, fun h => absurd h hs, fun h => absurd (hm ▸ h) hname⟩
      · rw [hres]
        intro hcontra
        have : collapseH false m = [] := congrArg String.toList hcontra
        exact hname this
      · intro c hc
        rw [htl] at hc
        have hcm : c ∈ m := collapseH_mem false m c hc
        exact subSepsAux_no_sep false _ c (stripH_mem _ c hcm)
      · rw [htl]
        intro hc
        have := collapseH_head m (fun d hd => stripH_head _ d hd) '-' hc
        simp at this
      · rw [htl]
        intro hc
        have hmne : m ≠ [] := by
          intro hnil
          rw [hnil] at hname
          exact hname rfl
        have hlast := (collapseH_last false m hmne
          (fun d hd => stripH_last _ d hd)).2
        rw [hlast] at hc
        have := stripH_last _ '-' hc
        simp at this
      · rw [htl]
        exact (collapseH_sound false m).2

end TeamUtils

/-! ## JSON values, files, and Python-style dynamic operations -/

/-- A decoded JSON value (the result of a successful `json.loads`). -/
inductive JValue where
  | null
  | bool (b : Bool)
  | num (n : ℚ)
  | str (s : String)
  | arr (xs : List JValue)
  | obj (kvs : List (String × JValue))

mutual

/-- Python `==` on decoded JSON values.  `True == 1` and `False == 0` hold in
Python, so booleans coerce to numbers; dictionaries are compared entrywise
(modelled in key order). -/
def jvEq : JValue → JValue → Bool
  | .null, .null => true
  | .bool a, .bool b => a == b
  | .bool a, .num n => (if a then (1 : ℚ) else 0) == n
  | .num n, .bool a => n == (if a then (1 : ℚ) else 0)
  | .num a, .num b => a == b
  | .str a, .str b => a == b
  | .arr xs, .arr ys => jvEqList xs ys
  | .obj xs, .obj ys => jvEqKVList xs ys
  | _, _ => false

/-- Elementwise Python `==` on JSON arrays. -/
def jvEqList : List JValue → List JValue → Bool
  | [], [] => true
  | x :: xs, y :: ys => jvEq x y && jvEqList xs ys
  | _, _ => false

/-- Entrywise Python `==` on JSON objects. -/
def jvEqKVList : List (String × JValue) → List (String × JValue) → Bool
  | [], [] => true
  | (k1, v1) :: xs, (k2, v2) :: ys => k1 == k2 && jvEq v1 v2 && jvEqKVList xs ys
  | _, _ => false

end

/-- Python truthiness of a decoded JSON value. -/
def pyTruthy : JValue → Bool
  | .null => false
  | .bool b => b
  | .num n => n != 0
  | .str s => s != ""
  | .arr xs => !xs.isEmpty
  | .obj kvs => !kvs.isEmpty

/-- `d.get(k)` on a decoded JSON value: `AttributeError` unless `d` is a
dictionary. -/
def pyGet (v : JValue) (k : String) : Except PyErr (Option JValue) :=
  match v with
  | .obj kvs => .ok (List.lookup k kvs)
  | _ => .error .attributeError

/-- `for x in v`: iterating a decoded JSON value yields list elements,
dictionary keys, or one-character strings; other values raise `TypeError`. -/
def pyIterList : JValue → Except PyErr (List JValue)
  | .arr xs => .ok xs
  | .obj kvs => .ok (kvs.map (fun kv => JValue.str kv.1))
  | .str s => .ok (s.toList.map (fun c => JValue.str (String.mk [c])))
  | _ => .error .typeError

/-- The undecoded contents of a file on disk: either a blob `json.loads`
rejects, or a decodable JSON value. -/
inductive FileData where
  | junk
  | jval (v : JValue)

/-- The filesystem: a partial map from path strings to file contents. -/
def FS : Type := String → Option FileData

/-- `json.loads` over a file's contents (`none` = `JSONDecodeError`). -/
def fileJson : Option FileData → Option JValue
  | some (.jval v) => some v
  | _ => none

/-- `str.lower()` (ASCII-faithful). -/
def lowerStr (s : String) : String := String.mk (s.toList.map Char.toLower)

/-- `", ".join(l)`. -/
def joinComma : List String → String
  | [] => ""
  | [x] => x
  | x :: y :: rest => x ++ ", " ++ joinComma (y :: rest)

/-- One step of insertion sort on strings (Python `sorted` is ascending
lexicographic on code points, as is `String.le`). -/
def insertStr (x : String) : List String → List String
  | [] => [x]
  | y :: ys => if x ≤ y then x :: y :: ys else y :: insertStr x ys

/-- `sorted(l)` for lists of strings. -/
def sortStrings (l : List String) : List String := l.foldr insertStr []

/-- The JSON object a hook prints to stdout to inject `additionalContext`. -/
def hookOutput (msg : String) : JValue :=
  .obj [("hookSpecificOutput", .obj [("additionalContext", .str msg)])]

/-! ## hooks/file_tracker.py -/

namespace FileTracker

/-- The record shape `track_edit` appends to the tracking file. -/
structure EditEntry where
  file : String
  agent : String
  tool : String
  ts : ℚ
  deriving DecidableEq, Repr

/-- The JSON encoding of a tracked edit record. -/
def EditEntry.toJValue (e : EditEntry) : JValue :=
  .obj [("file", .str e.file), ("agent", .str e.agent),
        ("tool", .str e.tool), ("ts", .num e.ts)]

/-- `track_edit`, generalized to a JSON-valued `file` and `tool` field as
`main` may deliver; reads the tracking file (unreadable or empty contents
give `[]`), appends the new record, and writes the file back.  `.append` on
a decoded non-list raises `AttributeError`. -/
def track_edit_v (file_path : JValue) (agent_name : String) (tool_name : JValue)
    (ts : ℚ) (tracking_path : String) (fs : FS) : Except PyErr FS :=
  let newEntry : JValue :=
    .obj [("file", file_path), ("agent", .str agent_name),
          ("tool", tool_name), ("ts", .num ts)]
  match fileJson (fs tracking_path) with
  | none =>
      .ok (fun p => if p = tracking_path then
        some (.jval (.arr [newEntry])) else fs p)
  | some (.arr xs) =>
      .ok (fun p => if p = tracking_path then
        some (.jval (.arr (xs ++ [newEntry]))) else fs p)
  | some _ => .error .attributeError

/-- `track_edit` at its annotated string-typed signature. -/
def track_edit (file_path agent_name tool_name : String) (ts : ℚ)
    (tracking_path : String) (fs : FS) : Except PyErr FS :=
  track_edit_v (.str file_path) agent_name (.str tool_name) ts tracking_path fs

/-- The loop body of `check_conflict`: collect `entry["agent"]` for every
entry with `entry.get("file") == file_path` and
`entry.get("agent") != agent_name`, propagating the exceptions Python would
raise on malformed entries. -/
def collectOthers (fpV : JValue) (an : String) :
    List JValue → Except PyErr (List JValue)
  | [] => .ok []
  | e :: rest =>
    match e with
    | .obj kvs =>
      let fileVal := (List.lookup "file" kvs).getD JValue.null
      let agentVal := List.lookup "agent" kvs
      if jvEq fileVal fpV && !(jvEq (agentVal.getD JValue.null) (.str an)) then
        match agentVal with
        | some v =>
          match collectOthers fpV an rest with
          | .ok others => .ok (v :: others)
          | .error err => .error err
        | none => .error .keyError
      else collectOthers fpV an rest
    | _ => .error .attributeError

/-- Extract the strings of a list of JSON values; `none` if any value is not
a string (in which case `sorted`/`join` over the set raises `TypeError`). -/
def allStrs : List JValue → Option (List String)
  | [] => some []
  | .str s :: rest => (allStrs rest).map (s :: ·)
  | _ :: _ => none

/-- The warning string `check_conflict` builds. -/
def mkWarning (fp : String) (others : List String) : String :=
  "File conflict: " ++ fp ++ " was also edited by " ++ joinComma others ++
    ". Consider coordinating via SendMessage to avoid merge conflicts."

/-- The rendering step of `check_conflict`: an empty set yields `None`;
otherwise the distinct agent values are sorted and comma-joined into the
warning (raising `TypeError` when a collected value is not a string). -/
def conflictRender (fpV : JValue) (others : List JValue) :
    Except PyErr (Option String) :=
  if others.isEmpty then .ok none
  else
    match allStrs others with
    | none => .error .typeError
    | some names =>
      .ok (some (mkWarning
        (match fpV with | .str s => s | _ => "") -- f-string of the path
        (sortStrings names.dedup)))

/-- The scan `check_conflict` performs over the decoded tracking file. -/
def conflictScan (fpV : JValue) (agent_name : String) (v : JValue) :
    Except PyErr (Option String) :=
  match pyIterList v with
  | .error err => .error err
  | .ok entries =>
    match collectOthers fpV agent_name entries with
    | .error err => .error err
    | .ok others => conflictRender fpV others

/-- `check_conflict`, generalized to a JSON-valued `file_path` as `main` may
deliver. -/
def check_conflict_v (fpV : JValue) (agent_name : String)
    (tracking_path : String) (fs : FS) : Except PyErr (Option String) :=
  if agent_name = "" then .ok none
  else
    match fs tracking_path with
    | none => .ok none
    | some .junk => .ok none
    | some (.jval v) => conflictScan fpV agent_name v

/-- `check_conflict` at its annotated string-typed signature. -/
def check_conflict (file_path agent_name : String) (tracking_path : String)
    (fs : FS) : Except PyErr (Option String) :=
  check_conflict_v (.str file_path) agent_name tracking_path fs

/-- The conflicting-agent names of a list of well-formed tracked records:
records for the same file by a different agent. -/
def otherAgents (entries : List EditEntry) (fp an : String) : List String :=
  (entries.filter (fun e => e.file == fp && e.agent != an)).map (fun e => e.agent)

end FileTracker

namespace FileTracker

theorem jvEq_str (a b : String) : jvEq (.str a) (.str b) = (a == b) := rfl

theorem collectOthers_cons (fp an : String) (e : EditEntry) (rest : List JValue) :
    collectOthers (.str fp) an (EditEntry.toJValue e :: rest) =
      if e.file == fp && e.agent != an then
        match collectOthers (.str fp) an rest with
        | .ok others => .ok (.str e.agent :: others)
        | .error err => .error err
      else collectOthers (.str fp) an rest := by
  have h1 : List.lookup "file"
      [("file", JValue.str e.file), ("agent", JValue.str e.agent),
       ("tool", JValue.str e.tool), ("ts", JValue.num e.ts)] =
      some (JValue.str e.file) := rfl
  have h2 : List.lookup "agent"
      [("file", JValue.str e.file), ("agent", JValue.str e.agent),
       ("tool", JValue.str e.tool), ("ts", JValue.num e.ts)] =
      some (JValue.str e.agent) := rfl
  simp only [collectOthers, EditEntry.toJValue, h1, h2, Option.getD_some, jvEq_str]
  rfl

theorem collectOthers_entries (fp an : String) (entries : List EditEntry) :
    collectOthers (.str fp) an (entries.map EditEntry.toJValue) =
      .ok ((otherAgents entries fp an).map JValue.str) := by
  induction entries with
  | nil => rfl
  | cons e rest ih =>
    rw [List.map_cons, collectOthers_cons, ih]
    by_cases hcond : (e.file == fp && e.agent != an) = true
    · rw [if_pos hcond]
      simp only [otherAgents, List.filter_cons, hcond, if_pos, List.map_cons]
    · rw [if_neg hcond]
      have hcf : (e.file == fp && e.agent != an) = false := Bool.eq_false_iff.mpr hcond
      simp [otherAgents, List.filter_cons, hcf]

theorem allStrs_map (l : List String) : allStrs (l.map JValue.str) = some l := by
  induction l with
  | nil => rfl
  | cons s rest ih => simp [allStrs, ih]

theorem isEmpty_map_str (l : List String) :
    ((l.map JValue.str).isEmpty) = l.isEmpty := by
  cases l <;> rfl

theorem conflictScan_entries (fp an : String) (entries : List EditEntry) :
    conflictScan (.str fp) an (.arr (entries.map EditEntry.toJValue)) =
      .ok (if otherAgents entries fp an = [] then none
          else some (mkWarning fp (sortStrings (otherAgents entries fp an).dedup))) := by
  have step1 : conflictScan (.str fp) an (.arr (entries.map EditEntry.toJValue)) =
      conflictRender (.str fp) ((otherAgents entries fp an).map JValue.str) := by
    show (match collectOthers (JValue.str fp) an (entries.map EditEntry.toJValue) with
          | .error err => .error err
          | .ok others => conflictRender (.str fp) others) =
        conflictRender (.str fp) ((otherAgents entries fp an).map JValue.str)
    rw [collectOthers_entries]
  rw [step1]
  unfold conflictRender
  rw [isEmpty_map_str, allStrs_map]
  by_cases hemp : otherAgents entries fp an = []
  · rw [if_pos hemp, hemp]
    rfl
  · have : (otherAgents entries fp an).isEmpty = false := by
      simp [List.isEmpty_iff, hemp]
    rw [this, if_neg hemp]
    rfl

/--
**C3.** `check_conflict(file_path, agent_name, tracking_path)` returns a
warning string if and only if `agent_name` is non-empty, the tracking file
exists and parses as JSON, and at least one recorded entry has the same file
path but a different agent name; the warning lists the distinct other agent
names sorted and comma-joined, and in every other case (empty agent name,
missing file, unparseable file, no such entry) the function returns `None`.
-/
theorem check_conflict_spec (fp an tp : String) (fs : FS)
    (entries : List EditEntry)
    (hfile : fs tp = some (.jval (.arr (entries.map EditEntry.toJValue)))) :
    (check_conflict fp an tp fs =
      .ok (if an ≠ "" ∧ otherAgents entries fp an ≠ [] then
            some (mkWarning fp (sortStrings (otherAgents entries fp an).dedup))
          else none)) ∧
    (otherAgents entries fp an ≠ [] ↔ ∃ e ∈ entries, e.file = fp ∧ e.agent ≠ an) ∧
    (∀ fs2 : FS, fs2 tp = none → check_conflict fp an tp fs2 = .ok none) ∧
    (∀ fs3 : FS, fs3 tp = some .junk → check_conflict fp an tp fs3 = .ok none) := by
  refine ⟨?_, ?_, ?_, ?_⟩
  · unfold check_conflict check_conflict_v
    by_cases han : an = ""
    · rw [if_pos han]
      have : ¬(an ≠ "" ∧ otherAgents entries fp an ≠ []) := fun h => h.1 han
      rw [if_neg this]
    · rw [if_neg han, hfile]
      have hscan := conflictScan_entries fp an entries
      refine Eq.trans hscan ?_
      by_cases hemp : otherAgents entries fp an = []
      · rw [if_pos hemp]
        have : ¬(an ≠ "" ∧ otherAgents entries fp an ≠ []) := fun h => h.2 hemp
        rw [if_neg this]
      · rw [if_neg hemp, if_pos ⟨han, hemp⟩]
  · constructor
    · intro hne
      rcases List.exists_mem_of_ne_nil _ hne with ⟨a, ha⟩
      simp only [otherAgents, List.mem_map, List.mem_filter] at ha
      rcases ha with ⟨e, ⟨hmem, hcond⟩, rfl⟩
      refine ⟨e, hmem, ?_, ?_⟩
      · have := (Bool.and_eq_true _ _).mp hcond
        exact eq_of_beq this.1
      · have := (Bool.and_eq_true _ _).mp hcond
        simpa using this.2
    · rintro ⟨e, hmem, hfp, hag⟩ hnil
      have : e.agent ∈ otherAgents entries fp an := by
        simp only [otherAgents, List.mem_map, List.mem_filter]
        exact ⟨e, ⟨hmem, by simp [hfp, hag]⟩, rfl⟩
      rw [hnil] at this
      exact absurd this (List.not_mem_nil _)
  · intro fs2 h2
    unfold check_conflict check_conflict_v
    by_cases han : an = ""
    · rw [if_pos han]
    · rw [if_neg han, h2]
  · intro fs3 h3
    unfold check_conflict check_conflict_v
    by_cases han : an = ""
    · rw [if_pos han]
    · rw [if_neg han, h3]

/-- A concrete tracking-file state for exercising `check_conflict`. -/
def sampleTrackingFS : FS := fun p =>
  if p = "/home/u/.claude/teams/t/file-edits.json" then
    some (.jval (.arr (([⟨"a.py", "alice", "Edit", 0⟩] :
      List EditEntry).map EditEntry.toJValue)))
  else none

theorem check_conflict_spec_witness :
    sampleTrackingFS "/home/u/.claude/teams/t/file-edits.json" =
      some (.jval (.arr (([⟨"a.py", "alice", "Edit", 0⟩] :
        List EditEntry).map EditEntry.toJValue))) ∧
    check_conflict "a.py" "bob" "/home/u/.claude/teams/t/file-edits.json"
        sampleTrackingFS =
      .ok (if ("bob" : String) ≠ "" ∧
            otherAgents [⟨"a.py", "alice", "Edit", 0⟩] "a.py" "bob" ≠ [] then
          some (mkWarning "a.py"
            (sortStrings (otherAgents [⟨"a.py", "alice", "Edit", 0⟩] "a.py" "bob").dedup))
        else none) :=
  ⟨rfl, (check_conflict_spec "a.py" "bob" "/home/u/.claude/teams/t/file-edits.json"
    sampleTrackingFS [⟨"a.py", "alice", "Edit", 0⟩] rfl).1⟩

end FileTracker

/-- The observable outcome of a hook process that exited 0: what it printed
to stdout (at most one JSON object) and the filesystem it left behind. -/
structure HookResult where
  output : Option JValue
  fs : FS

namespace FileTracker

/-- The tail of `file_tracker.main` once a truthy `file_path` is in hand:
check for a conflict, record the edit, and warn.  The empty agent name is
recorded as `"orchestrator"` (`agent_name or "orchestrator"`). -/
def trackAndWarn (team_name agent_name : String) (tool_name file_path : JValue)
    (ts : ℚ) (home : String) (fs : FS) : Except PyErr HookResult :=
  match check_conflict_v file_path agent_name
      (home ++ "/.claude/teams/" ++ team_name ++ "/file-edits.json") fs with
  | .error err => .error err
  | .ok conflict =>
    match track_edit_v file_path
        (if agent_name = "" then "orchestrator" else agent_name)
        tool_name ts
        (home ++ "/.claude/teams/" ++ team_name ++ "/file-edits.json") fs with
    | .error err => .error err
    | .ok fs2 =>
      match conflict with
      | some w => .ok ⟨some (hookOutput ("⚠️ " ++ w)), fs2⟩
      | none => .ok ⟨none, fs2⟩

/-- `file_tracker.main`: the PostToolUse hook body.  `stdin` is the result
of `json.load(sys.stdin)` (`none` = `JSONDecodeError`, which the source
catches); `teamNameEnv`/`agentNameEnv` are the `CLAUDE_CODE_TEAM_NAME` /
`CLAUDE_CODE_AGENT_NAME` environment values (`""` = unset); `ts` is the
current `int(time.time())`; `home` is `Path.home()`.  An `.error` result is
an uncaught Python exception (non-zero exit); `.ok` is `sys.exit(0)`. -/
def file_tracker_main (teamNameEnv agentNameEnv : String) (stdin : Option JValue)
    (ts : ℚ) (home : String) (fs : FS) : Except PyErr HookResult :=
  if lowerStr teamNameEnv = "" then .ok ⟨none, fs⟩
  else
    match stdin with
    | none => .ok ⟨none, fs⟩
    | some input =>
      match pyGet input "tool_input" with
      | .error err => .error err
      | .ok tiOpt =>
        match pyGet (tiOpt.getD (.obj [])) "file_path" with
        | .error err => .error err
        | .ok fpOpt =>
          if pyTruthy (fpOpt.getD (.str "")) = false then .ok ⟨none, fs⟩
          else
            match pyGet input "tool_name" with
            | .error err => .error err
            | .ok tnOpt =>
              trackAndWarn (lowerStr teamNameEnv) agentNameEnv
                (tnOpt.getD (.str "")) (fpOpt.getD (.str "")) ts home fs

end FileTracker

/-! ## hooks/peer_inject.py -/

namespace PeerInject

/-- The peer-list comprehension of `get_peer_context`:
`[m["name"] for m in members if m.get("agentType") != agent_type]`. -/
def peersOf (agent_type : JValue) : List JValue → Except PyErr (List JValue)
  | [] => .ok []
  | m :: rest =>
    match m with
    | .obj kvs =>
      if !(jvEq ((List.lookup "agentType" kvs).getD .null) agent_type) then
        match List.lookup "name" kvs with
        | some v =>
          match peersOf agent_type rest with
          | .ok peers => .ok (v :: peers)
          | .error err => .error err
        | none => .error .keyError
      else peersOf agent_type rest
    | _ => .error .attributeError

/-- The rendering step of `get_peer_context` over the collected peers. -/
def peerRender (peers : List JValue) : Except PyErr (Option String) :=
  if peers.isEmpty then .ok (some "You are the only active teammate on this team.")
  else
    match FileTracker.allStrs peers with
    | none => .error .typeError
    | some names =>
      .ok (some ("Active teammates on your team: " ++ joinComma names ++
        "\nYou can message them via SendMessage for shared artifacts or blocking questions."))

/-- The scan `get_peer_context` performs over the decoded `members` value
(Python's `config.get("members", [])` then the peer comprehension). -/
def membersScan (agent_type : JValue) (mem : Option JValue) :
    Except PyErr (Option String) :=
  match pyIterList (mem.getD (JValue.arr [])) with
  | .error err => .error err
  | .ok ms =>
    match peersOf agent_type ms with
    | .error err => .error err
    | .ok peers => peerRender peers

/-- `peer_inject.get_peer_context`, generalized to a JSON-valued
`agent_type` as `main` may deliver. -/
def get_peer_context_v (agent_type : JValue) (team_name : String)
    (teams_dir : String) (fs : FS) : Except PyErr (Option String) :=
  if team_name = "" then .ok none
  else
    match fs (teams_dir ++ "/" ++ team_name ++ "/config.json") with
    | none => .ok none
    | some .junk => .ok none
    | some (.jval config) =>
      match pyGet config "members" with
      | .error err => .error err
      | .ok mem => membersScan agent_type mem

/-- `get_peer_context` at its annotated string-typed signature. -/
def get_peer_context (agent_type team_name teams_dir : String) (fs : FS) :
    Except PyErr (Option String) :=
  get_peer_context_v (.str agent_type) team_name teams_dir fs

/-- `peer_inject.main`: the SubagentStart hook body. -/
def peer_inject_main (teamNameEnv : String) (stdin : Option JValue)
    (home : String) (fs : FS) : Except PyErr HookResult :=
  match stdin with
  | none => .ok ⟨none, fs⟩
  | some input =>
    match pyGet input "agent_type" with
    | .error err => .error err
    | .ok atOpt =>
      let agent_type := atOpt.getD (.str "")
      let team_name := teamNameEnv
      match get_peer_context_v agent_type team_name (home ++ "/.claude/teams") fs with
      | .error err => .error err
      | .ok ctx =>
        match ctx with
        | some c =>
          if c = "" then .ok ⟨none, fs⟩ else .ok ⟨some (hookOutput c), fs⟩
        | none => .ok ⟨none, fs⟩

end PeerInject

/-! ## String helpers shared by the refresh subsystem -/

/-- `needle` is a prefix of `hay`. -/
def startsWithL : List Char → List Char → Bool
  | [], _ => true
  | _ :: _, [] => false
  | n :: ns, h :: hs => n == h && startsWithL ns hs

/-- Python `needle in hay` on strings (substring containment). -/
def containsSub (needle : List Char) : List Char → Bool
  | [] => needle.isEmpty
  | h :: hs => startsWithL needle (h :: hs) || containsSub needle hs

/-- Python `s.split("/")` (on character lists). -/
def splitSlashL : List Char → List (List Char)
  | [] => [[]]
  | c :: rest =>
    if c = '/' then [] :: splitSlashL rest
    else
      match splitSlashL rest with
      | h :: t => (c :: h) :: t
      | [] => [[c]]

/-- Number of occurrences of a character. -/
def countCh (c : Char) (l : List Char) : Nat := (l.filter (fun d => d == c)).length

/-- Python `str()` of a decoded JSON value, as interpolated by the
f-strings of the prose templates.  Numbers print integrally when integral;
container rendering is simplified (no `repr` quoting). -/
def pyStr : JValue → String
  | .str s => s
  | .bool b => if b then "True" else "False"
  | .null => "None"
  | .num q => if q.den = 1 then toString q.num else toString q.num ++ "/" ++ toString q.den
  | .arr xs => "[" ++ joinComma (xs.map pyStrShallow) ++ "]"
  | .obj kvs => "\x7b" ++ joinComma (kvs.map (fun kv => kv.1 ++ ": " ++ pyStrShallow kv.2)) ++ "\x7d"
where
  /-- one-level rendering of container elements -/
  pyStrShallow : JValue → String
  | .str s => s
  | .bool b => if b then "True" else "False"
  | .null => "None"
  | .num q => if q.den = 1 then toString q.num else toString q.num ++ "/" ++ toString q.den
  | .arr _ => "[...]"
  | .obj _ => "\x7b...\x7d"

/-! ## hooks/refresh/shared_constants.py -/

namespace SharedConstants

/-- A prose-template context: the checkpoint's small key/value dictionary. -/
def Ctx : Type := List (String × JValue)

/-- `ctx.get(k, default)`. -/
def ctxGet (ctx : Ctx) (k : String) (default : JValue) : JValue :=
  (List.lookup k ctx).getD default

/-- Python `blocking in (False, "False", "0", 0)`. -/
def isFalsyBlocking (v : JValue) : Bool :=
  jvEq v (.bool false) || jvEq v (.str "False") || jvEq v (.str "0") || jvEq v (.num 0)

/-- The type of a prose context template function: an `Except` result
models the possibility of an uncaught exception. -/
def ProseTemplate : Type := Ctx → Except PyErr String

def _prose_invoke_reviewers : ProseTemplate := fun ctx =>
  let reviewers := ctxGet ctx "reviewers" (.str "")
  let blocking := ctxGet ctx "blocking" (.str "0")
  let rs := pyStr reviewers
  if containsSub ['/'] rs.toList then
    match splitSlashL rs.toList with
    | [completed, total] =>
      .ok ("Launched " ++ String.mk total ++ " reviewer agents; " ++
        String.mk completed ++ " had completed with " ++ pyStr blocking ++
        " blocking issues.")
    | _ => .error .valueError  -- tuple unpacking of ≠ 2 parts
  else if pyTruthy reviewers then
    .ok ("Launched reviewer agents; " ++ pyStr reviewers ++
      " had completed with " ++ pyStr blocking ++ " blocking issues.")
  else .ok "Was launching reviewer agents."

def _prose_synthesize : ProseTemplate := fun ctx =>
  let blocking := ctxGet ctx "blocking" (ctxGet ctx "has_blocking" (.str "0"))
  let minor := ctxGet ctx "minor_count" (.str "0")
  let future := ctxGet ctx "future_count" (.str "0")
  if isFalsyBlocking blocking then
    .ok ("Completed synthesis with no blocking issues; " ++ pyStr minor ++
      " minor, " ++ pyStr future ++ " future recommendations.")
  else .ok ("Completed synthesis with " ++ pyStr blocking ++ " blocking issues.")

def _prose_recommendations : ProseTemplate := fun ctx =>
  let blocking := ctxGet ctx "has_blocking" (ctxGet ctx "blocking" (.bool false))
  let minor := ctxGet ctx "minor_count" (.num 0)
  let future := ctxGet ctx "future_count" (.num 0)
  if isFalsyBlocking blocking then
    .ok ("Processing recommendations; no blocking issues, " ++ pyStr minor ++
      " minor, " ++ pyStr future ++ " future.")
  else .ok "Processing recommendations with blocking issues to address."

def _prose_merge_ready : ProseTemplate := fun ctx =>
  let blocking := ctxGet ctx "blocking" (ctxGet ctx "has_blocking" (.num 0))
  if isFalsyBlocking blocking then
    .ok "Completed review with no blocking issues; PR ready for merge."
  else .ok "Review complete; awaiting resolution of blocking issues."

def _prose_awaiting_user_decision : ProseTemplate := fun _ =>
  .ok "Was waiting for user decision."

def _prose_commit : ProseTemplate := fun _ =>
  .ok "Was committing changes to git."

def _prose_create_pr : ProseTemplate := fun ctx =>
  let pr_number := ctxGet ctx "pr_number" (.str "")
  if pyTruthy pr_number then .ok ("Was creating PR #" ++ pyStr pr_number ++ ".")
  else .ok "Was creating pull request."

def _prose_variety_assess : ProseTemplate := fun _ =>
  .ok "Was assessing task complexity."

def _prose_prepare : ProseTemplate := fun ctx =>
  let feature := ctxGet ctx "feature" (.str "")
  if pyTruthy feature then .ok ("Was running PREPARE phase for: " ++ pyStr feature ++ ".")
  else .ok "Was running PREPARE phase."

def _prose_architect : ProseTemplate := fun _ =>
  .ok "Was running ARCHITECT phase."

def _prose_code : ProseTemplate := fun ctx =>
  let phase := ctxGet ctx "phase" (.str "")
  if pyTruthy phase then .ok ("Was running CODE phase (" ++ pyStr phase ++ ").")
  else .ok "Was running CODE phase."

def _prose_test : ProseTemplate := fun _ =>
  .ok "Was running TEST phase."

def _prose_analyze : ProseTemplate := fun _ =>
  .ok "Was analyzing scope and selecting specialists."

def _prose_consult : ProseTemplate := fun _ =>
  .ok "Was consulting specialists for planning perspectives."

def _prose_present : ProseTemplate := fun ctx =>
  let plan_file := ctxGet ctx "plan_file" (.str "")
  if pyTruthy plan_file then
    .ok ("Was presenting plan (" ++ pyStr plan_file ++ ") for approval.")
  else .ok "Was presenting plan for user approval."

def _prose_invoking_specialist : ProseTemplate := fun _ =>
  .ok "Was delegating to specialist agent."

def _prose_specialist_completed : ProseTemplate := fun _ =>
  .ok "Specialist work had completed."

def _prose_nested_prepare : ProseTemplate := fun _ =>
  .ok "Was running nested PREPARE phase."

def _prose_nested_architect : ProseTemplate := fun _ =>
  .ok "Was running nested ARCHITECT phase."

def _prose_nested_code : ProseTemplate := fun _ =>
  .ok "Was running nested CODE phase."

def _prose_nested_test : ProseTemplate := fun _ =>
  .ok "Was running nested TEST phase."

def _prose_triage : ProseTemplate := fun ctx =>
  let blocker := ctxGet ctx "blocker" (.str "")
  if pyTruthy blocker then .ok ("Was triaging blocker: " ++ pyStr blocker)
  else .ok "Was triaging a blocker to determine resolution path."

def _prose_assessing_redo : ProseTemplate := fun ctx =>
  let prior_phase := ctxGet ctx "prior_phase" (.str "")
  if pyTruthy prior_phase then
    .ok ("Was assessing whether to redo " ++ pyStr prior_phase ++ " phase.")
  else .ok "Was assessing whether to redo a prior phase."

def _prose_selecting_agents : ProseTemplate := fun ctx =>
  let agents := ctxGet ctx "agents" (.str "")
  if pyTruthy agents then .ok ("Was selecting agents to assist: " ++ pyStr agents ++ ".")
  else .ok "Was selecting agents to assist with resolution."

def _prose_resolution_path : ProseTemplate := fun ctx =>
  let outcome := ctxGet ctx "outcome" (.str "")
  if jvEq outcome (.str "redo_prior_phase") then .ok "Resolution: redo prior phase."
  else if jvEq outcome (.str "augment_present_phase") then
    .ok "Resolution: augment present phase with additional agents."
  else if jvEq outcome (.str "invoke_repact") then
    .ok "Resolution: invoke rePACT for nested cycle."
  else if jvEq outcome (.str "terminate_agent") then
    .ok "Resolution: terminate unrecoverable agent."
  else if jvEq outcome (.str "not_truly_blocked") then
    .ok "Resolution: not truly blocked, continue with guidance."
  else if jvEq outcome (.str "escalate_to_user") then
    .ok "Resolution: escalate to user for input."
  else if jvEq outcome (.str "redo_solo") then
    .ok "Resolution: redo prior phase solo."
  else if jvEq outcome (.str "redo_with_help") then
    .ok "Resolution: redo prior phase with agent assistance."
  else if jvEq outcome (.str "proceed_with_help") then
    .ok "Resolution: proceed with agent assistance."
  else .ok "Was executing resolution path for blocker."

/-- `PROSE_CONTEXT_TEMPLATES`: the step-name → prose-template dictionary,
in source order. -/
def PROSE_CONTEXT_TEMPLATES : List (String × ProseTemplate) := [
  ("commit", _prose_commit),
  ("create-pr", _prose_create_pr),
  ("invoke-reviewers", _prose_invoke_reviewers),
  ("synthesize", _prose_synthesize),
  ("recommendations", _prose_recommendations),
  ("merge-ready", _prose_merge_ready),
  ("awaiting-merge", _prose_awaiting_user_decision),
  ("awaiting_user_decision", _prose_awaiting_user_decision),
  ("variety-assess", _prose_variety_assess),
  ("prepare", _prose_prepare),
  ("architect", _prose_architect),
  ("code", _prose_code),
  ("test", _prose_test),
  ("analyze", _prose_analyze),
  ("consult", _prose_consult),
  ("present", _prose_present),
  ("invoking-specialist", _prose_invoking_specialist),
  ("specialist-completed", _prose_specialist_completed),
  ("nested-prepare", _prose_nested_prepare),
  ("nested-architect", _prose_nested_architect),
  ("nested-code", _prose_nested_code),
  ("nested-test", _prose_nested_test),
  ("triage", _prose_triage),
  ("assessing-redo", _prose_assessing_redo),
  ("selecting-agents", _prose_selecting_agents),
  ("resolution-path", _prose_resolution_path)
]

end SharedConstants

namespace SharedConstants

theorem str_append_ne_empty (a b : String) (ha : a ≠ "") : a ++ b ≠ "" := by
  intro h
  apply ha
  have hd : a.data ++ b.data = [] := by
    have := congrArg String.data h
    simpa [String.data_append] using this
  have : a.data = [] := (List.append_eq_nil.mp hd).1
  cases a
  simp_all

theorem lookup_mem_pairs {β : Type} (k : String) (v : β)
    (l : List (String × β)) (h : List.lookup k l = some v) : (k, v) ∈ l := by
  induction l with
  | nil => simp [List.lookup] at h
  | cons p rest ih =>
    rcases p with ⟨k2, v2⟩
    by_cases hk : (k == k2) = true
    · rw [List.lookup, hk] at h
      have hkk : k = k2 := by simpa using hk
      have hv : v2 = v := by simpa using h
      subst hkk; subst hv
      exact List.mem_cons_self _ _
    · rw [List.lookup, Bool.eq_false_iff.mpr hk] at h
      exact List.mem_cons_of_mem _ (ih h)

theorem ctxGet_map_str (ctx : List (String × String)) (k d : String) :
    ctxGet (ctx.map (fun kv => (kv.1, JValue.str kv.2))) k (.str d) =
      .str ((List.lookup k ctx).getD d) := by
  induction ctx with
  | nil => rfl
  | cons p rest ih =>
    rcases p with ⟨k2, v2⟩
    by_cases hk : (k == k2) = true
    · simp only [ctxGet, List.map_cons, List.lookup, hk]
      rfl
    · simp only [ctxGet, List.map_cons, List.lookup, Bool.eq_false_iff.mpr hk] at ih ⊢
      exact ih

theorem splitSlashL_length (l : List Char) :
    (splitSlashL l).length = countCh '/' l + 1 := by
  induction l with
  | nil => rfl
  | cons c rest ih =>
    by_cases hc : c = '/'
    · subst hc
      simp [splitSlashL, countCh, List.filter_cons] at ih ⊢
      omega
    · simp only [splitSlashL, if_neg hc]
      have hcc : (c == '/') = false := by simpa using hc
      cases hsp : splitSlashL rest with
      | nil => rw [hsp] at ih; simp at ih
      | cons h t =>
        rw [hsp] at ih
        simp only [List.length_cons] at ih ⊢
        simpa [countCh, List.filter_cons, hcc] using ih

theorem containsSub_slash_count (l : List Char)
    (h : containsSub ['/'] l = true) : 1 ≤ countCh '/' l := by
  induction l with
  | nil => simp [containsSub] at h
  | cons c rest ih =>
    rw [containsSub, Bool.or_eq_true] at h
    rcases h with h1 | h2
    · have hc : ('/' == c) = true := by
        simpa [startsWithL] using h1
      have hc2 : c = '/' := (eq_of_beq hc).symm
      subst hc2
      simp [countCh, List.filter_cons]
    · have := ih h2
      simp only [countCh, List.filter_cons]
      by_cases hc : (c == '/') = true
      · simp only [hc, if_pos, List.length_cons]
        simp only [countCh] at this
        omega
      · simp only [Bool.eq_false_iff.mpr hc, Bool.false_eq_true, if_false]
        exact this

theorem invoke_reviewers_total (ctx : List (String × String))
    (h : countCh '/' ((List.lookup "reviewers" ctx).getD "").toList ≤ 1) :
    ∃ s, _prose_invoke_reviewers (ctx.map (fun kv => (kv.1, JValue.str kv.2))) =
      .ok s ∧ s ≠ "" := by
  simp only [_prose_invoke_reviewers, ctxGet_map_str]
  set v := (List.lookup "reviewers" ctx).getD "" with hv
  rw [show pyStr (JValue.str v) = v from rfl]
  by_cases hc : containsSub ['/'] v.toList = true
  · rw [if_pos hc]
    have h1 := containsSub_slash_count _ hc
    have hcount : countCh '/' v.toList = 1 := le_antisymm h h1
    have hlen : (splitSlashL v.toList).length = 2 := by
      rw [splitSlashL_length, hcount]
    rcases List.length_eq_two.mp hlen with ⟨a, b, hab⟩
    rw [hab]
    refine ⟨_, rfl, ?_⟩
    repeat' apply str_append_ne_empty
    decide
  · rw [if_neg hc]
    by_cases ht : pyTruthy (JValue.str v) = true
    · rw [if_pos ht]
      refine ⟨_, rfl, ?_⟩
      repeat' apply str_append_ne_empty
      decide
    · rw [if_neg ht]
      exact ⟨_, rfl, by decide⟩

end SharedConstants

namespace SharedConstants

/--
**C4 (counterexample).** The claim that every prose template is total over
string-valued contexts fails: `_prose_invoke_reviewers` raises `ValueError`
on a `"reviewers"` value containing two slashes, because
`completed, total = str(reviewers).split("/")` unpacks exactly two parts.
-/
theorem prose_invoke_reviewers_counterexample :
    List.lookup "invoke-reviewers" PROSE_CONTEXT_TEMPLATES =
      some _prose_invoke_reviewers ∧
    _prose_invoke_reviewers [("reviewers", JValue.str "1/2/3")] =
      .error .valueError :=
  ⟨rfl, rfl⟩

/--
**C4 (amended).** For every step name in `PROSE_CONTEXT_TEMPLATES` and every
context dictionary mapping string keys to string values, the associated
prose template function returns a non-empty string without raising an
exception — provided that, for the `invoke-reviewers` template, the
`"reviewers"` value contains at most one `/` character (with two or more,
the tuple unpacking in `_prose_invoke_reviewers` raises `ValueError`).
-/
theorem prose_templates_total (step : String) (f : ProseTemplate)
    (ctx : List (String × String))
    (hf : List.lookup step PROSE_CONTEXT_TEMPLATES = some f)
    (hrv : step = "invoke-reviewers" →
      countCh '/' ((List.lookup "reviewers" ctx).getD "").toList ≤ 1) :
    ∃ s, f (ctx.map (fun kv => (kv.1, JValue.str kv.2))) = .ok s ∧ s ≠ "" := by
  have hmem := lookup_mem_pairs _ _ _ hf
  simp only [PROSE_CONTEXT_TEMPLATES, List.mem_cons, List.not_mem_nil,
    or_false, Prod.mk.injEq] at hmem
  rcases hmem with c1 | c2 | c3 | c4 | c5 | c6 | c7 | c8 | c9 |
    c10 | c11 | c12 | c13 | c14 | c15 | c16 | c17 | c18 |
    c19 | c20 | c21 | c22 | c23 | c24 | c25 | c26
  -- commit
  · obtain ⟨rfl, rfl⟩ := c1
    exact ⟨_, rfl, by decide⟩
  -- create-pr
  · obtain ⟨rfl, rfl⟩ := c2
    simp only [_prose_create_pr]
    split_ifs <;>
      (refine ⟨_, rfl, ?_⟩
       repeat' apply str_append_ne_empty
       decide)
  -- invoke-reviewers
  · obtain ⟨rfl, rfl⟩ := c3
    exact invoke_reviewers_total ctx (hrv rfl)
  -- synthesize
  · obtain ⟨rfl, rfl⟩ := c4
    simp only [_prose_synthesize]
    split_ifs <;>
      (refine ⟨_, rfl, ?_⟩
       repeat' apply str_append_ne_empty
       decide)
  -- recommendations
  · obtain ⟨rfl, rfl⟩ := c5
    simp only [_prose_recommendations]
    split_ifs <;>
      (refine ⟨_, rfl, ?_⟩
       repeat' apply str_append_ne_empty
       decide)
  -- merge-ready
  · obtain ⟨rfl, rfl⟩ := c6
    simp only [_prose_merge_ready]
    split_ifs <;> exact ⟨_, rfl, by decide⟩
  -- awaiting-merge
  · obtain ⟨rfl, rfl⟩ := c7
    exact ⟨_, rfl, by decide⟩
  -- awaiting_user_decision
  · obtain ⟨rfl, rfl⟩ := c8
    exact ⟨_, rfl, by decide⟩
  -- variety-assess
  · obtain ⟨rfl, rfl⟩ := c9
    exact ⟨_, rfl, by decide⟩
  -- prepare
  · obtain ⟨rfl, rfl⟩ := c10
    simp only [_prose_prepare]
    split_ifs <;>
      (refine ⟨_, rfl, ?_⟩
       repeat' apply str_append_ne_empty
       decide)
  -- architect
  · obtain ⟨rfl, rfl⟩ := c11
    exact ⟨_, rfl, by decide⟩
  -- code
  · obtain ⟨rfl, rfl⟩ := c12
    simp only [_prose_code]
    split_ifs <;>
      (refine ⟨_, rfl, ?_⟩
       repeat' apply str_append_ne_empty
       decide)
  -- test
  · obtain ⟨rfl, rfl⟩ := c13
    exact ⟨_, rfl, by decide⟩
  -- analyze
  · obtain ⟨rfl, rfl⟩ := c14
    exact ⟨_, rfl, by decide⟩
  -- consult
  · obtain ⟨rfl, rfl⟩ := c15
    exact ⟨_, rfl, by decide⟩
  -- present
  · obtain ⟨rfl, rfl⟩ := c16
    simp only [_prose_present]
    split_ifs <;>
      (refine ⟨_, rfl, ?_⟩
       repeat' apply str_append_ne_empty
       decide)
  -- invoking-specialist
  · obtain ⟨rfl, rfl⟩ := c17
    exact ⟨_, rfl, by decide⟩
  -- specialist-completed
  · obtain ⟨rfl, rfl⟩ := c18
    exact ⟨_, rfl, by decide⟩
  -- nested-prepare
  · obtain ⟨rfl, rfl⟩ := c19
    exact ⟨_, rfl, by decide⟩
  -- nested-architect
  · obtain ⟨rfl, rfl⟩ := c20
    exact ⟨_, rfl, by decide⟩
  -- nested-code
  · obtain ⟨rfl, rfl⟩ := c21
    exact ⟨_, rfl, by decide⟩
  -- nested-test
  · obtain ⟨rfl, rfl⟩ := c22
    exact ⟨_, rfl, by decide⟩
  -- triage
  · obtain ⟨rfl, rfl⟩ := c23
    simp only [_prose_triage]
    split_ifs <;>
      (refine ⟨_, rfl, ?_⟩
       repeat' apply str_append_ne_empty
       decide)
  -- assessing-redo
  · obtain ⟨rfl, rfl⟩ := c24
    simp only [_prose_assessing_redo]
    split_ifs <;>
      (refine ⟨_, rfl, ?_⟩
       repeat' apply str_append_ne_empty
       decide)
  -- selecting-agents
  · obtain ⟨rfl, rfl⟩ := c25
    simp only [_prose_selecting_agents]
    split_ifs <;>
      (refine ⟨_, rfl, ?_⟩
       repeat' apply str_append_ne_empty
       decide)
  -- resolution-path
  · obtain ⟨rfl, rfl⟩ := c26
    simp only [_prose_resolution_path]
    split_ifs <;> exact ⟨_, rfl, by decide⟩

theorem prose_templates_total_witness :
    (List.lookup "invoke-reviewers" PROSE_CONTEXT_TEMPLATES =
      some _prose_invoke_reviewers) ∧
    (("invoke-reviewers" : String) = "invoke-reviewers" →
      countCh '/' ((List.lookup "reviewers"
        [("reviewers", "2/3")]).getD "").toList ≤ 1) ∧
    (∃ s, _prose_invoke_reviewers
      (([("reviewers", "2/3")] : List (String × String)).map
        (fun kv => (kv.1, JValue.str kv.2))) = .ok s ∧ s ≠ "") :=
  ⟨rfl, fun _ => by decide,
    prose_templates_total "invoke-reviewers" _prose_invoke_reviewers
      [("reviewers", "2/3")] rfl (fun _ => by decide)⟩

end SharedConstants

/-! ## The checkpoint/refresh pipeline

The sources `hooks/refresh/transcript_parser.py`, `workflow_detector.py`,
`step_extractor.py`, `checkpoint_builder.py`, and the SessionStart hook
`hooks/compaction_refresh.py` are not present in this tree — only their
tests and the spec describe them — so the definitions below are modelled
from the spec (§2, "checkpoint/refresh pipeline") and pinned, where the
tests constrain them, to the behaviour those tests assert.  A transcript
(`.jsonl`, one JSON record per line) is modelled as a `FileData.jval` array
of its decoded rows. -/

namespace Refresh

/-- The environment variables the refresh hooks read (`""` = unset). -/
structure Env where
  sessionId : String
  projectDir : String

/-- Modelled from the spec: `checkpoint_builder.get_session_id` —
`CLAUDE_SESSION_ID`, defaulting to `"unknown"` when unset. -/
def get_session_id (env : Env) : String :=
  if env.sessionId = "" then "unknown" else env.sessionId

/-- `path.split("/")`. -/
def splitSlashStr (s : String) : List String :=
  (splitSlashL s.toList).map String.mk

/-- The path component following a `.claude/projects/` pair of segments. -/
def segAfterProjects : List String → Option String
  | a :: b :: c :: rest =>
    if a = ".claude" ∧ b = "projects" then some c
    else segAfterProjects (b :: c :: rest)
  | _ => none

/-- `dir` with every `/` replaced by `-` (Claude Code's project-folder
naming, which keeps the leading dash). -/
def encodeDir (dir : String) : String :=
  String.mk (dir.toList.map (fun c => if c = '/' then '-' else c))

/-- Modelled from the spec: `checkpoint_builder.get_encoded_project_path` —
extract the encoded project directory from a transcript path of the form
`~/.claude/projects/<encoded>/...`; fall back to encoding
`CLAUDE_PROJECT_DIR`, and to `"unknown-project"` when that is unset. -/
def get_encoded_project_path (transcript_path : String) (env : Env) : String :=
  match segAfterProjects (splitSlashStr transcript_path) with
  | some enc => enc
  | none => if env.projectDir ≠ "" then encodeDir env.projectDir else "unknown-project"

/-- The persisted checkpoint's location: `~/.claude/pact-refresh/<encoded>.json`. -/
def checkpoint_path (home transcript_path : String) (env : Env) : String :=
  home ++ "/.claude/pact-refresh/" ++ get_encoded_project_path transcript_path env ++ ".json"

/-- One classified conversation turn. -/
structure Turn where
  turn_type : String
  content : String
  line_number : Nat
  deriving DecidableEq, Repr

/-- Modelled from the spec: `transcript_parser` — classify one decoded
transcript row as a turn (user/assistant/tool with its text content). -/
def parseTurnRow (i : Nat) (row : JValue) : Turn :=
  match row with
  | .obj kvs =>
    { turn_type := match List.lookup "type" kvs with | some (.str t) => t | _ => "unknown"
      content := match List.lookup "content" kvs with | some (.str c) => c | _ => ""
      line_number := i + 1 }
  | _ => { turn_type := "unknown", content := "", line_number := i + 1 }

/-- Modelled from the spec: the transcript scanner — a pure function of the
decoded transcript rows. -/
def parse_transcript (rows : List JValue) : List Turn :=
  rows.enum.map (fun p => parseTurnRow p.1 p.2)

/-- The workflow detector's result. -/
structure WorkflowInfo where
  name : String
  workflow_id : String
  started_at : String
  confidence : ℚ
  is_terminated : Bool
  notes : String
  deriving DecidableEq, Repr

/-- The step extractor's pending-action result. -/
structure PendingAction where
  action_type : String
  instruction : String
  deriving DecidableEq, Repr

/-- The step extractor's result. -/
structure StepInfo where
  name : String
  sequence : Nat
  started_at : String
  pending_action : Option PendingAction
  context : List (String × JValue)

/-- The trigger phrases (slash-command-like markers) and the workflows they
start. -/
def workflowTriggers : List (String × String) := [
  ("/PACT:peer-review", "peer-review"),
  ("/PACT:orchestrate", "orchestrate"),
  ("/PACT:plan", "plan-mode"),
  ("/PACT:comPACT", "comPACT"),
  ("/PACT:imPACT", "imPACT")]

/-- The first trigger phrase contained in a turn's content. -/
def findTrig : List (String × String) → String → Option String
  | [], _ => none
  | (ph, nm) :: rest, c =>
    if containsSub ph.toList c.toList then some nm else findTrig rest c

/-- The most recent turn carrying a trigger phrase. -/
def lastTrigger (turns : List Turn) : Option (Turn × String) :=
  turns.foldl (fun acc t =>
    match findTrig workflowTriggers t.content with
    | some nm => some (t, nm)
    | none => acc) none

/-- The suffix of `l` after the first occurrence of `marker`, if any. -/
def afterMarker (marker : List Char) : List Char → Option (List Char)
  | [] => none
  | c :: rest =>
    if startsWithL marker (c :: rest) then some ((c :: rest).drop marker.length)
    else afterMarker marker rest

/-- The value of a `[STEP: <name>]` marker in a turn's content. -/
def stepMarkValue (content : String) : Option String :=
  (afterMarker ("[STEP: ".toList) content.toList).map
    (fun l => String.mk (l.takeWhile (fun ch => ch ≠ ']')))

/-- The value of a `[WORKFLOW-ID: <id>]` marker in a turn's content. -/
def wfIdValue (content : String) : Option String :=
  (afterMarker ("[WORKFLOW-ID: ".toList) content.toList).map
    (fun l => String.mk (l.takeWhile (fun ch => ch ≠ ']')))

/-- The most recent step marker in the transcript. -/
def lastStepMark (turns : List Turn) : Option String :=
  turns.foldl (fun acc t =>
    match stepMarkValue t.content with
    | some nm => some nm
    | none => acc) none

/-- The most recent workflow-id marker in the transcript. -/
def lastWfId (turns : List Turn) : Option String :=
  turns.foldl (fun acc t =>
    match wfIdValue t.content with
    | some i => some i
    | none => acc) none

/-- Modelled from the spec: the workflow detector — scans turns for trigger
phrases, with a confidence score combining trigger recency, corroborating
tool calls, and step-marker matches, and detects explicit termination. -/
def detect_workflow (turns : List Turn) : WorkflowInfo :=
  match lastTrigger turns with
  | none =>
    { name := "none", workflow_id := "", started_at := "", confidence := 1,
      is_terminated := false, notes := "No PACT trigger found" }
  | some (t, nm) =>
    let terminated := turns.any (fun u =>
      decide (t.line_number < u.line_number) &&
        containsSub ("Workflow terminated".toList) u.content.toList)
    let hasTool := turns.any (fun u =>
      decide (t.line_number ≤ u.line_number) && (u.turn_type == "tool"))
    let hasStep := turns.any (fun u =>
      decide (t.line_number ≤ u.line_number) && (stepMarkValue u.content).isSome)
    let recent := decide (turns.length ≤ t.line_number + 50)
    { name := nm
      workflow_id := (lastWfId turns).getD ""
      started_at := ""
      confidence := min 1 ((1/2 : ℚ) + (if recent then 1/5 else 0) +
        (if hasTool then 3/20 else 0) + (if hasStep then 3/20 else 0))
      is_terminated := terminated
      notes := "trigger found: " ++ nm }

/-- Split `k=v` at the first `=`. -/
def splitEq (l : List Char) : Option (String × String) :=
  let k := l.takeWhile (fun ch => ch ≠ '=')
  let rest := l.dropWhile (fun ch => ch ≠ '=')
  match rest with
  | [] => none
  | _ :: v => some (String.mk k, String.mk v)

/-- The key/value pairs of `[CTX: k=v]` markers across the transcript. -/
def ctxOf (turns : List Turn) : List (String × JValue) :=
  turns.foldl (fun acc t =>
    match afterMarker ("[CTX: ".toList) t.content.toList with
    | some l =>
      match splitEq (l.takeWhile (fun ch => ch ≠ ']')) with
      | some (k, v) => acc ++ [(k, JValue.str v)]
      | none => acc
    | none => acc) []

/-- Modelled from the spec: the step extractor — the most recent step
marker, an unresolved pending action (an outstanding assistant question),
and the small key/value context dictionary. -/
def extract_step (turns : List Turn) : StepInfo :=
  let pending : Option PendingAction :=
    match turns.getLast? with
    | some u =>
      if u.turn_type == "assistant" && containsSub ['?'] u.content.toList then
        some { action_type := "AskUserQuestion", instruction := u.content }
      else none
    | none => none
  { name := (lastStepMark turns).getD ""
    sequence := (turns.filter (fun u => (stepMarkValue u.content).isSome)).length
    started_at := ""
    pending_action := pending
    context := ctxOf turns }

end Refresh

namespace CheckpointBuilder

open Refresh

/-- Modelled from the spec: `checkpoint_builder.build_checkpoint` —
assembles detector + extractor output plus environment into a small
versioned record (tests pin the exact field layout; a terminated workflow
stores the name `"none"` and the note `"Workflow terminated"`). -/
def build_checkpoint (workflow_info : WorkflowInfo)
    (step_info : StepInfo) (lines_scanned : Nat) (env : Env)
    (created_at : String) : JValue :=
  .obj [
    ("version", .str "1.0"),
    ("session_id", .str (get_session_id env)),
    ("workflow", .obj [
      ("name", .str (if workflow_info.is_terminated then "none" else workflow_info.name)),
      ("id", .str workflow_info.workflow_id),
      ("started_at", .str workflow_info.started_at)]),
    ("step", .obj [
      ("name", .str step_info.name),
      ("sequence", .num step_info.sequence),
      ("started_at", .str step_info.started_at)]),
    ("pending_action",
      match step_info.pending_action with
      | none => .null
      | some pa => .obj [
          ("type", .str pa.action_type),
          ("instruction", .str pa.instruction),
          ("data", .obj [])]),
    ("context", .obj step_info.context),
    ("extraction", .obj [
      ("confidence", .num workflow_info.confidence),
      ("notes", .str (if workflow_info.is_terminated then "Workflow terminated"
        else workflow_info.notes)),
      ("transcript_lines_scanned", .num lines_scanned)]),
    ("created_at", .str created_at)]

/-- Modelled from the spec: `checkpoint_builder.build_no_workflow_checkpoint`. -/
def build_no_workflow_checkpoint (lines_scanned : Nat) (reason : String)
    (env : Env) (created_at : String) : JValue :=
  .obj [
    ("version", .str "1.0"),
    ("session_id", .str (get_session_id env)),
    ("workflow", .obj [("name", .str "none"), ("id", .str ""), ("started_at", .str "")]),
    ("step", .obj [("name", .str ""), ("sequence", .num 0), ("started_at", .str "")]),
    ("pending_action", .null),
    ("context", .obj []),
    ("extraction", .obj [
      ("confidence", .num 1),
      ("notes", .str reason),
      ("transcript_lines_scanned", .num lines_scanned)]),
    ("created_at", .str created_at)]

/-- The builder-side validation of the `extraction` field: present, a
dict, and carrying a `confidence`. -/
def validateExtraction (kvs : List (String × JValue)) : Bool × String :=
  match List.lookup "extraction" kvs with
  | none => (false, "Missing required field: extraction")
  | some ex =>
    match ex with
    | .obj ekvs =>
      if (List.lookup "confidence" ekvs).isNone then
        (false, "Missing required field: extraction.confidence")
      else (true, "")
    | _ => (false, "Missing required field: extraction.confidence")

/-- The builder-side validation of the `workflow` field: a dict carrying a
`name`, then the extraction checks. -/
def validateWorkflow (kvs : List (String × JValue)) (wf : JValue) :
    Bool × String :=
  match wf with
  | .obj wkvs =>
    if (List.lookup "name" wkvs).isNone then
      (false, "Missing required field: workflow.name")
    else validateExtraction kvs
  | _ => (false, "Missing required field: workflow.name")

/-- Modelled from the spec: the builder-side `validate_checkpoint` —
checks every required field is present, reporting the first missing one. -/
def validate_checkpoint (checkpoint : JValue) : Bool × String :=
  match checkpoint with
  | .obj kvs =>
    if (List.lookup "version" kvs).isNone then
      (false, "Missing required field: version")
    else if (List.lookup "session_id" kvs).isNone then
      (false, "Missing required field: session_id")
    else
      match List.lookup "workflow" kvs with
      | none => (false, "Missing required field: workflow")
      | some wf => validateWorkflow kvs wf
  | _ => (false, "Checkpoint is not a dict")

/-- The required-field predicate the builder-side validation decides:
`version`, `session_id`, a `workflow` with a `name`, and an `extraction`
with a `confidence`. -/
def RequiredFields (checkpoint : JValue) : Prop :=
  ∃ kvs, checkpoint = .obj kvs ∧
    (List.lookup "version" kvs).isSome ∧
    (List.lookup "session_id" kvs).isSome ∧
    (∃ wkvs, List.lookup "workflow" kvs = some (.obj wkvs) ∧
      (List.lookup "name" wkvs).isSome) ∧
    (∃ ekvs, List.lookup "extraction" kvs = some (.obj ekvs) ∧
      (List.lookup "confidence" ekvs).isSome)

/-- `kvs` with every binding of key `k` removed (deleting a dict key). -/
def removeKey (kvs : List (String × JValue)) (k : String) :
    List (String × JValue) :=
  kvs.filter (fun kv => kv.1 != k)

end CheckpointBuilder

mutual

/-- Does any string leaf of the value equal or contain the given string? -/
def jvHasSub (needle : List Char) : JValue → Bool
  | .str s => containsSub needle s.toList
  | .arr xs => jvHasSubList needle xs
  | .obj kvs => jvHasSubKV needle kvs
  | _ => false

/-- `jvHasSub` over array elements. -/
def jvHasSubList (needle : List Char) : List JValue → Bool
  | [] => false
  | x :: xs => jvHasSub needle x || jvHasSubList needle xs

/-- `jvHasSub` over object values. -/
def jvHasSubKV (needle : List Char) : List (String × JValue) → Bool
  | [] => false
  | (_, v) :: kvs => jvHasSub needle v || jvHasSubKV needle kvs

end

namespace CompactionRefresh

open Refresh

/-- The version the consumer accepts. -/
def SUPPORTED_VERSION : String := "1.0"

/-- Modelled from the spec: the consumer-side `validate_checkpoint` —
accepts only a (necessarily non-empty) dict record whose `session_id`
matches the current session, whose `version` is the supported version, and
which contains a `workflow` field. -/
def validate_checkpoint (record : Option JValue) (session_id : String) : Bool :=
  match record with
  | some (.obj kvs) =>
    jvEq ((List.lookup "session_id" kvs).getD .null) (.str session_id) &&
    jvEq ((List.lookup "version" kvs).getD .null) (.str SUPPORTED_VERSION) &&
    (List.lookup "workflow" kvs).isSome
  | _ => false

/-- A field of a decoded checkpoint record. -/
def field (v : JValue) (k : String) : Option JValue :=
  match v with
  | .obj kvs => List.lookup k kvs
  | _ => none

/-- A string field with a default. -/
def strField (v : JValue) (k : String) (d : String) : String :=
  match field v k with
  | some (.str s) => s
  | _ => d

/-- Modelled from the spec: `build_refresh_message` — the short directive
prompt re-injected after compaction (format pinned by the tests: header,
explanatory line, workflow line, prose context line, next-step line; empty
for the `"none"` workflow; a confidence below 0.8 appends an approval
warning). -/
def build_refresh_message (cp : JValue) : Except PyErr String :=
  let workflow := (field cp "workflow").getD (.obj [])
  let wfname := strField workflow "name" "unknown"
  if wfname = "none" then .ok ""
  else
    let wfid := strField workflow "id" ""
    let stepName := strField ((field cp "step").getD (.obj [])) "name" "unknown"
    let ctx : List (String × JValue) :=
      match field cp "context" with
      | some (.obj kvs) => kvs
      | _ => []
    let conf : ℚ :=
      match field ((field cp "extraction").getD (.obj [])) "confidence" with
      | some (.num q) => q
      | _ => 0
    let prose : Except PyErr String :=
      match List.lookup stepName SharedConstants.PROSE_CONTEXT_TEMPLATES with
      | some f => f ctx
      | none =>
        .ok (stepName ++ " — " ++
          joinComma (ctx.map (fun kv => kv.1 ++ "=" ++ pyStr kv.2)))
    match prose with
    | .error err => .error err
    | .ok p =>
      let nline :=
        match field cp "pending_action" with
        | some (.obj pkvs) =>
          "Next Step: " ++
            (match List.lookup "instruction" pkvs with
             | some (.str s) => s
             | _ => "") ++
            (if conf < (4/5 : ℚ) then ". **Get user approval before acting.**" else "")
        | _ => "Next Step: **Ask user how to proceed.**"
      .ok ("[POST-COMPACTION CHECKPOINT]\n" ++
        "Prior conversation auto-compacted. Resume unfinished PACT workflow below:\n" ++
        "Workflow: " ++ wfname ++ (if wfid ≠ "" then " (" ++ wfid ++ ")" else "") ++ "\n" ++
        "Context: " ++ p ++ "\n" ++ nline)

/-- The refresh instruction always begins with this banner; notes emitted
on failure never do. -/
def isRefreshInstruction (msg : String) : Bool :=
  startsWithL ("[POST-COMPACTION CHECKPOINT]".toList) msg.toList

/-- The note emitted when the stored checkpoint fails validation. -/
def validationFailedNote : String :=
  "PACT refresh: checkpoint validation failed; ignoring stale checkpoint."

/-- The note emitted when no project path is available. -/
def projectPathNote : String :=
  "PACT refresh: project path unavailable; cannot locate checkpoint."

/-- The consumer's handling of a decoded checkpoint record: validate it
against the current session, then render and emit the refresh message. -/
def processRecord (env : Env) (fs : FS) (record : JValue) :
    Except PyErr HookResult :=
  if validate_checkpoint (some record) env.sessionId = false then
    .ok ⟨some (hookOutput validationFailedNote), fs⟩
  else
    match build_refresh_message record with
    | .error err => .error err
    | .ok msg =>
      if msg = "" then .ok ⟨none, fs⟩
      else .ok ⟨some (hookOutput msg), fs⟩

/-- Modelled from the spec: the body of the consumer `main` before its
top-level exception handler. -/
def compaction_refresh_go (env : Env) (stdin : Option JValue) (home : String)
    (fs : FS) : Except PyErr HookResult :=
  match stdin with
  | none => .ok ⟨none, fs⟩
  | some input =>
    match pyGet input "source" with
    | .error err => .error err
    | .ok srcOpt =>
      if jvEq (srcOpt.getD (.str "")) (.str "compact") = false then .ok ⟨none, fs⟩
      else if env.projectDir = "" then .ok ⟨some (hookOutput projectPathNote), fs⟩
      else
        match fileJson (fs (checkpoint_path home "" env)) with
        | none => .ok ⟨none, fs⟩
        | some record => processRecord env fs record

/-- Modelled from the spec: the SessionStart hook `compaction_refresh.main`
— the body wrapped in the top-level catch-everything handler ("catch, log,
exit 0"). -/
def compaction_refresh_main (env : Env) (stdin : Option JValue) (home : String)
    (fs : FS) : HookResult :=
  match compaction_refresh_go env stdin home fs with
  | .ok r => r
  | .error _ => ⟨none, fs⟩

end CompactionRefresh

namespace PreCompact

open Refresh CheckpointBuilder

/-- The decoded rows of the transcript file (no rows when missing or
undecodable). -/
def transcriptRows (fs : FS) (transcript_path : String) : List JValue :=
  match fileJson (fs transcript_path) with
  | some (.arr rs) => rs
  | _ => []

/-- Scan, detect, extract, and assemble: the pure pipeline from decoded
transcript rows to the checkpoint record. -/
def builtCheckpoint (env : Env) (now : String) (rows : List JValue) : JValue :=
  if (detect_workflow (parse_transcript rows)).name = "none" then
    build_no_workflow_checkpoint (parse_transcript rows).length
      (detect_workflow (parse_transcript rows)).notes env now
  else
    build_checkpoint (detect_workflow (parse_transcript rows))
      (extract_step (parse_transcript rows))
      (parse_transcript rows).length env now

/-- Modelled from the spec: the body of the PreCompact hook `main` — scan
the transcript, detect the workflow, extract the step, build the
checkpoint, and persist it under the encoded project path. -/
def precompact_go (env : Env) (stdin : Option JValue) (home now : String)
    (fs : FS) : Except PyErr HookResult :=
  match stdin with
  | none => .ok ⟨none, fs⟩
  | some input =>
    match pyGet input "transcript_path" with
    | .error err => .error err
    | .ok tpOpt =>
      let transcript_path :=
        match tpOpt with
        | some (.str s) => s
        | _ => ""
      let cp := builtCheckpoint env now (transcriptRows fs transcript_path)
      let cpPath := checkpoint_path home transcript_path env
      .ok ⟨none, fun p => if p = cpPath then some (.jval cp) else fs p⟩

/-- Modelled from the spec: the PreCompact hook `main` with its top-level
catch-everything handler. -/
def precompact_main (env : Env) (stdin : Option JValue) (home now : String)
    (fs : FS) : HookResult :=
  match precompact_go env stdin home now fs with
  | .ok r => r
  | .error _ => ⟨none, fs⟩

end PreCompact

theorem jvEq_str_iff (v : JValue) (s : String) :
    jvEq v (.str s) = true ↔ v = .str s := by
  cases v <;> simp [jvEq]

theorem hookOutput_inj {a b : String} (h : hookOutput a = hookOutput b) :
    a = b := by
  simpa [hookOutput] using h

namespace CompactionRefresh

open Refresh

/--
**C6.** The checkpoint consumer emits a refresh instruction only when the
session-start input's `source` field equals `"compact"`; for every other
source value it produces no output and exits 0, and the persisted
checkpoint record is left unchanged by that invocation (indeed the consumer
never writes to the filesystem at all).
-/
theorem processRecord_fs (env : Env) (fs : FS) (record : JValue) :
    ∀ r, processRecord env fs record = .ok r → r.fs = fs := by
  intro r hr
  unfold processRecord at hr
  repeat' split at hr
  all_goals
    first
    | exact Except.noConfusion hr
    | (injection hr with h; rw [← h])

theorem go_fs_const (env : Env) (stdin : Option JValue) (home : String)
    (fs : FS) : ∀ r, compaction_refresh_go env stdin home fs = .ok r → r.fs = fs := by
  intro r hr
  unfold compaction_refresh_go at hr
  cases stdin with
  | none =>
    injection hr with h
    rw [← h]
  | some input =>
    cases input with
    | obj kvs2 =>
      simp only [pyGet] at hr
      repeat' split at hr
      all_goals
        first
        | exact Except.noConfusion hr
        | exact processRecord_fs env fs _ r hr
        | (injection hr with h; rw [← h])
    | null => simp only [pyGet] at hr; exact Except.noConfusion hr
    | bool b => simp only [pyGet] at hr; exact Except.noConfusion hr
    | num n => simp only [pyGet] at hr; exact Except.noConfusion hr
    | str s => simp only [pyGet] at hr; exact Except.noConfusion hr
    | arr xs => simp only [pyGet] at hr; exact Except.noConfusion hr

theorem consumer_fs_const (env : Env) (stdin : Option JValue) (home : String)
    (fs : FS) : (compaction_refresh_main env stdin home fs).fs = fs := by
  unfold compaction_refresh_main
  split
  · rename_i r heq
    exact go_fs_const env stdin home fs r heq
  · rfl

theorem compaction_refresh_non_compact (env : Env) (home : String) (fs : FS)
    (kvs : List (String × JValue))
    (hsrc : jvEq ((List.lookup "source" kvs).getD (.str "")) (.str "compact") = false) :
    compaction_refresh_main env (some (.obj kvs)) home fs = ⟨none, fs⟩ ∧
    (∀ stdin2 fs2, (compaction_refresh_main env stdin2 home fs2).fs = fs2) := by
  have hgo : compaction_refresh_go env (some (.obj kvs)) home fs = .ok ⟨none, fs⟩ := by
    simp only [compaction_refresh_go, pyGet]
    rw [if_pos hsrc]
  refine ⟨?_, fun stdin2 fs2 => consumer_fs_const env stdin2 home fs2⟩
  unfold compaction_refresh_main
  rw [hgo]

theorem compaction_refresh_non_compact_witness :
    (jvEq ((List.lookup "source"
        [("source", JValue.str "new")]).getD (.str "")) (.str "compact") = false) ∧
    (compaction_refresh_main ⟨"test-session", "/test/project"⟩
        (some (.obj [("source", JValue.str "new")])) "/home/u" (fun _ => none) =
      ⟨none, fun _ => none⟩) :=
  ⟨rfl, (compaction_refresh_non_compact ⟨"test-session", "/test/project"⟩
    "/home/u" (fun _ => none) [("source", JValue.str "new")] rfl).1⟩

end CompactionRefresh

namespace CompactionRefresh

theorem lookup_jvEq_str (o : Option JValue) (s : String) :
    (jvEq (o.getD .null) (.str s) = true) ↔ o = some (.str s) := by
  cases o with
  | none => simp [jvEq]
  | some v => simp [jvEq_str_iff]

theorem processRecord_invalid (env : Refresh.Env) (fs : FS) (record : JValue)
    (hval : validate_checkpoint (some record) env.sessionId = false) :
    processRecord env fs record = .ok ⟨some (hookOutput validationFailedNote), fs⟩ := by
  unfold processRecord
  rw [if_pos hval]

theorem go_no_refresh (env : Refresh.Env) (stdin : Option JValue)
    (home : String) (fs : FS)
    (hval : validate_checkpoint
      (fileJson (fs (Refresh.checkpoint_path home "" env))) env.sessionId = false) :
    ∀ r, compaction_refresh_go env stdin home fs = .ok r →
      r.output = none ∨ r.output = some (hookOutput projectPathNote) ∨
        r.output = some (hookOutput validationFailedNote) := by
  intro r hr
  unfold compaction_refresh_go at hr
  cases stdin with
  | none =>
    injection hr with h
    rw [← h]; left; rfl
  | some input =>
    cases input with
    | obj kvs2 =>
      simp only [pyGet] at hr
      by_cases hsrc : jvEq ((List.lookup "source" kvs2).getD (.str "")) (.str "compact") = false
      · rw [if_pos hsrc] at hr
        injection hr with h
        rw [← h]; left; rfl
      · rw [if_neg hsrc] at hr
        by_cases hpd : env.projectDir = ""
        · rw [if_pos hpd] at hr
          injection hr with h
          rw [← h]; right; left; rfl
        · rw [if_neg hpd] at hr
          cases hfj : fileJson (fs (Refresh.checkpoint_path home "" env)) with
          | none =>
            rw [hfj] at hr
            have hr2 : Except.ok (⟨none, fs⟩ : HookResult) = .ok r := hr
            injection hr2 with h
            rw [← h]; left; rfl
          | some record =>
            rw [hfj] at hr
            have hr2 : processRecord env fs record = .ok r := hr
            rw [hfj] at hval
            rw [processRecord_invalid env fs record hval] at hr2
            injection hr2 with h
            rw [← h]; right; right; rfl
    | null => simp only [pyGet] at hr; exact Except.noConfusion hr
    | bool b => simp only [pyGet] at hr; exact Except.noConfusion hr
    | num n => simp only [pyGet] at hr; exact Except.noConfusion hr
    | str s => simp only [pyGet] at hr; exact Except.noConfusion hr
    | arr xs => simp only [pyGet] at hr; exact Except.noConfusion hr

/--
**C1.** The checkpoint consumer's `validate_checkpoint` returns `True` only
when the record is a non-empty dict whose `session_id` equals the current
session id, whose `version` is the supported version, and which contains a
`workflow` field; for a mismatched session id, an unsupported version
(e.g. `"2.0"`), a missing `workflow`, an empty dict, or a `None` record it
returns `False`, and in that case the consumer emits no refresh
instruction (only, at most, a failure note that is not one).
-/
theorem validate_checkpoint_consumer_spec (record : Option JValue) (sid : String) :
    (validate_checkpoint record sid = true ↔
      ∃ kvs, record = some (.obj kvs) ∧ kvs ≠ [] ∧
        List.lookup "session_id" kvs = some (.str sid) ∧
        List.lookup "version" kvs = some (.str SUPPORTED_VERSION) ∧
        (List.lookup "workflow" kvs).isSome) ∧
    validate_checkpoint none sid = false ∧
    validate_checkpoint (some (.obj [])) sid = false ∧
    (∀ kvs, List.lookup "version" kvs = some (.str "2.0") →
      validate_checkpoint (some (.obj kvs)) sid = false) ∧
    (∀ kvs, List.lookup "workflow" kvs = none →
      validate_checkpoint (some (.obj kvs)) sid = false) ∧
    (∀ kvs s2, s2 ≠ sid → List.lookup "session_id" kvs = some (.str s2) →
      validate_checkpoint (some (.obj kvs)) sid = false) ∧
    (∀ (env : Refresh.Env) (home : String) (fs : FS) (stdin : Option JValue),
      validate_checkpoint
        (fileJson (fs (Refresh.checkpoint_path home "" env))) env.sessionId = false →
      ∀ msg, (compaction_refresh_main env stdin home fs).output = some (hookOutput msg) →
        isRefreshInstruction msg = false) := by
  refine ⟨?_, rfl, ?_, ?_, ?_, ?_, ?_⟩
  · constructor
    · intro h
      cases record with
      | none => exact absurd h (by simp [validate_checkpoint])
      | some v =>
        cases v with
        | obj kvs =>
          simp only [validate_checkpoint, Bool.and_eq_true, lookup_jvEq_str] at h
          refine ⟨kvs, rfl, ?_, h.1.1, h.1.2, h.2⟩
          intro hnil
          rw [hnil] at h
          simp [List.lookup] at h
        | null => exact absurd h (by simp [validate_checkpoint])
        | bool b => exact absurd h (by simp [validate_checkpoint])
        | num n => exact absurd h (by simp [validate_checkpoint])
        | str s => exact absurd h (by simp [validate_checkpoint])
        | arr xs => exact absurd h (by simp [validate_checkpoint])
    · rintro ⟨kvs, rfl, _, hsid, hver, hwf⟩
      simp only [validate_checkpoint, Bool.and_eq_true, lookup_jvEq_str]
      exact ⟨⟨hsid, hver⟩, hwf⟩
  · rfl
  · intro kvs hv
    simp only [validate_checkpoint, hv]
    simp [jvEq, SUPPORTED_VERSION]
  · intro kvs hw
    simp only [validate_checkpoint, hw]
    simp
  · intro kvs s2 hne hs
    simp only [validate_checkpoint, hs]
    have : jvEq (JValue.str s2) (.str sid) = false := by
      simp [jvEq]
      exact hne
    simp [this]
  · intro env home fs stdin hval msg hout
    unfold compaction_refresh_main at hout
    split at hout
    · rename_i r heq
      rcases go_no_refresh env stdin home fs hval r heq with h0 | h0 | h0 <;>
        rw [h0] at hout
      · exact Option.noConfusion hout
      · injection hout with h1
        rw [hookOutput_inj h1.symm]
        decide
      · injection hout with h1
        rw [hookOutput_inj h1.symm]
        decide
    · simp at hout

theorem validate_checkpoint_consumer_spec_witness :
    validate_checkpoint (some (.obj [("version", JValue.str "1.0"),
      ("session_id", JValue.str "test-session-123"),
      ("workflow", JValue.obj [("name", JValue.str "peer-review")])]))
      "test-session-123" = true ∧
    validate_checkpoint (some (.obj [("version", JValue.str "1.0"),
      ("session_id", JValue.str "test-session-123"),
      ("workflow", JValue.obj [("name", JValue.str "peer-review")])]))
      "different-session" = false :=
  ⟨(validate_checkpoint_consumer_spec _ "test-session-123").1.mpr
      ⟨_, rfl, List.cons_ne_nil _ _, rfl, rfl, rfl⟩,
    (validate_checkpoint_consumer_spec none "different-session").2.2.2.2.2.1
      _ "test-session-123" (by decide) rfl⟩

end CompactionRefresh

theorem isSome_of_not_isNone {α : Type} {o : Option α}
    (h : ¬ o.isNone = true) : o.isSome := by
  cases o with
  | none => exact absurd rfl h
  | some v => rfl

theorem not_isNone_of_isSome {α : Type} {o : Option α}
    (h : o.isSome) : ¬ o.isNone = true := by
  cases o with
  | none => exact absurd h (by simp)
  | some v => simp

namespace CheckpointBuilder

theorem lookup_removeKey (kvs : List (String × JValue)) (k : String) :
    List.lookup k (removeKey kvs k) = none := by
  induction kvs with
  | nil => rfl
  | cons p rest ih =>
    rcases p with ⟨k1, v1⟩
    unfold removeKey at ih ⊢
    rw [List.filter_cons]
    by_cases hk : (k1 != k) = true
    · rw [if_pos hk]
      have hne : (k == k1) = false := by
        rw [bne_iff_ne] at hk
        simp only [beq_eq_false_iff_ne, ne_eq]
        exact fun h => hk h.symm
      rw [List.lookup, hne]
      exact ih
    · rw [if_neg hk]
      exact ih

theorem validate_checkpoint_iff (cp : JValue) :
    (validate_checkpoint cp).1 = true ↔ RequiredFields cp := by
  constructor
  · intro h
    cases cp with
    | obj kvs =>
      simp only [validate_checkpoint] at h
      by_cases h1 : (List.lookup "version" kvs).isNone = true
      · rw [if_pos h1] at h
        exact absurd h (by simp)
      · rw [if_neg h1] at h
        by_cases h2 : (List.lookup "session_id" kvs).isNone = true
        · rw [if_pos h2] at h
          exact absurd h (by simp)
        · rw [if_neg h2] at h
          cases hwf : List.lookup "workflow" kvs with
          | none =>
            rw [hwf] at h
            have h3 : ((false, "Missing required field: workflow") :
              Bool × String).1 = true := h
            exact absurd h3 (by simp)
          | some wf =>
            rw [hwf] at h
            have h3 : (validateWorkflow kvs wf).1 = true := h
            cases wf with
            | obj wkvs =>
              simp only [validateWorkflow] at h3
              by_cases h4 : (List.lookup "name" wkvs).isNone = true
              · rw [if_pos h4] at h3
                exact absurd h3 (by simp)
              · rw [if_neg h4] at h3
                simp only [validateExtraction] at h3
                cases hex : List.lookup "extraction" kvs with
                | none =>
                  rw [hex] at h3
                  have h5 : ((false, "Missing required field: extraction") :
                    Bool × String).1 = true := h3
                  exact absurd h5 (by simp)
                | some ex =>
                  rw [hex] at h3
                  cases ex with
                  | obj ekvs =>
                    have h5 : (if (List.lookup "confidence" ekvs).isNone = true then
                        ((false, "Missing required field: extraction.confidence") :
                          Bool × String)
                        else (true, "")).1 = true := h3
                    by_cases h6 : (List.lookup "confidence" ekvs).isNone = true
                    · rw [if_pos h6] at h5
                      exact absurd h5 (by simp)
                    · exact ⟨kvs, rfl, isSome_of_not_isNone h1,
                        isSome_of_not_isNone h2,
                        ⟨wkvs, hwf, isSome_of_not_isNone h4⟩,
                        ⟨ekvs, hex, isSome_of_not_isNone h6⟩⟩
                  | null =>
                    exact absurd (h3 :
                      ((false, "Missing required field: extraction.confidence") :
                        Bool × String).1 = true) (by simp)
                  | bool b =>
                    exact absurd (h3 :
                      ((false, "Missing required field: extraction.confidence") :
                        Bool × String).1 = true) (by simp)
                  | num n =>
                    exact absurd (h3 :
                      ((false, "Missing required field: extraction.confidence") :
                        Bool × String).1 = true) (by simp)
                  | str s =>
                    exact absurd (h3 :
                      ((false, "Missing required field: extraction.confidence") :
                        Bool × String).1 = true) (by simp)
                  | arr xs =>
                    exact absurd (h3 :
                      ((false, "Missing required field: extraction.confidence") :
                        Bool × String).1 = true) (by simp)
            | null => exact absurd h3 (by simp [validateWorkflow])
            | bool b => exact absurd h3 (by simp [validateWorkflow])
            | num n => exact absurd h3 (by simp [validateWorkflow])
            | str s => exact absurd h3 (by simp [validateWorkflow])
            | arr xs => exact absurd h3 (by simp [validateWorkflow])
    | null => exact absurd h (by simp [validate_checkpoint])
    | bool b => exact absurd h (by simp [validate_checkpoint])
    | num n => exact absurd h (by simp [validate_checkpoint])
    | str s => exact absurd h (by simp [validate_checkpoint])
    | arr xs => exact absurd h (by simp [validate_checkpoint])
  · rintro ⟨kvs, rfl, hv, hs, ⟨wkvs, hwf, hname⟩, ⟨ekvs, hex, hconf⟩⟩
    simp only [validate_checkpoint]
    rw [if_neg (not_isNone_of_isSome hv), if_neg (not_isNone_of_isSome hs), hwf]
    show (validateWorkflow kvs (.obj wkvs)).1 = true
    simp only [validateWorkflow]
    rw [if_neg (not_isNone_of_isSome hname)]
    simp only [validateExtraction]
    rw [hex]
    show (if (List.lookup "confidence" ekvs).isNone = true then
        ((false, "Missing required field: extraction.confidence") : Bool × String)
      else (true, "")).1 = true
    rw [if_neg (not_isNone_of_isSome hconf)]

end CheckpointBuilder

namespace CheckpointBuilder

/--
**C5 (counterexample).** The built checkpoint record does not carry the
encoded project path: at a concrete build, no string anywhere in the record
contains the encoded path `-Users-test-myproject` — the encoded path is
used as the *filename* the checkpoint is persisted under, not as a field of
the record.
-/
theorem build_checkpoint_no_project_path :
    Refresh.get_encoded_project_path "/test/path/session.jsonl"
      ⟨"test-session", "/Users/test/myproject"⟩ = "-Users-test-myproject" ∧
    jvHasSub ("-Users-test-myproject".toList)
      (build_checkpoint
        ⟨"peer-review", "pr-64", "2025-01-22T12:00:00Z", 17/20, false, "clear trigger"⟩
        ⟨"recommendations", 5, "",
          some ⟨"AskUserQuestion", "Would you like to review?"⟩,
          [("pr_number", JValue.num 64)]⟩
        150 ⟨"test-session", "/Users/test/myproject"⟩
        "2025-01-22T12:10:00Z") = false := by
  constructor
  · decide
  · decide

/--
**C5 (amended).** `build_checkpoint` always produces a record carrying the
version `"1.0"` and the current session id, and the record is persisted
under a filename given by the encoded project path; the builder-side
`validate_checkpoint` accepts a record if and only if every required field
(`version`, `session_id`, `workflow` with a `name`, `extraction` with a
`confidence`) is present — in particular deleting any of the top-level
required keys makes validation fail.
-/
theorem checkpoint_builder_spec (wf : Refresh.WorkflowInfo)
    (st : Refresh.StepInfo) (n : Nat) (env : Refresh.Env) (now : String) :
    CompactionRefresh.field (build_checkpoint wf st n env now) "version" =
      some (.str "1.0") ∧
    CompactionRefresh.field (build_checkpoint wf st n env now) "session_id" =
      some (.str (Refresh.get_session_id env)) ∧
    (validate_checkpoint (build_checkpoint wf st n env now)).1 = true ∧
    (∀ cp, (validate_checkpoint cp).1 = true ↔ RequiredFields cp) ∧
    (∀ kvs k, k ∈ (["version", "session_id", "workflow", "extraction"] : List String) →
      (validate_checkpoint (.obj (removeKey kvs k))).1 = false) ∧
    (∀ (home now2 tp : String) (fs : FS) (kvs : List (String × JValue)),
      List.lookup "transcript_path" kvs = some (.str tp) →
      ∃ cp : JValue,
        (PreCompact.precompact_main env (some (.obj kvs)) home now2 fs).fs
          (Refresh.checkpoint_path home tp env) = some (.jval cp) ∧
        CompactionRefresh.field cp "version" = some (.str "1.0") ∧
        CompactionRefresh.field cp "session_id" =
          some (.str (Refresh.get_session_id env))) := by
  refine ⟨rfl, rfl, rfl, validate_checkpoint_iff, ?_, ?_⟩
  · intro kvs k hk
    have hnone := lookup_removeKey kvs k
    rw [Bool.eq_false_iff]
    intro htrue
    rcases (validate_checkpoint_iff _).mp htrue with
      ⟨kvs2, heq, hv, hs, ⟨wkvs, hwf, _⟩, ⟨ekvs, hex, _⟩⟩
    have hkvs : kvs2 = removeKey kvs k := by
      injection heq with h
      exact h.symm
    subst hkvs
    fin_cases hk
    · rw [hnone] at hv; exact absurd hv (by simp)
    · rw [hnone] at hs; exact absurd hs (by simp)
    · rw [hnone] at hwf; exact Option.noConfusion hwf
    · rw [hnone] at hex; exact Option.noConfusion hex
  · intro home now2 tp fs kvs htp
    have hgo : PreCompact.precompact_go env (some (.obj kvs)) home now2 fs =
        .ok ⟨none, fun p => if p = Refresh.checkpoint_path home tp env then
          some (.jval (PreCompact.builtCheckpoint env now2
            (PreCompact.transcriptRows fs tp))) else fs p⟩ := by
      unfold PreCompact.precompact_go
      simp only [pyGet]
      rw [htp]
    have hmain : (PreCompact.precompact_main env (some (.obj kvs)) home now2 fs) =
        ⟨none, fun p => if p = Refresh.checkpoint_path home tp env then
          some (.jval (PreCompact.builtCheckpoint env now2
            (PreCompact.transcriptRows fs tp))) else fs p⟩ := by
      unfold PreCompact.precompact_main
      rw [hgo]
    refine ⟨PreCompact.builtCheckpoint env now2 (PreCompact.transcriptRows fs tp),
      ?_, ?_, ?_⟩
    · rw [hmain]
      simp
    · unfold PreCompact.builtCheckpoint
      split
      · rfl
      · rfl
    · unfold PreCompact.builtCheckpoint
      split
      · rfl
      · rfl

theorem checkpoint_builder_spec_witness :
    (List.lookup "transcript_path"
      [("transcript_path", JValue.str "/t/session.jsonl")] =
        some (JValue.str "/t/session.jsonl")) ∧
    (∃ cp : JValue,
      (PreCompact.precompact_main ⟨"s1", "/p"⟩
        (some (.obj [("transcript_path", JValue.str "/t/session.jsonl")]))
        "/home/u" "2025-01-22T12:00:00Z" (fun _ => none)).fs
        (Refresh.checkpoint_path "/home/u" "/t/session.jsonl" ⟨"s1", "/p"⟩) =
          some (.jval cp) ∧
      CompactionRefresh.field cp "version" = some (.str "1.0") ∧
      CompactionRefresh.field cp "session_id" =
        some (.str (Refresh.get_session_id ⟨"s1", "/p"⟩))) :=
  ⟨rfl,
    (checkpoint_builder_spec
      ⟨"none", "", "", 1, false, ""⟩
      ⟨"", 0, "", none, []⟩ 0 ⟨"s1", "/p"⟩ "2025-01-22T12:00:00Z").2.2.2.2.2
      "/home/u" "2025-01-22T12:00:00Z" "/t/session.jsonl" (fun _ => none)
      [("transcript_path", JValue.str "/t/session.jsonl")] rfl⟩

end CheckpointBuilder

namespace PreCompact

/--
**C7.** Every hook in the checkpoint/refresh pipeline treats the
conversation transcript as read-only.  The scanner, detector, extractor and
builder are pure functions of the decoded rows (`parse_transcript`,
`detect_workflow`, `extract_step`, `builtCheckpoint` have no filesystem
access by construction); the PreCompact hook writes only the checkpoint
path (which is distinct from the transcript path); and the checkpoint
consumer writes nothing at all.  Hence the transcript file's contents after
each hook runs are identical to its contents before.
-/
theorem transcript_read_only (env : Refresh.Env) (home now : String)
    (fs : FS) (kvs : List (String × JValue)) (tp : String)
    (htp : List.lookup "transcript_path" kvs = some (.str tp))
    (hne : tp ≠ Refresh.checkpoint_path home tp env) :
    (precompact_main env (some (.obj kvs)) home now fs).fs tp = fs tp ∧
    (∀ p, p ≠ Refresh.checkpoint_path home tp env →
      (precompact_main env (some (.obj kvs)) home now fs).fs p = fs p) ∧
    (∀ stdin fs2,
      (CompactionRefresh.compaction_refresh_main env stdin home fs2).fs = fs2) ∧
    (precompact_main env none home now fs).fs = fs := by
  have hgo : precompact_go env (some (.obj kvs)) home now fs =
      .ok ⟨none, fun p => if p = Refresh.checkpoint_path home tp env then
        some (.jval (builtCheckpoint env now (transcriptRows fs tp))) else fs p⟩ := by
    unfold precompact_go
    simp only [pyGet]
    rw [htp]
  have hmain : precompact_main env (some (.obj kvs)) home now fs =
      ⟨none, fun p => if p = Refresh.checkpoint_path home tp env then
        some (.jval (builtCheckpoint env now (transcriptRows fs tp))) else fs p⟩ := by
    unfold precompact_main
    rw [hgo]
  refine ⟨?_, ?_, ?_, rfl⟩
  · rw [hmain]
    simp only [if_neg hne]
  · intro p hp
    rw [hmain]
    simp only [if_neg hp]
  · intro stdin fs2
    exact CompactionRefresh.consumer_fs_const env stdin home fs2

theorem transcript_read_only_witness :
    (List.lookup "transcript_path"
      [("transcript_path", JValue.str "/t/session.jsonl")] =
        some (JValue.str "/t/session.jsonl")) ∧
    (("/t/session.jsonl" : String) ≠
      Refresh.checkpoint_path "/home/u" "/t/session.jsonl" ⟨"s1", "/p"⟩) ∧
    (precompact_main ⟨"s1", "/p"⟩
      (some (.obj [("transcript_path", JValue.str "/t/session.jsonl")]))
      "/home/u" "2025-01-22T12:00:00Z" (fun _ => none)).fs "/t/session.jsonl" =
      (fun _ => (none : Option FileData)) "/t/session.jsonl" :=
  ⟨rfl, by decide,
    (transcript_read_only ⟨"s1", "/p"⟩ "/home/u" "2025-01-22T12:00:00Z"
      (fun _ => none) [("transcript_path", JValue.str "/t/session.jsonl")]
      "/t/session.jsonl" rfl (by decide)).1⟩

end PreCompact

/-! ## C2: hook entry points and exception robustness -/

namespace FileTracker

/-- Well-shaped on-disk tracking state: absent, undecodable, or a JSON
array of the records `track_edit` writes. -/
def TrackingOk (path : String) (fs : FS) : Prop :=
  fs path = none ∨ fs path = some .junk ∨
    ∃ entries : List EditEntry,
      fs path = some (.jval (.arr (entries.map EditEntry.toJValue)))

theorem collectOthers_cons_any (fpV : JValue) (an : String) (e : EditEntry)
    (rest : List JValue) :
    collectOthers fpV an (EditEntry.toJValue e :: rest) =
      if jvEq (.str e.file) fpV && !(jvEq (.str e.agent) (.str an)) then
        match collectOthers fpV an rest with
        | .ok others => .ok (.str e.agent :: others)
        | .error err => .error err
      else collectOthers fpV an rest := by
  have h1 : List.lookup "file"
      [("file", JValue.str e.file), ("agent", JValue.str e.agent),
       ("tool", JValue.str e.tool), ("ts", JValue.num e.ts)] =
      some (JValue.str e.file) := rfl
  have h2 : List.lookup "agent"
      [("file", JValue.str e.file), ("agent", JValue.str e.agent),
       ("tool", JValue.str e.tool), ("ts", JValue.num e.ts)] =
      some (JValue.str e.agent) := rfl
  simp only [collectOthers, EditEntry.toJValue, h1, h2, Option.getD_some]

theorem collectOthers_entries_ok (fpV : JValue) (an : String)
    (entries : List EditEntry) :
    ∃ vs : List String,
      collectOthers fpV an (entries.map EditEntry.toJValue) =
        .ok (vs.map JValue.str) := by
  induction entries with
  | nil => exact ⟨[], rfl⟩
  | cons e rest ih =>
    obtain ⟨vs, hvs⟩ := ih
    rw [List.map_cons, collectOthers_cons_any]
    by_cases hcond : (jvEq (.str e.file) fpV && !(jvEq (.str e.agent) (.str an))) = true
    · rw [if_pos hcond, hvs]
      exact ⟨e.agent :: vs, rfl⟩
    · rw [if_neg hcond]
      exact ⟨vs, hvs⟩

theorem conflictRender_ok (fpV : JValue) (vs : List String) :
    ∃ r, conflictRender fpV (vs.map JValue.str) = .ok r := by
  cases vs with
  | nil => exact ⟨none, rfl⟩
  | cons v rest =>
    unfold conflictRender
    rw [isEmpty_map_str]
    have : ((v :: rest).isEmpty) = false := rfl
    rw [this]
    rw [allStrs_map]
    exact ⟨_, rfl⟩

theorem conflictScan_ok (fpV : JValue) (an : String)
    (entries : List EditEntry) :
    ∃ r, conflictScan fpV an (.arr (entries.map EditEntry.toJValue)) = .ok r := by
  obtain ⟨vs, hvs⟩ := collectOthers_entries_ok fpV an entries
  have t : conflictScan fpV an (.arr (entries.map EditEntry.toJValue)) =
      (match collectOthers fpV an (entries.map EditEntry.toJValue) with
       | .error err => .error err
       | .ok others => conflictRender fpV others) := rfl
  rw [t, hvs]
  exact conflictRender_ok fpV vs

theorem check_conflict_v_ok (fpV : JValue) (an path : String) (fs : FS)
    (h : TrackingOk path fs) :
    ∃ r, check_conflict_v fpV an path fs = .ok r := by
  unfold check_conflict_v
  by_cases han : an = ""
  · rw [if_pos han]
    exact ⟨none, rfl⟩
  · rw [if_neg han]
    rcases h with h0 | h0 | ⟨entries, h0⟩ <;> rw [h0]
    · exact ⟨none, rfl⟩
    · exact ⟨none, rfl⟩
    · exact conflictScan_ok fpV an entries

theorem track_edit_v_ok (file_path : JValue) (agent_name : String)
    (tool_name : JValue) (ts : ℚ) (path : String) (fs : FS)
    (h : TrackingOk path fs) :
    ∃ fs2, track_edit_v file_path agent_name tool_name ts path fs = .ok fs2 := by
  unfold track_edit_v
  rcases h with h0 | h0 | ⟨entries, h0⟩ <;> rw [h0] <;> exact ⟨_, rfl⟩

theorem trackAndWarn_ok (team agent : String) (tool_name file_path : JValue)
    (ts : ℚ) (home : String) (fs : FS)
    (h : TrackingOk (home ++ "/.claude/teams/" ++ team ++ "/file-edits.json") fs) :
    ∃ r, trackAndWarn team agent tool_name file_path ts home fs = .ok r := by
  unfold trackAndWarn
  obtain ⟨c, hc⟩ := check_conflict_v_ok file_path agent _ fs h
  rw [hc]
  obtain ⟨fs2, ht⟩ := track_edit_v_ok file_path
    (if agent = "" then "orchestrator" else agent) tool_name ts _ fs h
  rw [ht]
  cases c with
  | some w => exact ⟨_, rfl⟩
  | none => exact ⟨_, rfl⟩

/-- Well-shaped hook input for `file_tracker.main`: unparseable, or a JSON
object whose `tool_input` (if present) is an object, whose
`tool_input.file_path` (if present) is a string, and whose team's tracking
file is in a `track_edit`-shaped state. -/
def FTInputOk (teamNameEnv home : String) (fs : FS)
    (stdin : Option JValue) : Prop :=
  match stdin with
  | none => True
  | some (.obj kvs) =>
    (List.lookup "tool_input" kvs = none ∨
      ∃ tkvs, List.lookup "tool_input" kvs = some (.obj tkvs)) ∧
    (∀ tkvs, List.lookup "tool_input" kvs = some (.obj tkvs) →
      List.lookup "file_path" tkvs = none ∨
        ∃ s, List.lookup "file_path" tkvs = some (.str s)) ∧
    TrackingOk (home ++ "/.claude/teams/" ++ lowerStr teamNameEnv ++
      "/file-edits.json") fs
  | some _ => False

theorem file_tracker_main_ok (teamNameEnv agentNameEnv : String)
    (stdin : Option JValue) (ts : ℚ) (home : String) (fs : FS)
    (hin : FTInputOk teamNameEnv home fs stdin) :
    ∃ r, file_tracker_main teamNameEnv agentNameEnv stdin ts home fs = .ok r := by
  unfold file_tracker_main
  by_cases hteam : lowerStr teamNameEnv = ""
  · rw [if_pos hteam]
    exact ⟨_, rfl⟩
  · rw [if_neg hteam]
    cases stdin with
    | none => exact ⟨_, rfl⟩
    | some input =>
      cases input with
      | obj kvs =>
        have hin2 : (List.lookup "tool_input" kvs = none ∨
            ∃ tkvs, List.lookup "tool_input" kvs = some (.obj tkvs)) ∧
          (∀ tkvs, List.lookup "tool_input" kvs = some (.obj tkvs) →
            List.lookup "file_path" tkvs = none ∨
              ∃ s, List.lookup "file_path" tkvs = some (.str s)) ∧
          TrackingOk (home ++ "/.claude/teams/" ++ lowerStr teamNameEnv ++
            "/file-edits.json") fs := hin
        obtain ⟨hti, hfp, htrack⟩ := hin2
        simp only [pyGet]
        rcases hti with hti0 | ⟨tkvs, hti0⟩ <;> rw [hti0]
        · exact ⟨_, rfl⟩
        · simp only [Option.getD_some, pyGet]
          rcases hfp tkvs hti0 with hfp0 | ⟨s, hfp0⟩ <;> rw [hfp0]
          · exact ⟨_, rfl⟩
          · simp only [Option.getD_some]
            by_cases hs : pyTruthy (JValue.str s) = false
            · rw [if_pos hs]
              exact ⟨_, rfl⟩
            · rw [if_neg hs]
              exact trackAndWarn_ok (lowerStr teamNameEnv) agentNameEnv
                ((List.lookup "tool_name" kvs).getD (.str "")) (.str s) ts home fs
                htrack
      | null => exact absurd hin (by simp [FTInputOk])
      | bool b => exact absurd hin (by simp [FTInputOk])
      | num n => exact absurd hin (by simp [FTInputOk])
      | str s => exact absurd hin (by simp [FTInputOk])
      | arr xs => exact absurd hin (by simp [FTInputOk])

end FileTracker

namespace PeerInject

/-- A well-shaped team member record: an object with a string `name`. -/
def MemberOk (m : JValue) : Prop :=
  ∃ kvs, m = .obj kvs ∧ ∃ s, List.lookup "name" kvs = some (.str s)

/-- Well-shaped team configuration: absent, undecodable, or an object
whose `members` (if present) is an array of well-shaped member records. -/
def ConfigOk (path : String) (fs : FS) : Prop :=
  fs path = none ∨ fs path = some .junk ∨
    ∃ ckvs, fs path = some (.jval (.obj ckvs)) ∧
      (List.lookup "members" ckvs = none ∨
        ∃ ms, List.lookup "members" ckvs = some (.arr ms) ∧ ∀ m ∈ ms, MemberOk m)

theorem peersOf_ok (agent_type : JValue) (ms : List JValue)
    (h : ∀ m ∈ ms, MemberOk m) :
    ∃ names : List String, peersOf agent_type ms = .ok (names.map JValue.str) := by
  induction ms with
  | nil => exact ⟨[], rfl⟩
  | cons m rest ih =>
    obtain ⟨kvs, rfl, s, hs⟩ := h m (List.mem_cons_self _ _)
    obtain ⟨names, hn⟩ := ih (fun m2 hm2 => h m2 (List.mem_cons_of_mem _ hm2))
    have t : peersOf agent_type (JValue.obj kvs :: rest) =
        (if !(jvEq ((List.lookup "agentType" kvs).getD .null) agent_type) then
          match List.lookup "name" kvs with
          | some v =>
            match peersOf agent_type rest with
            | .ok peers => .ok (v :: peers)
            | .error err => .error err
          | none => .error .keyError
        else peersOf agent_type rest) := rfl
    rw [t]
    by_cases hcond : (!(jvEq ((List.lookup "agentType" kvs).getD .null) agent_type)) = true
    · rw [if_pos hcond, hs, hn]
      exact ⟨s :: names, rfl⟩
    · rw [if_neg hcond]
      exact ⟨names, hn⟩

theorem peerRender_ok (names : List String) :
    ∃ c, peerRender (names.map JValue.str) = .ok c := by
  cases names with
  | nil => exact ⟨_, rfl⟩
  | cons n rest =>
    unfold peerRender
    rw [FileTracker.isEmpty_map_str]
    have : ((n :: rest).isEmpty) = false := rfl
    rw [this, FileTracker.allStrs_map]
    exact ⟨_, rfl⟩

theorem membersScan_ok (agent_type : JValue) (mem : Option JValue)
    (h : mem = none ∨ ∃ ms, mem = some (.arr ms) ∧ ∀ m ∈ ms, MemberOk m) :
    ∃ c, membersScan agent_type mem = .ok c := by
  rcases h with h0 | ⟨ms, h0, hms⟩ <;> rw [h0]
  · exact ⟨_, rfl⟩
  · have t : membersScan agent_type (some (.arr ms)) =
        (match peersOf agent_type ms with
         | .error err => .error err
         | .ok peers => peerRender peers) := rfl
    rw [t]
    obtain ⟨names, hn⟩ := peersOf_ok agent_type ms hms
    rw [hn]
    exact peerRender_ok names

theorem get_peer_context_v_ok (agent_type : JValue) (team teams_dir : String)
    (fs : FS) (h : ConfigOk (teams_dir ++ "/" ++ team ++ "/config.json") fs) :
    ∃ c, get_peer_context_v agent_type team teams_dir fs = .ok c := by
  unfold get_peer_context_v
  by_cases hteam : team = ""
  · rw [if_pos hteam]
    exact ⟨none, rfl⟩
  · rw [if_neg hteam]
    rcases h with h0 | h0 | ⟨ckvs, h0, hmem⟩ <;> rw [h0]
    · exact ⟨none, rfl⟩
    · exact ⟨none, rfl⟩
    · exact membersScan_ok agent_type _ hmem

/-- Well-shaped hook input for `peer_inject.main`: unparseable, or a JSON
object, with the team's config file in a well-shaped state. -/
def PIInputOk (teamNameEnv home : String) (fs : FS)
    (stdin : Option JValue) : Prop :=
  match stdin with
  | none => True
  | some (.obj _) =>
    ConfigOk (home ++ "/.claude/teams" ++ "/" ++ teamNameEnv ++ "/config.json") fs
  | some _ => False

theorem peer_inject_main_ok (teamNameEnv : String) (stdin : Option JValue)
    (home : String) (fs : FS) (hin : PIInputOk teamNameEnv home fs stdin) :
    ∃ r, peer_inject_main teamNameEnv stdin home fs = .ok r := by
  unfold peer_inject_main
  cases stdin with
  | none => exact ⟨_, rfl⟩
  | some input =>
    cases input with
    | obj kvs =>
      have hcfg : ConfigOk (home ++ "/.claude/teams" ++ "/" ++ teamNameEnv ++
        "/config.json") fs := hin
      simp only [pyGet]
      obtain ⟨c, hc⟩ := get_peer_context_v_ok
        ((List.lookup "agent_type" kvs).getD (.str "")) teamNameEnv
        (home ++ "/.claude/teams") fs hcfg
      rw [hc]
      cases c with
      | none => exact ⟨_, rfl⟩
      | some s =>
        by_cases hs : s = ""
        · exact ⟨⟨none, fs⟩, by simp [hs]⟩
        · exact ⟨⟨some (hookOutput s), fs⟩, by simp [hs]⟩
    | null => exact absurd hin (by simp [PIInputOk])
    | bool b => exact absurd hin (by simp [PIInputOk])
    | num n => exact absurd hin (by simp [PIInputOk])
    | str s => exact absurd hin (by simp [PIInputOk])
    | arr xs => exact absurd hin (by simp [PIInputOk])

end PeerInject

/-- C2 counterexample: a JSON array delivered on stdin makes
`peer_inject.main` call `.get` on a list, raising `AttributeError`, so
the hook entry points are not exception-free over every stdin input. -/
theorem peer_inject_main_counterexample :
    PeerInject.peer_inject_main "team" (some (.arr [])) "/home/u"
      (fun _ => none) = .error .attributeError := rfl

/-- C2 (amended): `file_tracker.main` and `peer_inject.main` raise
`AttributeError` when the stdin payload decodes to a non-object JSON value
(for example a JSON array): `input.get(...)` is called on a non-dict.
Under well-shaped inputs — payload absent/unparseable or a JSON object with
object-or-absent `tool_input`, string-or-absent `file_path`, and
well-shaped tracking and team-config files — both exit 0; and the
compaction-refresh SessionStart `main` catches every pipeline exception,
exiting 0 for every input: it either returns the pipeline result or the
silent no-output fallback with the filesystem untouched. -/
theorem hook_mains_exit_zero
    (teamNameEnv agentNameEnv : String) (ftStdin piStdin crStdin : Option JValue)
    (ts : ℚ) (home : String) (fs : FS) (env : Refresh.Env)
    (hft : FileTracker.FTInputOk teamNameEnv home fs ftStdin)
    (hpi : PeerInject.PIInputOk teamNameEnv home fs piStdin) :
    (∃ r, FileTracker.file_tracker_main teamNameEnv agentNameEnv ftStdin ts home fs
        = .ok r) ∧
    (∃ r, PeerInject.peer_inject_main teamNameEnv piStdin home fs = .ok r) ∧
    ((∃ r, CompactionRefresh.compaction_refresh_go env crStdin home fs = .ok r ∧
        CompactionRefresh.compaction_refresh_main env crStdin home fs = r) ∨
      CompactionRefresh.compaction_refresh_main env crStdin home fs = ⟨none, fs⟩) := by
  refine ⟨FileTracker.file_tracker_main_ok teamNameEnv agentNameEnv ftStdin ts home fs hft,
    PeerInject.peer_inject_main_ok teamNameEnv piStdin home fs hpi, ?_⟩
  unfold CompactionRefresh.compaction_refresh_main
  cases hgo : CompactionRefresh.compaction_refresh_go env crStdin home fs with
  | ok r => exact Or.inl ⟨r, rfl, rfl⟩
  | error e => exact Or.inr rfl

/-- C2 witness: the amended robustness theorem at a concrete well-shaped
instance. -/
theorem hook_mains_exit_zero_witness :
    (∃ r, FileTracker.file_tracker_main "Team" "a1"
        (some (.obj [("tool_input", .obj [("file_path", .str "/w/f.py")]),
                     ("tool_name", .str "Edit")])) 5 "/home/u"
        (fun _ => none) = .ok r) ∧
    (∃ r, PeerInject.peer_inject_main "Team"
        (some (.obj [("agent_type", .str "coder")])) "/home/u"
        (fun _ => none) = .ok r) ∧
    ((∃ r, CompactionRefresh.compaction_refresh_go ⟨"s1", "/p"⟩
        (some (.obj [("source", .str "startup")])) "/home/u"
        (fun _ => none) = .ok r ∧
        CompactionRefresh.compaction_refresh_main ⟨"s1", "/p"⟩
          (some (.obj [("source", .str "startup")])) "/home/u"
          (fun _ => none) = r) ∨
      CompactionRefresh.compaction_refresh_main ⟨"s1", "/p"⟩
        (some (.obj [("source", .str "startup")])) "/home/u"
        (fun _ => none) = ⟨none, fun _ => none⟩) :=
  hook_mains_exit_zero "Team" "a1"
    (some (.obj [("tool_input", .obj [("file_path", .str "/w/f.py")]),
                 ("tool_name", .str "Edit")]))
    (some (.obj [("agent_type", .str "coder")]))
    (some (.obj [("source", .str "startup")]))
    5 "/home/u" (fun _ => none) ⟨"s1", "/p"⟩
    ⟨Or.inr ⟨[("file_path", .str "/w/f.py")], rfl⟩,
     fun tkvs htk => by
       injection htk with h
       injection h with h2
       exact Or.inr ⟨"/w/f.py", by rw [← h2]; rfl⟩,
     Or.inl rfl⟩
    (Or.inl rfl)

/-! ## hooks/staleness.py

`check_pinned_staleness` is embedded over `List Char` contents split into
lines. All four regexes of the source are `re.MULTILINE`-anchored at line
starts (`^## Pinned Context\s*\n`, `^#{1,2}\s`, `^### `) or are plain
substring searches (stale marker, PR-merged), so the scan is modelled on
the line decomposition of the file: a line is a maximal `\n`-terminated
chunk (the final line may lack the terminator). The greedy `\s*\n` of the
header pattern consumes, after the literal, the whitespace tail of the
header line plus every following fully-whitespace terminated line (the
match ends after the last newline of the maximal whitespace run), which is
exactly a `takeWhile` over lines. The fixed `now` of a run enters only
through `stale_threshold = now - timedelta(days=30)`, modelled as an
arbitrary threshold datetime compared lexicographically against the parsed
merge date at midnight, exactly as `datetime.__lt__` does. -/

namespace Staleness

/-- Python `\s` / `str.isspace` on the ASCII characters handled here. -/
def isWS (c : Char) : Bool :=
  c = ' ' || c = '\t' || c = '\n' || c = '\x0d' ||
    c = Char.ofNat 11 || c = Char.ofNat 12

/-- Split a character list at its first newline: the first component is
the first line including its terminator (or the whole list when it has no
newline), the second the remainder. -/
def splitLine : List Char → List Char × List Char
  | [] => ([], [])
  | c :: rest =>
    if c = '\n' then ([c], rest)
    else
      let p := splitLine rest
      (c :: p.1, p.2)

theorem splitLine_snd_le (l : List Char) : (splitLine l).2.length ≤ l.length := by
  induction l with
  | nil => simp [splitLine]
  | cons c rest ih =>
    simp only [splitLine]
    by_cases h : c = '\n'
    · rw [if_pos h]
      exact Nat.le_succ_of_le (Nat.le_refl _)
    · rw [if_neg h]
      exact Nat.le_succ_of_le ih

theorem splitLine_cons_le (c : Char) (cs : List Char) :
    (splitLine (c :: cs)).2.length ≤ cs.length := by
  simp only [splitLine]
  by_cases h : c = '\n'
  · rw [if_pos h]
  · rw [if_neg h]
    exact splitLine_snd_le cs

/-- The line decomposition of a file content. -/
def toLines (l : List Char) : List (List Char) :=
  match l with
  | [] => []
  | c :: cs =>
    let q := splitLine (c :: cs)
    q.1 :: toLines q.2
termination_by l.length
decreasing_by
  exact Nat.lt_of_le_of_lt (splitLine_cons_le _ _) (Nat.lt_succ_self _)

/-- A line carries its `\n` terminator. -/
def lineDone (ln : List Char) : Bool := ln.getLast? = some (Char.ofNat 10)

/-- `"## Pinned Context"`. -/
def pinnedLitL : List Char := ("## Pinned Context").toList

/-- The header regex `^## Pinned Context\s*\n` matches at this line: the
literal starts the line, the rest of the line is whitespace, and the line
is terminated (so the trailing `\n` exists). -/
def headerLineMatch (ln : List Char) : Bool :=
  startsWithL pinnedLitL ln && (ln.drop pinnedLitL.length).all isWS && lineDone ln

/-- A line wholly consumed by the greedy `\s*\n` after the header literal:
all-whitespace and terminated (the match extends through its newline). -/
def skippable (ln : List Char) : Bool := ln.all isWS && lineDone ln

/-- `re.search(r'^## Pinned Context\s*\n', content, re.MULTILINE)` over the
line decomposition: the leftmost matching line, with the whitespace-only
terminated lines after it absorbed into the match. Returns
(lines before `pinned_start`, lines from `pinned_start`). -/
def findPinnedL : List (List Char) → Option (List (List Char) × List (List Char))
  | [] => none
  | ln :: rest =>
    if headerLineMatch ln then
      some (ln :: rest.takeWhile skippable, rest.dropWhile skippable)
    else
      match findPinnedL rest with
      | some p => some (ln :: p.1, p.2)
      | none => none

/-- The next-section regex `^#{1,2}\s` matches at the start of this line. -/
def sectionLineStart (ln : List Char) : Bool :=
  match ln with
  | '#' :: '#' :: c :: _ => isWS c
  | '#' :: c :: _ => isWS c
  | _ => false

/-- The entry regex `^### ` matches at the start of this line. -/
def entryLineStart (ln : List Char) : Bool := startsWithL ("### ").toList ln

/-- `re.compile(r'^### ', re.MULTILINE)` grouping: each entry runs from its
`### ` line to the next one (or the section end). -/
def groupEntriesL : List (List Char) → List (List (List Char))
  | [] => []
  | ln :: rest =>
    (ln :: rest.takeWhile (fun l => !entryLineStart l)) ::
      groupEntriesL (rest.dropWhile (fun l => !entryLineStart l))
termination_by l => l.length
decreasing_by
  exact Nat.lt_succ_of_le (List.dropWhile_sublist _ |>.length_le)

/-- `"<!-- STALE: Last relevant "`. -/
def staleLitL : List Char := ("<!-- STALE: Last relevant ").toList

/-- `\d{4}-\d{2}-\d{2}`, exactly. -/
def dateShape (l : List Char) : Bool :=
  match l with
  | [a, b, c, d, e, f, g, h, i, j] =>
    a.isDigit && b.isDigit && c.isDigit && d.isDigit && (e == '-') &&
      f.isDigit && g.isDigit && (h == '-') && i.isDigit && j.isDigit
  | _ => false

/-- The stale-marker regex
`<!-- STALE: Last relevant \d{4}-\d{2}-\d{2} -->` matches at the start of
`l`. -/
def staleAt (l : List Char) : Bool :=
  startsWithL staleLitL l &&
    dateShape ((l.drop staleLitL.length).take 10) &&
    startsWithL (" -->").toList ((l.drop staleLitL.length).drop 10)

/-- `stale_marker_pattern.search(entry_text)`: the marker occurs at some
position. -/
def staleMarkerFound : List Char → Bool
  | [] => false
  | c :: rest => staleAt (c :: rest) || staleMarkerFound rest

/-- The optional `,?` after the PR number. -/
def afterComma (l : List Char) : List Char :=
  match l with
  | ',' :: t => t
  | r => r

/-- The tail of the PR pattern from `merged`: the literal, at least one
whitespace character, then the captured `\d{4}-\d{2}-\d{2}` group. -/
def prTail (r6 : List Char) : Option (List Char) :=
  if startsWithL ("merged").toList r6 then
    match (r6.drop 6).takeWhile isWS with
    | [] => none
    | _ :: _ =>
      if dateShape (((r6.drop 6).dropWhile isWS).take 10) then
        some (((r6.drop 6).dropWhile isWS).take 10)
      else none
  else none

/-- One deterministic attempt of `PR\s*#\d+,?\s*merged\s+(\d{4}-\d{2}-\d{2})`
at the start of `l` (each greedy piece is followed by a character it can
never match, so the regex backtracking is vacuous). Returns the captured
date group. -/
def prMatchAt (l : List Char) : Option (List Char) :=
  match l with
  | 'P' :: 'R' :: r1 =>
    match r1.dropWhile isWS with
    | '#' :: r3 =>
      match r3.takeWhile Char.isDigit with
      | [] => none
      | _ :: _ => prTail ((afterComma (r3.dropWhile Char.isDigit)).dropWhile isWS)
    | _ => none
  | _ => none

/-- `pr_merged_pattern.search(entry_text)`: leftmost match, returning the
captured date. -/
def prSearch : List Char → Option (List Char)
  | [] => none
  | c :: rest =>
    match prMatchAt (c :: rest) with
    | some d => some d
    | none => prSearch rest

/-- A datetime value (year, month, day, hour, minute, second), as compared
by `datetime.__lt__`. -/
structure DT where
  y : ℕ
  mon : ℕ
  d : ℕ
  hh : ℕ
  mi : ℕ
  ss : ℕ

/-- Lexicographic datetime comparison. -/
def dtLt (a b : DT) : Bool :=
  if a.y ≠ b.y then a.y < b.y
  else if a.mon ≠ b.mon then a.mon < b.mon
  else if a.d ≠ b.d then a.d < b.d
  else if a.hh ≠ b.hh then a.hh < b.hh
  else if a.mi ≠ b.mi then a.mi < b.mi
  else a.ss < b.ss

def digitVal (c : Char) : ℕ := c.toNat - 48

def leapYear (y : ℕ) : Bool := (y % 4 == 0 && y % 100 != 0) || y % 400 == 0

def daysInMonth (y m : ℕ) : ℕ :=
  if m = 2 then (if leapYear y then 29 else 28)
  else if m = 4 ∨ m = 6 ∨ m = 9 ∨ m = 11 then 30
  else 31

/-- `datetime.strptime(s, "%Y-%m-%d")`: digits as written, with the
calendar validation that makes out-of-range dates raise `ValueError`. -/
def parseDate (l : List Char) : Option (ℕ × ℕ × ℕ) :=
  match l with
  | [a, b, c, d, _e, f, g, _h, i, j] =>
    if dateShape l then
      let y := digitVal a * 1000 + digitVal b * 100 + digitVal c * 10 + digitVal d
      let mo := digitVal f * 10 + digitVal g
      let dd := digitVal i * 10 + digitVal j
      if 1 ≤ y ∧ 1 ≤ mo ∧ mo ≤ 12 ∧ 1 ≤ dd ∧ dd ≤ daysInMonth y mo then
        some (y, mo, dd)
      else none
    else none
  | _ => none

/-- The inserted stale marker line
`f"<!-- STALE: Last relevant {date} -->\n"`. -/
def staleLine (d : List Char) : List Char :=
  staleLitL ++ d ++ (" -->\n").toList

/-- Marking of one entry (one iteration of the reverse loop, which edits
entries independently): skip if already marked, else find the PR merge
date, parse it, and when older than the threshold insert the marker line
after the heading line (`entry_text.find("\n")` is the end of the heading
line; a single unterminated line is skipped). -/
def markIns (e : List (List Char)) (d : List Char) : List (List Char) :=
  match e with
  | [] => e
  | h :: t => if lineDone h then h :: staleLine d :: t else e

def markDated (thr : DT) (e : List (List Char)) (d : List Char) : List (List Char) :=
  match parseDate d with
  | none => e
  | some ymd =>
    if dtLt ⟨ymd.1, ymd.2.1, ymd.2.2, 0, 0, 0⟩ thr then markIns e d else e

def markEntry (thr : DT) (e : List (List Char)) : List (List Char) :=
  if staleMarkerFound e.flatten then e
  else
    match prSearch e.flatten with
    | none => e
    | some d => markDated thr e d

/-- Maximal non-whitespace runs: `len(text.split())`. -/
def countWords : List Char → ℕ
  | [] => 0
  | c :: rest =>
    if isWS c then countWords rest
    else 1 + countWords (rest.dropWhile (fun x => !isWS x))
termination_by l => l.length
decreasing_by
  all_goals first
    | exact Nat.lt_succ_self _
    | exact Nat.lt_of_le_of_lt (List.dropWhile_sublist _ |>.length_le) (Nat.lt_succ_self _)

/-- `_estimate_tokens`: `int(len(text.split()) * 1.3)`; for every word
count below `2^47` the float computation equals `⌊13·n/10⌋`. -/
def estTokens (l : List Char) : ℕ := 13 * countWords l / 10

def digitChar (d : ℕ) : Char :=
  match d with
  | 0 => '0' | 1 => '1' | 2 => '2' | 3 => '3' | 4 => '4'
  | 5 => '5' | 6 => '6' | 7 => '7' | 8 => '8' | _ => '9'

/-- Decimal rendering of a number, as `f"{n}"`. -/
def natDigits (n : ℕ) : List Char :=
  if h : n < 10 then [digitChar n]
  else natDigits (n / 10) ++ [digitChar (n % 10)]
termination_by n
decreasing_by
  exact Nat.div_lt_self (Nat.lt_of_lt_of_le (by decide) (Nat.le_of_not_lt h)) (by decide)

/-- `"<!-- WARNING: Pinned context"`, the marker whose presence suppresses
re-inserting the budget warning. -/
def warnLitL : List Char := ("<!-- WARNING: Pinned context").toList

/-- The budget warning comment line. -/
def warnLine (txt : List Char) : List Char :=
  warnLitL ++ (" ~").toList ++ natDigits (estTokens txt) ++
    (" tokens (budget: 1200). Consider archiving stale pins. -->\n").toList

/-- The marking loop over the pinned section lines: the head (before the
first `### `) is kept, each entry is marked independently (the reverse
iteration of the source edits disjoint slices, so it equals an independent
per-entry rewrite). -/
def markedSec (thr : DT) (secL : List (List Char)) : List (List Char) :=
  secL.takeWhile (fun l => !entryLineStart l) ++
    ((groupEntriesL (secL.dropWhile (fun l => !entryLineStart l))).map
      (markEntry thr)).flatten

/-- The token-budget step: prepend the warning comment when the estimate
exceeds the budget and the warning marker is not already present. -/
def budgeted (sec2 : List (List Char)) : List (List Char) :=
  if 1200 < estTokens sec2.flatten && !containsSub warnLitL sec2.flatten then
    warnLine sec2.flatten :: sec2
  else sec2

/-- `check_pinned_staleness`, as a transformation of the CLAUDE.md content
at a fixed threshold datetime (the file is rewritten only when modified;
when nothing is modified the result below is provably the input). -/
def check_pinned_staleness (thr : DT) (content : List Char) : List Char :=
  match findPinnedL (toLines content) with
  | none => content
  | some (preL, restL) =>
    if (restL.takeWhile (fun l => !sectionLineStart l)).flatten.all isWS then content
    else
      match groupEntriesL ((restL.takeWhile (fun l => !sectionLineStart l)).dropWhile
          (fun l => !entryLineStart l)) with
      | [] => content
      | _ :: _ =>
        preL.flatten ++
          (budgeted (markedSec thr
            (restL.takeWhile (fun l => !sectionLineStart l)))).flatten ++
          (restL.dropWhile (fun l => !sectionLineStart l)).flatten

end Staleness

namespace Staleness

theorem splitLine_eq (l : List Char) : (splitLine l).1 ++ (splitLine l).2 = l := by
  induction l with
  | nil => rfl
  | cons c rest ih =>
    simp only [splitLine]
    by_cases h : c = '\n'
    · rw [if_pos h]
      rfl
    · rw [if_neg h]
      simpa using ih

theorem splitLine_of_done (y : List Char) (x : List Char) (hx : '\n' ∉ x) :
    splitLine (x ++ '\n' :: y) = (x ++ ['\n'], y) := by
  induction x with
  | nil => simp [splitLine]
  | cons c rest ih =>
    have hc : c ≠ '\n' := fun h => hx (h ▸ List.mem_cons_self c rest)
    have hrest : '\n' ∉ rest := fun h => hx (List.mem_cons_of_mem c h)
    have ih2 := ih hrest
    simp only [List.cons_append, splitLine, if_neg hc]
    simp [ih2]

theorem splitLine_no_nl (l : List Char) (h : '\n' ∉ l) : splitLine l = (l, []) := by
  induction l with
  | nil => rfl
  | cons c rest ih =>
    have hc : c ≠ '\n' := fun hh => h (hh ▸ List.mem_cons_self c rest)
    have hrest : '\n' ∉ rest := fun hh => h (List.mem_cons_of_mem c hh)
    simp only [splitLine, if_neg hc, ih hrest]

theorem toLines_cons (c : Char) (cs : List Char) :
    toLines (c :: cs) = (splitLine (c :: cs)).1 :: toLines (splitLine (c :: cs)).2 := by
  rw [toLines]

theorem toLines_nil : toLines ([] : List Char) = [] := by
  rw [toLines]

theorem join_toLines_aux :
    ∀ n, ∀ l : List Char, l.length = n → (toLines l).flatten = l := by
  intro n
  induction n using Nat.strong_induction_on with
  | _ n ih =>
    intro l hn
    cases l with
    | nil => rw [toLines_nil]; rfl
    | cons c cs =>
      rw [toLines_cons]
      have hlen : (splitLine (c :: cs)).2.length < n := by
        rw [← hn]
        exact Nat.lt_of_le_of_lt (splitLine_cons_le c cs) (Nat.lt_succ_self _)
      rw [List.flatten_cons, ih _ hlen _ rfl, splitLine_eq]

theorem join_toLines (l : List Char) : (toLines l).flatten = l :=
  join_toLines_aux l.length l rfl

/-- A well-formed line: nonempty, with `\n` at most as its last character. -/
def ProperLn (ln : List Char) : Prop := ln ≠ [] ∧ '\n' ∉ ln.dropLast

/-- All lines except possibly the last are terminated. -/
def TEL (L : List (List Char)) : Prop := ∀ ln ∈ L.dropLast, lineDone ln = true

theorem splitLine_proper (l : List Char) (h : l ≠ []) :
    ProperLn (splitLine l).1 ∧ ((splitLine l).2 ≠ [] → lineDone (splitLine l).1 = true) := by
  induction l with
  | nil => exact absurd rfl h
  | cons c rest ih =>
    simp only [splitLine]
    by_cases hc : c = '\n'
    · rw [if_pos hc]
      refine ⟨⟨List.cons_ne_nil _ _, by simp⟩, fun _ => ?_⟩
      simp [lineDone, hc]
    · rw [if_neg hc]
      cases hrest : rest with
      | nil =>
        subst hrest
        simp only [splitLine]
        exact ⟨⟨List.cons_ne_nil _ _, by simp⟩, fun hne => absurd rfl hne⟩
      | cons r rs =>
        have := ih (by simp [hrest])
        rw [hrest] at this
        obtain ⟨⟨hne, hnl⟩, hdone⟩ := this
        constructor
        · refine ⟨List.cons_ne_nil _ _, ?_⟩
          rw [List.dropLast_cons_of_ne_nil hne]
          intro hmem
          rcases List.mem_cons.mp hmem with h1 | h2
          · exact hc h1.symm
          · exact hnl h2
        · intro hne2
          have hd : lineDone (splitLine (r :: rs)).1 = true := hdone hne2
          simp only [lineDone] at hd ⊢
          rwa [TeamUtils.getLast?_cons_ne_nil hne]

theorem toLines_proper_aux :
    ∀ n, ∀ l : List Char, l.length = n → ∀ ln ∈ toLines l, ProperLn ln := by
  intro n
  induction n using Nat.strong_induction_on with
  | _ n ih =>
    intro l hn
    cases l with
    | nil => intro ln hln; exact absurd hln (by simp [toLines])
    | cons c cs =>
      rw [toLines_cons]
      intro ln hln
      rcases List.mem_cons.mp hln with h1 | h2
      · rw [h1]
        exact (splitLine_proper _ (List.cons_ne_nil _ _)).1
      · have hlen : (splitLine (c :: cs)).2.length < n := by
          rw [← hn]
          exact Nat.lt_of_le_of_lt (splitLine_cons_le c cs) (Nat.lt_succ_self _)
        exact ih _ hlen _ rfl ln h2

theorem toLines_proper (l : List Char) : ∀ ln ∈ toLines l, ProperLn ln :=
  toLines_proper_aux l.length l rfl

theorem toLines_nil_iff (l : List Char) : toLines l = [] ↔ l = [] := by
  cases l with
  | nil => simp [toLines]
  | cons c cs =>
    rw [toLines_cons]
    simp

theorem toLines_TEL_aux :
    ∀ n, ∀ l : List Char, l.length = n → TEL (toLines l) := by
  intro n
  induction n using Nat.strong_induction_on with
  | _ n ih =>
    intro l hn
    cases l with
    | nil => intro ln hln; exact absurd hln (by simp [toLines])
    | cons c cs =>
      rw [toLines_cons]
      intro ln hln
      cases htl : toLines (splitLine (c :: cs)).2 with
      | nil =>
        rw [htl] at hln
        exact absurd hln (by simp)
      | cons m ms =>
        rw [htl, List.dropLast_cons_of_ne_nil (List.cons_ne_nil _ _)] at hln
        rcases List.mem_cons.mp hln with h1 | h2
        · have hne2 : (splitLine (c :: cs)).2 ≠ [] := by
            intro hz
            rw [hz] at htl
            exact List.noConfusion ((toLines_nil_iff ([] : List Char)).mpr rfl ▸ htl)
          rw [h1]
          exact (splitLine_proper _ (List.cons_ne_nil _ _)).2 hne2
        · have hlen : (splitLine (c :: cs)).2.length < n := by
            rw [← hn]
            exact Nat.lt_of_le_of_lt (splitLine_cons_le c cs) (Nat.lt_succ_self _)
          have hT := ih _ hlen _ rfl
          rw [htl] at hT
          exact hT ln h2

theorem toLines_TEL (l : List Char) : TEL (toLines l) :=
  toLines_TEL_aux l.length l rfl

end Staleness

namespace Staleness

theorem takeWhile_append_all {α : Type} (p : α → Bool) (u v : List α)
    (hu : ∀ x ∈ u, p x = true) :
    (u ++ v).takeWhile p = u ++ v.takeWhile p := by
  induction u with
  | nil => rfl
  | cons a rest ih =>
    have ha : p a = true := hu a (List.mem_cons_self _ _)
    simp only [List.cons_append, List.takeWhile_cons, ha, if_true]
    rw [ih (fun x hx => hu x (List.mem_cons_of_mem _ hx))]

theorem dropWhile_append_all {α : Type} (p : α → Bool) (u v : List α)
    (hu : ∀ x ∈ u, p x = true) :
    (u ++ v).dropWhile p = v.dropWhile p := by
  induction u with
  | nil => rfl
  | cons a rest ih =>
    have ha : p a = true := hu a (List.mem_cons_self _ _)
    simp only [List.cons_append, List.dropWhile_cons, ha, if_true]
    exact ih (fun x hx => hu x (List.mem_cons_of_mem _ hx))

theorem takeWhile_nil_of_head {α : Type} (p : α → Bool) (h : α) (t : List α)
    (hh : p h = false) : (h :: t).takeWhile p = [] := by
  simp [List.takeWhile_cons, hh]

theorem dropWhile_id_of_head {α : Type} (p : α → Bool) (h : α) (t : List α)
    (hh : p h = false) : (h :: t).dropWhile p = h :: t := by
  simp [List.dropWhile_cons, hh]

theorem dropWhile_head_false {α : Type} (p : α → Bool) (l : List α) :
    l.dropWhile p = [] ∨ ∃ h t, l.dropWhile p = h :: t ∧ p h = false := by
  induction l with
  | nil => exact Or.inl rfl
  | cons a rest ih =>
    by_cases ha : p a = true
    · rw [List.dropWhile_cons, if_pos ha]
      exact ih
    · rw [List.dropWhile_cons, if_neg ha]
      exact Or.inr ⟨a, rest, rfl, Bool.not_eq_true _ ▸ (by simpa using ha)⟩

theorem mem_of_mem_takeWhile {α : Type} (p : α → Bool) (l : List α) (x : α)
    (h : x ∈ l.takeWhile p) : x ∈ l :=
  (List.takeWhile_sublist _).subset h

theorem findPinnedL_append (L : List (List Char)) :
    ∀ a b, findPinnedL L = some (a, b) → L = a ++ b := by
  induction L with
  | nil => intro a b h; exact Option.noConfusion h
  | cons ln rest ih =>
    intro a b h
    simp only [findPinnedL] at h
    by_cases hm : headerLineMatch ln = true
    · rw [if_pos hm] at h
      injection h with h2
      have ha : ln :: rest.takeWhile skippable = a := congrArg Prod.fst h2
      have hb : rest.dropWhile skippable = b := congrArg Prod.snd h2
      rw [← ha, ← hb]
      simp only [List.cons_append]
      rw [List.takeWhile_append_dropWhile]
    · rw [if_neg hm] at h
      cases hrec : findPinnedL rest with
      | none => rw [hrec] at h; exact Option.noConfusion h
      | some p =>
        rw [hrec] at h
        injection h with h2
        have ha : ln :: p.1 = a := congrArg Prod.fst h2
        have hb : p.2 = b := congrArg Prod.snd h2
        rw [← ha, ← hb, List.cons_append, ← ih p.1 p.2 (by rw [hrec])]

theorem findPinnedL_post (L : List (List Char)) :
    ∀ a b, findPinnedL L = some (a, b) →
      b = [] ∨ ∃ h t, b = h :: t ∧ skippable h = false := by
  induction L with
  | nil => intro a b h; exact Option.noConfusion h
  | cons ln rest ih =>
    intro a b h
    simp only [findPinnedL] at h
    by_cases hm : headerLineMatch ln = true
    · rw [if_pos hm] at h
      injection h with h2
      have hb : rest.dropWhile skippable = b := congrArg Prod.snd h2
      rw [← hb]
      rcases dropWhile_head_false skippable rest with h0 | ⟨x, t, hxt, hx⟩
      · exact Or.inl h0
      · exact Or.inr ⟨x, t, hxt, hx⟩
    · rw [if_neg hm] at h
      cases hrec : findPinnedL rest with
      | none => rw [hrec] at h; exact Option.noConfusion h
      | some p =>
        rw [hrec] at h
        injection h with h2
        have hb : p.2 = b := congrArg Prod.snd h2
        rw [← hb]
        exact ih p.1 p.2 (by rw [hrec])

theorem findPinnedL_stable (a : List (List Char)) :
    ∀ b b2, findPinnedL (a ++ b) = some (a, b) →
      (∃ h t, b = h :: t ∧ skippable h = false) →
      (∃ h t, b2 = h :: t ∧ skippable h = false) →
      findPinnedL (a ++ b2) = some (a, b2) := by
  induction a with
  | nil =>
    intro b b2 h hb hb2
    obtain ⟨x, t, hxt, hx⟩ := hb
    rw [List.nil_append, hxt] at h
    simp only [findPinnedL] at h
    by_cases hm : headerLineMatch x = true
    · rw [if_pos hm] at h
      injection h with h2
      have := congrArg Prod.fst h2
      exact absurd this (by simp)
    · rw [if_neg hm] at h
      cases hrec : findPinnedL t with
      | none => rw [hrec] at h; exact Option.noConfusion h
      | some p =>
        rw [hrec] at h
        injection h with h2
        have := congrArg Prod.fst h2
        exact absurd this (by simp)
  | cons ln rest ih =>
    intro b b2 h hb hb2
    rw [List.cons_append] at h
    simp only [findPinnedL] at h
    by_cases hm : headerLineMatch ln = true
    · rw [if_pos hm] at h
      injection h with h2
      have ha : (rest ++ b).takeWhile skippable = rest := by
        have := congrArg Prod.fst h2
        simpa using this
      have hbb : (rest ++ b).dropWhile skippable = b := congrArg Prod.snd h2
      -- every line of rest is skippable
      have hrest : ∀ x ∈ rest, skippable x = true := by
        intro x hx
        have hx2 : x ∈ (rest ++ b).takeWhile skippable := by rw [ha]; exact hx
        exact List.mem_takeWhile_imp hx2
      obtain ⟨x2, t2, hxt2, hx2⟩ := hb2
      rw [List.cons_append]
      simp only [findPinnedL, if_pos hm]
      rw [takeWhile_append_all skippable rest b2 hrest,
        dropWhile_append_all skippable rest b2 hrest, hxt2,
        takeWhile_nil_of_head skippable x2 t2 hx2,
        dropWhile_id_of_head skippable x2 t2 hx2, List.append_nil, ← hxt2]
    · rw [if_neg hm] at h
      cases hrec : findPinnedL (rest ++ b) with
      | none => rw [hrec] at h; exact Option.noConfusion h
      | some p =>
        rw [hrec] at h
        injection h with h2
        have ha : ln :: p.1 = ln :: rest := congrArg Prod.fst h2
        have hp1 : p.1 = rest := by injection ha
        have hp2 : p.2 = b := congrArg Prod.snd h2
        have hpeq : p = (rest, b) := by
          cases p
          simp only [Prod.mk.injEq]
          exact ⟨hp1, hp2⟩
        have hrec2 : findPinnedL (rest ++ b) = some (rest, b) := by
          rw [hrec, hpeq]
        have := ih b b2 hrec2 hb hb2
        rw [List.cons_append]
        simp only [findPinnedL, if_neg hm, this]

end Staleness

namespace Staleness

theorem groupEntriesL_nil : groupEntriesL [] = [] := by
  rw [groupEntriesL]

theorem groupEntriesL_cons (ln : List Char) (rest : List (List Char)) :
    groupEntriesL (ln :: rest) =
      (ln :: rest.takeWhile (fun l => !entryLineStart l)) ::
        groupEntriesL (rest.dropWhile (fun l => !entryLineStart l)) := by
  rw [groupEntriesL]

theorem groupEntriesL_flatten_aux :
    ∀ n, ∀ L : List (List Char), L.length = n → (groupEntriesL L).flatten = L := by
  intro n
  induction n using Nat.strong_induction_on with
  | _ n ih =>
    intro L hn
    cases L with
    | nil => rw [groupEntriesL_nil]; rfl
    | cons ln rest =>
      rw [groupEntriesL_cons, List.flatten_cons]
      have hlen : (rest.dropWhile (fun l => !entryLineStart l)).length < n := by
        rw [← hn]
        exact Nat.lt_of_le_of_lt (List.dropWhile_sublist _ |>.length_le) (Nat.lt_succ_self _)
      rw [ih _ hlen _ rfl, List.cons_append, List.takeWhile_append_dropWhile]

theorem groupEntriesL_flatten (L : List (List Char)) :
    (groupEntriesL L).flatten = L :=
  groupEntriesL_flatten_aux L.length L rfl

/-- Shape of the groups produced over a list whose head (if any) is an
entry-start line: every group is an entry-start line followed by
non-entry-start lines. -/
def EntryShaped (g : List (List Char)) : Prop :=
  ∃ h t, g = h :: t ∧ entryLineStart h = true ∧ ∀ ln ∈ t, entryLineStart ln = false

theorem groupEntriesL_shape_aux :
    ∀ n, ∀ L : List (List Char), L.length = n →
      (L = [] ∨ ∃ h t, L = h :: t ∧ entryLineStart h = true) →
      ∀ g ∈ groupEntriesL L, EntryShaped g := by
  intro n
  induction n using Nat.strong_induction_on with
  | _ n ih =>
    intro L hn hL
    cases L with
    | nil => intro g hg; rw [groupEntriesL_nil] at hg; exact absurd hg (by simp)
    | cons ln rest =>
      rcases hL with h0 | ⟨h, t, hht, hstart⟩
      · exact absurd h0 (by simp)
      · have hln : entryLineStart ln = true := by
          injection hht with h1 _
          rw [h1]; exact hstart
        intro g hg
        rw [groupEntriesL_cons] at hg
        rcases List.mem_cons.mp hg with h1 | h2
        · refine ⟨ln, rest.takeWhile (fun l => !entryLineStart l), h1, hln, ?_⟩
          intro ln2 hln2
          have := List.mem_takeWhile_imp hln2
          simpa using this
        · have hlen : (rest.dropWhile (fun l => !entryLineStart l)).length < n := by
            rw [← hn]
            exact Nat.lt_of_le_of_lt (List.dropWhile_sublist _ |>.length_le)
              (Nat.lt_succ_self _)
          refine ih _ hlen _ rfl ?_ g h2
          rcases dropWhile_head_false (fun l => !entryLineStart l) rest with hd | ⟨x, xt, hxt, hx⟩
          · exact Or.inl hd
          · refine Or.inr ⟨x, xt, hxt, ?_⟩
            simpa using hx

theorem flatten_head_entry (G : List (List (List Char)))
    (hG : ∀ g ∈ G, EntryShaped g) :
    G.flatten = [] ∨
      ∃ h t, G.flatten = h :: t ∧ entryLineStart h = true := by
  cases G with
  | nil => exact Or.inl rfl
  | cons g rest =>
    obtain ⟨h, t, hht, hh, _⟩ := hG g (List.mem_cons_self _ _)
    refine Or.inr ⟨h, t ++ rest.flatten, ?_, hh⟩
    rw [List.flatten_cons, hht, List.cons_append]

theorem groupEntriesL_exact (G : List (List (List Char)))
    (hG : ∀ g ∈ G, EntryShaped g) :
    groupEntriesL G.flatten = G := by
  induction G with
  | nil => exact groupEntriesL_nil
  | cons g rest ih =>
    obtain ⟨h, t, hht, hh, ht⟩ := hG g (List.mem_cons_self _ _)
    have hrest : ∀ g2 ∈ rest, EntryShaped g2 :=
      fun g2 hg2 => hG g2 (List.mem_cons_of_mem _ hg2)
    have htw : ∀ x ∈ t, (fun l => !entryLineStart l) x = true := by
      intro x hx
      simp [ht x hx]
    rw [List.flatten_cons, hht, List.cons_append, groupEntriesL_cons,
      takeWhile_append_all _ t _ htw, dropWhile_append_all _ t _ htw]
    rcases flatten_head_entry rest hrest with h0 | ⟨h2, t2, hht2, hh2⟩
    · rw [h0]
      simp only [List.takeWhile_nil, List.dropWhile_nil, List.append_nil]
      rw [← h0, ih hrest, ← hht]
    · have hh2f : (fun l => !entryLineStart l) h2 = false := by simp [hh2]
      rw [hht2, takeWhile_nil_of_head (fun l => !entryLineStart l) h2 t2 hh2f,
        dropWhile_id_of_head (fun l => !entryLineStart l) h2 t2 hh2f,
        List.append_nil, ← hht2, ih hrest, ← hht]

end Staleness

namespace Staleness

theorem startsWithL_self (n : List Char) : ∀ x, startsWithL n (n ++ x) = true := by
  induction n with
  | nil => intro x; rfl
  | cons c rest ih =>
    intro x
    show (c == c && startsWithL rest (rest ++ x)) = true
    rw [ih x]
    simp

theorem startsWithL_drop (n : List Char) :
    ∀ l, startsWithL n l = true → l = n ++ l.drop n.length := by
  induction n with
  | nil => intro l _; rfl
  | cons c rest ih =>
    intro l h
    cases l with
    | nil => exact absurd h (by simp [startsWithL])
    | cons a as =>
      simp only [startsWithL, Bool.and_eq_true, beq_iff_eq] at h
      obtain ⟨hc, hrest⟩ := h
      have := ih as hrest
      simp only [List.length_cons, List.drop_succ_cons, List.cons_append]
      rw [hc, ← this]

theorem containsSub_of_startsWith (n l : List Char) (h : startsWithL n l = true) :
    containsSub n l = true := by
  cases l with
  | nil =>
    cases n with
    | nil => rfl
    | cons c cs => exact absurd h (by simp [startsWithL])
  | cons c cs =>
    simp only [containsSub, h, Bool.true_or]

theorem dateShape_spec (d : List Char) (h : dateShape d = true) :
    d.length = 10 ∧ ∀ c ∈ d, c.isDigit = true ∨ c = '-' := by
  unfold dateShape at h
  split at h
  case _ a b c e f g k i j m =>
    simp only [Bool.and_eq_true, beq_iff_eq] at h
    refine ⟨rfl, ?_⟩
    intro x hx
    simp only [List.mem_cons, List.not_mem_nil, or_false] at hx
    rcases hx with rfl | rfl | rfl | rfl | rfl | rfl | rfl | rfl | rfl | rfl <;>
      first
        | (left; tauto)
        | (right; tauto)
  case _ => exact Bool.noConfusion h

theorem isDigit_ne_nl (c : Char) (h : c.isDigit = true) : c ≠ '\n' := by
  intro he
  rw [he] at h
  exact absurd h (by decide)

theorem prTail_shape (r6 d : List Char) (h : prTail r6 = some d) :
    dateShape d = true := by
  unfold prTail at h
  repeat' split at h
  all_goals
    first
      | exact Option.noConfusion h
      | (injection h with hh; rw [← hh]; assumption)

theorem prMatchAt_shape (l d : List Char) (h : prMatchAt l = some d) :
    dateShape d = true := by
  unfold prMatchAt at h
  repeat' split at h
  all_goals
    first
      | exact Option.noConfusion h
      | exact prTail_shape _ _ h

theorem prSearch_shape (l : List Char) :
    ∀ d, prSearch l = some d → dateShape d = true := by
  induction l with
  | nil => intro d h; exact Option.noConfusion h
  | cons c rest ih =>
    intro d h
    simp only [prSearch] at h
    cases hm : prMatchAt (c :: rest) with
    | some d2 =>
      rw [hm] at h
      injection h with hh
      exact hh ▸ prMatchAt_shape _ _ hm
    | none =>
      rw [hm] at h
      exact ih d h

theorem staleLine_decomp (d : List Char) :
    staleLine d = (staleLitL ++ d ++ (" -->").toList) ++ ['\n'] := by
  have hs : (" -->\n").toList = (" -->").toList ++ ['\n'] := rfl
  simp [staleLine, hs]

theorem lineDone_staleLine (d : List Char) : lineDone (staleLine d) = true := by
  rw [staleLine_decomp]
  simp only [lineDone, List.getLast?_concat]
  decide

theorem properLn_staleLine (d : List Char) (hd : dateShape d = true) :
    ProperLn (staleLine d) := by
  constructor
  · rw [staleLine_decomp]
    simp
  · rw [staleLine_decomp, List.dropLast_concat]
    intro hmem
    rcases List.mem_append.mp hmem with h1 | h2
    · rcases List.mem_append.mp h1 with h3 | h4
      · exact absurd h3 (by decide)
      · rcases (dateShape_spec d hd).2 _ h4 with h5 | h5
        · exact isDigit_ne_nl _ h5 rfl
        · exact absurd h5 (by decide)
    · exact absurd h2 (by decide)

theorem sectionLineStart_staleLine (d : List Char) :
    sectionLineStart (staleLine d) = false := rfl

theorem entryLineStart_staleLine (d : List Char) :
    entryLineStart (staleLine d) = false := rfl

theorem staleAt_marker (d r : List Char) (hd : dateShape d = true) :
    staleAt (staleLine d ++ r) = true := by
  have hassoc : staleLine d ++ r = staleLitL ++ (d ++ (" -->\n").toList ++ r) := by
    simp [staleLine, List.append_assoc]
  have h10 : d.length = 10 := (dateShape_spec d hd).1
  have hdrop : (staleLine d ++ r).drop staleLitL.length =
      d ++ ((" -->\n").toList ++ r) := by
    rw [hassoc, List.drop_left, List.append_assoc]
  unfold staleAt
  rw [hassoc]
  rw [← hassoc, hdrop, List.take_left' h10, List.drop_left' h10]
  have hsw : startsWithL staleLitL (staleLitL ++ (d ++ (" -->\n").toList ++ r)) = true :=
    startsWithL_self _ _
  have htail : (" -->\n").toList ++ r = (" -->").toList ++ ('\n' :: r) := rfl
  rw [← hassoc] at hsw
  rw [hsw, hd, htail, startsWithL_self]
  rfl

theorem staleMarkerFound_cons (c : Char) (rest : List Char) :
    staleMarkerFound (c :: rest) = (staleAt (c :: rest) || staleMarkerFound rest) := rfl

theorem staleAt_ne_nil (r : List Char) (h : staleAt r = true) : r ≠ [] := by
  intro he
  rw [he] at h
  exact absurd h (by decide)

theorem staleMarkerFound_append (x : List Char) :
    ∀ r, staleAt r = true → staleMarkerFound (x ++ r) = true := by
  induction x with
  | nil =>
    intro r h
    cases r with
    | nil => exact absurd rfl (staleAt_ne_nil _ h)
    | cons c t => rw [List.nil_append, staleMarkerFound_cons, h, Bool.true_or]
  | cons y x2 ih =>
    intro r h
    rw [List.cons_append, staleMarkerFound_cons, ih r h, Bool.or_true]

end Staleness

namespace Staleness

theorem markDated_eq (thr : DT) (e : List (List Char)) (d : List Char) :
    markDated thr e d = e ∨
      (∃ ymd, parseDate d = some ymd ∧
        dtLt ⟨ymd.1, ymd.2.1, ymd.2.2, 0, 0, 0⟩ thr = true ∧
        markDated thr e d = markIns e d) := by
  cases hpd : parseDate d with
  | none =>
    left
    unfold markDated
    rw [hpd]
  | some ymd =>
    have hred : markDated thr e d =
        (if dtLt ⟨ymd.1, ymd.2.1, ymd.2.2, 0, 0, 0⟩ thr = true then markIns e d
         else e) := by
      unfold markDated
      rw [hpd]
    by_cases h2 : dtLt ⟨ymd.1, ymd.2.1, ymd.2.2, 0, 0, 0⟩ thr = true
    · exact Or.inr ⟨ymd, rfl, h2, by rw [hred, if_pos h2]⟩
    · left
      rw [hred, if_neg h2]

theorem markEntry_cases (thr : DT) (e : List (List Char)) :
    markEntry thr e = e ∨
      ∃ h t d, e = h :: t ∧ dateShape d = true ∧ lineDone h = true ∧
        markEntry thr e = h :: staleLine d :: t := by
  by_cases h1 : staleMarkerFound e.flatten = true
  · left
    unfold markEntry
    rw [if_pos h1]
  · cases hpr : prSearch e.flatten with
    | none =>
      left
      unfold markEntry
      rw [if_neg h1, hpr]
    | some d =>
      have hme : markEntry thr e = markDated thr e d := by
        unfold markEntry
        rw [if_neg h1, hpr]
      rcases markDated_eq thr e d with hmd | ⟨ymd, hpd, h2, hmd⟩
      · left
        rw [hme, hmd]
      · rw [hme, hmd]
        cases e with
        | nil => exact Or.inl rfl
        | cons h t =>
          have hin : markIns (h :: t) d =
              (if lineDone h = true then h :: staleLine d :: t else h :: t) := rfl
          by_cases h3 : lineDone h = true
          · right
            refine ⟨h, t, d, rfl, prSearch_shape _ _ hpr, h3, ?_⟩
            rw [hin, if_pos h3]
          · left
            rw [hin, if_neg h3]

theorem markEntry_marked (thr : DT) (e2 : List (List Char))
    (h : staleMarkerFound e2.flatten = true) : markEntry thr e2 = e2 := by
  unfold markEntry
  rw [if_pos h]

theorem markEntry_idem (thr : DT) (e : List (List Char)) :
    markEntry thr (markEntry thr e) = markEntry thr e := by
  rcases markEntry_cases thr e with h | ⟨h, t, d, he, hd, hdone, hm⟩
  · rw [h, h]
  · rw [hm]
    apply markEntry_marked
    have hflat : (h :: staleLine d :: t).flatten = h ++ (staleLine d ++ t.flatten) := by
      simp [List.flatten_cons]
    rw [hflat]
    exact staleMarkerFound_append h _ (staleAt_marker d t.flatten hd)

theorem markEntry_mem (thr : DT) (e : List (List Char)) (ln : List Char)
    (h : ln ∈ markEntry thr e) :
    ln ∈ e ∨ ∃ d, dateShape d = true ∧ ln = staleLine d := by
  rcases markEntry_cases thr e with hc | ⟨h2, t, d, he, hd, hdone, hm⟩
  · rw [hc] at h
    exact Or.inl h
  · rw [hm] at h
    rcases List.mem_cons.mp h with h1 | h1
    · exact Or.inl (he ▸ (h1 ▸ List.mem_cons_self _ _))
    · rcases List.mem_cons.mp h1 with h3 | h3
      · exact Or.inr ⟨d, hd, h3⟩
      · exact Or.inl (he ▸ List.mem_cons_of_mem _ h3)

theorem markEntry_shaped (thr : DT) (e : List (List Char)) (h : EntryShaped e) :
    EntryShaped (markEntry thr e) := by
  rcases markEntry_cases thr e with hc | ⟨h2, t, d, he, hd, hdone, hm⟩
  · rw [hc]; exact h
  · obtain ⟨h0, t0, he0, hels, ht0⟩ := h
    rw [he0] at he
    injection he with hh ht
    rw [hm, ← hh]
    refine ⟨h0, staleLine d :: t0, by rw [ht], hels, ?_⟩
    intro ln hln
    rcases List.mem_cons.mp hln with h1 | h1
    · rw [h1]
      exact entryLineStart_staleLine d
    · exact ht0 ln h1

theorem markEntry_TEL (thr : DT) (e : List (List Char)) (hT : TEL e) :
    TEL (markEntry thr e) := by
  rcases markEntry_cases thr e with hc | ⟨h2, t, d, he, hd, hdone, hm⟩
  · rw [hc]; exact hT
  · rw [hm]
    intro ln hln
    cases t with
    | nil =>
      simp only [List.dropLast] at hln
      rcases List.mem_cons.mp hln with h1 | h1
      · rw [h1]; exact hdone
      · exact absurd h1 (by simp)
    | cons t1 ts =>
      rw [List.dropLast_cons_of_ne_nil (List.cons_ne_nil _ _),
        List.dropLast_cons_of_ne_nil (List.cons_ne_nil _ _)] at hln
      rcases List.mem_cons.mp hln with h1 | h1
      · rw [h1]; exact hdone
      · rcases List.mem_cons.mp h1 with h3 | h3
        · rw [h3]; exact lineDone_staleLine d
        · have : ln ∈ (h2 :: t1 :: ts).dropLast := by
            rw [List.dropLast_cons_of_ne_nil (List.cons_ne_nil _ _)]
            exact List.mem_cons_of_mem _ h3
          exact (he ▸ hT) ln this

theorem markEntry_ne_nil (thr : DT) (e : List (List Char)) (h : e ≠ []) :
    markEntry thr e ≠ [] := by
  rcases markEntry_cases thr e with hc | ⟨h2, t, d, he, hd, hdone, hm⟩
  · rw [hc]; exact h
  · rw [hm]; exact List.cons_ne_nil _ _

theorem digitChar_ne_nl (k : ℕ) : digitChar k ≠ '\n' := by
  unfold digitChar
  split <;> decide

theorem natDigits_ne_nl :
    ∀ n, ∀ c ∈ natDigits n, c ≠ '\n' := by
  intro n
  induction n using Nat.strong_induction_on with
  | _ n ih =>
    intro c hc
    rw [natDigits] at hc
    by_cases h : n < 10
    · rw [dif_pos h] at hc
      rcases List.mem_cons.mp hc with h1 | h1
      · rw [h1]; exact digitChar_ne_nl n
      · exact absurd h1 (by simp)
    · rw [dif_neg h] at hc
      rcases List.mem_append.mp hc with h1 | h1
      · exact ih (n / 10)
          (Nat.div_lt_self (Nat.lt_of_lt_of_le (by decide) (Nat.le_of_not_lt h)) (by decide))
          c h1
      · rcases List.mem_cons.mp h1 with h2 | h2
        · rw [h2]; exact digitChar_ne_nl _
        · exact absurd h2 (by simp)

theorem warnLine_decomp (txt : List Char) :
    warnLine txt =
      (warnLitL ++ (" ~").toList ++ natDigits (estTokens txt) ++
        (" tokens (budget: 1200). Consider archiving stale pins. -->").toList) ++ ['\n'] := by
  have hs : (" tokens (budget: 1200). Consider archiving stale pins. -->\n").toList =
      (" tokens (budget: 1200). Consider archiving stale pins. -->").toList ++ ['\n'] := rfl
  simp [warnLine, hs]

theorem lineDone_warnLine (txt : List Char) : lineDone (warnLine txt) = true := by
  rw [warnLine_decomp]
  simp only [lineDone, List.getLast?_concat]
  decide

theorem properLn_warnLine (txt : List Char) : ProperLn (warnLine txt) := by
  constructor
  · rw [warnLine_decomp]
    simp
  · rw [warnLine_decomp, List.dropLast_concat]
    intro hmem
    rcases List.mem_append.mp hmem with h1 | h2
    · rcases List.mem_append.mp h1 with h3 | h4
      · rcases List.mem_append.mp h3 with h5 | h6
        · exact absurd h5 (by decide)
        · exact absurd h6 (by decide)
      · exact natDigits_ne_nl _ _ h4 rfl
    · exact absurd h2 (by decide)

theorem sectionLineStart_warnLine (txt : List Char) :
    sectionLineStart (warnLine txt) = false := rfl

theorem entryLineStart_warnLine (txt : List Char) :
    entryLineStart (warnLine txt) = false := rfl

theorem skippable_warnLine (txt : List Char) : skippable (warnLine txt) = false := rfl

end Staleness

namespace Staleness

theorem dropLast_append_ne_nil {α : Type} (u v : List α) (hv : v ≠ []) :
    (u ++ v).dropLast = u ++ v.dropLast := by
  induction u with
  | nil => rfl
  | cons a rest ih =>
    have hne : rest ++ v ≠ [] := by
      intro h
      rcases List.append_eq_nil.mp h with ⟨_, h2⟩
      exact hv h2
    rw [List.cons_append, List.dropLast_cons_of_ne_nil hne, ih, List.cons_append]

theorem TEL_extract (u v : List (List Char)) (h : TEL (u ++ v)) (hv : v ≠ []) :
    (∀ ln ∈ u, lineDone ln = true) ∧ TEL v := by
  rw [TEL, dropLast_append_ne_nil u v hv] at h
  constructor
  · intro ln hln
    exact h ln (List.mem_append_left _ hln)
  · intro ln hln
    exact h ln (List.mem_append_right _ hln)

theorem TEL_append (u v : List (List Char)) (hu : ∀ ln ∈ u, lineDone ln = true)
    (hv : TEL v) : TEL (u ++ v) := by
  intro ln hln
  by_cases hvn : v = []
  · rw [hvn, List.append_nil] at hln
    exact hu ln (List.dropLast_sublist _ |>.subset hln)
  · rw [dropLast_append_ne_nil u v hvn] at hln
    rcases List.mem_append.mp hln with h1 | h2
    · exact hu ln h1
    · exact hv ln h2

/-- Every line of a proper line list is well-formed and all but the last
are terminated; the shape `toLines` produces and `toLines ∘ flatten`
inverts. -/
def ProperL (L : List (List Char)) : Prop :=
  (∀ ln ∈ L, ProperLn ln) ∧ TEL L

theorem lineDone_iff (ln : List Char) : lineDone ln = true ↔ ln.getLast? = some '\n' := by
  unfold lineDone
  rw [show Char.ofNat 10 = '\n' from by decide]
  exact ⟨of_decide_eq_true, decide_eq_true⟩

theorem dropLast_concat_getLast (ln : List Char) (h : ln.getLast? = some '\n') :
    ln.dropLast ++ ['\n'] = ln := by
  induction ln with
  | nil => exact absurd h (by simp)
  | cons c rest ih =>
    cases hr : rest with
    | nil =>
      subst hr
      simp only [List.getLast?_singleton, Option.some.injEq] at h
      simp [h]
    | cons x xs =>
      subst hr
      rw [TeamUtils.getLast?_cons_ne_nil (List.cons_ne_nil _ _)] at h
      rw [List.dropLast_cons_of_ne_nil (List.cons_ne_nil _ _), List.cons_append, ih h]

theorem toLines_of_ne (l : List Char) (h : l ≠ []) :
    toLines l = (splitLine l).1 :: toLines (splitLine l).2 := by
  cases l with
  | nil => exact absurd rfl h
  | cons c cs => exact toLines_cons c cs

theorem splitLine_self_of_done (ln : List Char) (hnl : '\n' ∉ ln.dropLast)
    (hg : ln.getLast? = some '\n') : splitLine ln = (ln, []) := by
  have hd : ln.dropLast ++ ['\n'] = ln := dropLast_concat_getLast ln hg
  have hs : splitLine (ln.dropLast ++ '\n' :: []) = (ln.dropLast ++ ['\n'], []) :=
    splitLine_of_done [] ln.dropLast hnl
  rw [show ln.dropLast ++ '\n' :: ([] : List Char) = ln.dropLast ++ ['\n'] from rfl, hd] at hs
  exact hs

theorem no_nl_of_undone (ln : List Char) (hnl : '\n' ∉ ln.dropLast)
    (hdone : lineDone ln = false) : '\n' ∉ ln := by
  intro hmem
  rcases List.append_of_mem hmem with ⟨s, t, hst⟩
  cases t with
  | nil =>
    have : ln.getLast? = some '\n' := by
      rw [hst]
      exact List.getLast?_concat _
    rw [(lineDone_iff ln).mpr this] at hdone
    exact Bool.noConfusion hdone
  | cons x xs =>
    apply hnl
    rw [hst, dropLast_append_ne_nil _ _ (List.cons_ne_nil _ _),
      List.dropLast_cons_of_ne_nil (List.cons_ne_nil _ _)]
    exact List.mem_append_right _ (List.mem_cons_self _ _)

theorem splitLine_self_proper (ln : List Char) (h : ProperLn ln) :
    splitLine ln = (ln, []) := by
  obtain ⟨hne, hnl⟩ := h
  cases hdone : lineDone ln with
  | true => exact splitLine_self_of_done ln hnl ((lineDone_iff ln).mp hdone)
  | false => exact splitLine_no_nl ln (no_nl_of_undone ln hnl hdone)

theorem toLines_single (ln : List Char) (h : ProperLn ln) : toLines ln = [ln] := by
  rw [toLines_of_ne ln h.1, splitLine_self_proper ln h]
  show ln :: toLines [] = [ln]
  rw [toLines_nil]

theorem flatten_ne_nil {α : Type} (L : List (List α)) (hL : ∀ ln ∈ L, ln ≠ [])
    (h : L ≠ []) : L.flatten ≠ [] := by
  cases L with
  | nil => exact absurd rfl h
  | cons ln rest =>
    rw [List.flatten_cons]
    intro habs
    rcases List.append_eq_nil.mp habs with ⟨h1, _⟩
    exact hL ln (List.mem_cons_self _ _) h1

theorem toLines_flatten (L : List (List Char)) (h : ProperL L) :
    toLines L.flatten = L := by
  induction L with
  | nil => exact toLines_nil
  | cons ln rest ih =>
    obtain ⟨hprop, htel⟩ := h
    have hpl : ProperLn ln := hprop ln (List.mem_cons_self _ _)
    by_cases hrest : rest = []
    · subst hrest
      rw [List.flatten_cons, List.flatten_nil, List.append_nil]
      exact toLines_single ln hpl
    · have hdone : lineDone ln = true := by
        apply htel
        rw [List.dropLast_cons_of_ne_nil hrest]
        exact List.mem_cons_self _ _
      have hd : ln.dropLast ++ ['\n'] = ln :=
        dropLast_concat_getLast ln ((lineDone_iff ln).mp hdone)
      have hfne : rest.flatten ≠ [] := by
        apply flatten_ne_nil
        · intro l2 hl2
          exact (hprop l2 (List.mem_cons_of_mem _ hl2)).1
        · exact hrest
      have hsp : splitLine (ln ++ rest.flatten) = (ln, rest.flatten) := by
        conv in ln ++ rest.flatten => rw [← hd]
        rw [List.append_assoc, List.singleton_append, splitLine_of_done _ _ hpl.2, hd]
      have hne0 : ln ++ rest.flatten ≠ [] := by
        intro habs
        rcases List.append_eq_nil.mp habs with ⟨h1, _⟩
        exact hpl.1 h1
      rw [List.flatten_cons, toLines_of_ne _ hne0, hsp]
      show ln :: toLines rest.flatten = ln :: rest
      rw [ih ⟨fun l2 hl2 => hprop l2 (List.mem_cons_of_mem _ hl2), ?_⟩]
      intro l2 hl2
      apply htel
      rw [List.dropLast_cons_of_ne_nil hrest]
      exact List.mem_cons_of_mem _ hl2

end Staleness

namespace Staleness

theorem sublist_flatten {α : Type} {L1 L2 : List (List α)} (h : L1.Sublist L2) :
    L1.flatten.Sublist L2.flatten := by
  induction h with
  | slnil => exact List.Sublist.refl _
  | cons a h ih =>
    rw [List.flatten_cons]
    exact ih.trans (List.sublist_append_right _ _)
  | cons₂ a h ih =>
    rw [List.flatten_cons, List.flatten_cons]
    exact List.Sublist.append (List.Sublist.refl a) ih

theorem markEntry_sublist (thr : DT) (e : List (List Char)) :
    e.Sublist (markEntry thr e) := by
  rcases markEntry_cases thr e with hc | ⟨h, t, d, he, hd, hdone, hm⟩
  · rw [hc]
  · rw [hm, he]
    exact List.Sublist.cons₂ h (List.Sublist.cons _ (List.Sublist.refl t))

theorem map_mark_sublist (thr : DT) :
    ∀ G : List (List (List Char)), G.flatten.Sublist ((G.map (markEntry thr)).flatten) := by
  intro G
  induction G with
  | nil => exact List.Sublist.refl _
  | cons g rest ih =>
    rw [List.map_cons, List.flatten_cons, List.flatten_cons]
    exact List.Sublist.append (markEntry_sublist thr g) ih

theorem takeWhile_cons_inv {α : Type} (p : α → Bool) (l : List α) (h : α)
    (t : List α) (heq : l.takeWhile p = h :: t) :
    ∃ t0, l = h :: t0 ∧ p h = true := by
  cases l with
  | nil => exact absurd heq (by simp)
  | cons a rest =>
    rw [List.takeWhile_cons] at heq
    by_cases hp : p a = true
    · rw [if_pos hp] at heq
      injection heq with h1 _
      exact ⟨rest, by rw [h1], by rw [← h1]; exact hp⟩
    · rw [if_neg hp] at heq
      exact absurd heq (by simp)

theorem markEntry_head_keep (thr : DT) (g : List (List Char)) (h : List Char)
    (t : List (List Char)) (hg : g = h :: t) :
    ∃ t2, markEntry thr g = h :: t2 := by
  rcases markEntry_cases thr g with hc | ⟨h2, t2, d, he, _, _, hm⟩
  · exact ⟨t, by rw [hc, hg]⟩
  · rw [hg] at he
    injection he with hh ht
    exact ⟨staleLine d :: t2, by rw [hm, hh]⟩

theorem skippable_hash (h : List Char) (r : List Char) (hh : h = '#' :: r) :
    skippable h = false := by
  have hws : isWS '#' = false := by decide
  subst hh
  simp [skippable, hws]

theorem entry_head_hash (h : List Char) (hels : entryLineStart h = true) :
    ∃ r, h = '#' :: r := by
  have := startsWithL_drop _ _ hels
  exact ⟨(("### ").toList ++ h.drop 4).drop 1, by rw [this]; rfl⟩

theorem all_isWS_false_of_hash (X : List Char) (hmem : '#' ∈ X) :
    X.all isWS = false := by
  cases hall : X.all isWS with
  | false => rfl
  | true =>
    have := List.all_eq_true.mp hall '#' hmem
    exact absurd this (by decide)

end Staleness

namespace Staleness

theorem mem_of_mem_dropWhile {α : Type} (p : α → Bool) (l : List α) (x : α)
    (h : x ∈ l.dropWhile p) : x ∈ l :=
  (List.dropWhile_sublist _).subset h

theorem markEntry_allDone (thr : DT) (g : List (List Char))
    (hg : ∀ ln ∈ g, lineDone ln = true) :
    ∀ ln ∈ markEntry thr g, lineDone ln = true := by
  intro ln hln
  rcases markEntry_mem thr g ln hln with h1 | ⟨d, _, h2⟩
  · exact hg ln h1
  · rw [h2]
    exact lineDone_staleLine d

theorem markEntry_allProper (thr : DT) (g : List (List Char))
    (hg : ∀ ln ∈ g, ProperLn ln) :
    ∀ ln ∈ markEntry thr g, ProperLn ln := by
  intro ln hln
  rcases markEntry_mem thr g ln hln with h1 | ⟨d, hd, h2⟩
  · exact hg ln h1
  · rw [h2]
    exact properLn_staleLine d hd

theorem TEL_flatten_mark (thr : DT) :
    ∀ G : List (List (List Char)), (∀ g ∈ G, g ≠ []) → TEL G.flatten →
      TEL ((G.map (markEntry thr)).flatten) := by
  intro G
  induction G with
  | nil => intro _ h; exact h
  | cons g rest ih =>
    intro hne hT
    rw [List.map_cons, List.flatten_cons]
    rw [List.flatten_cons] at hT
    by_cases hre : rest = []
    · subst hre
      simp only [List.flatten_nil, List.append_nil, List.map_nil] at hT ⊢
      exact markEntry_TEL thr g hT
    · have hfne : rest.flatten ≠ [] :=
        flatten_ne_nil rest (fun l hl => hne l (List.mem_cons_of_mem _ hl)) hre
      obtain ⟨hdone, hTr⟩ := TEL_extract _ _ hT hfne
      exact TEL_append _ _ (markEntry_allDone thr g hdone)
        (ih (fun l hl => hne l (List.mem_cons_of_mem _ hl)) hTr)

theorem warnLine_startsWith (txt r : List Char) :
    startsWithL warnLitL (warnLine txt ++ r) = true := by
  have : warnLine txt ++ r = warnLitL ++
      ((" ~").toList ++ natDigits (estTokens txt) ++
        (" tokens (budget: 1200). Consider archiving stale pins. -->\n").toList ++ r) := by
    simp [warnLine, List.append_assoc]
  rw [this]
  exact startsWithL_self _ _

theorem shaped_ne_nil (g : List (List Char)) (h : EntryShaped g) : g ≠ [] := by
  obtain ⟨h0, t0, he, _, _⟩ := h
  rw [he]
  exact List.cons_ne_nil _ _

end Staleness

namespace Staleness

theorem staleness_core (thr : DT) (content : List Char)
    (preL restL secL afterL hdL enL sec2 W : List (List Char))
    (e : List (List Char)) (es es2 : List (List (List Char)))
    (hfp : findPinnedL (toLines content) = some (preL, restL))
    (hsec : secL = restL.takeWhile (fun l => !sectionLineStart l))
    (haft : afterL = restL.dropWhile (fun l => !sectionLineStart l))
    (hws : secL.flatten.all isWS = false)
    (hhd : hdL = secL.takeWhile (fun l => !entryLineStart l))
    (hen : enL = secL.dropWhile (fun l => !entryLineStart l))
    (hgr : groupEntriesL enL = e :: es)
    (hes2 : es2 = (e :: es).map (markEntry thr))
    (hsec2 : sec2 = hdL ++ es2.flatten)
    (hW : W = sec2 ∨ W = warnLine sec2.flatten :: sec2)
    (hbud2 : budgeted W = W) :
    content.Sublist (preL.flatten ++ W.flatten ++ afterL.flatten) ∧
    check_pinned_staleness thr (preL.flatten ++ W.flatten ++ afterL.flatten) =
      preL.flatten ++ W.flatten ++ afterL.flatten := by
  have hLc : toLines content = preL ++ restL := findPinnedL_append _ _ _ hfp
  have hrs : secL ++ afterL = restL := by
    rw [hsec, haft]; exact List.takeWhile_append_dropWhile _ _
  have hhe : hdL ++ enL = secL := by
    rw [hhd, hen]; exact List.takeWhile_append_dropWhile _ _
  have henf : (e :: es).flatten = enL := by
    have h0 := groupEntriesL_flatten enL
    rw [hgr] at h0
    exact h0
  have hshape : ∀ g ∈ e :: es, EntryShaped g := by
    have hcond : enL = [] ∨ ∃ h t, enL = h :: t ∧ entryLineStart h = true := by
      rcases dropWhile_head_false (fun l => !entryLineStart l) secL with h0 | ⟨x, t, hxt, hx⟩
      · left; rw [hen]; exact h0
      · right; exact ⟨x, t, by rw [hen]; exact hxt, by simpa using hx⟩
    have h0 := groupEntriesL_shape_aux enL.length enL rfl hcond
    rw [hgr] at h0
    exact h0
  have hg_ne : ∀ g ∈ e :: es, g ≠ [] := fun g hg => shaped_ne_nil g (hshape g hg)
  obtain ⟨h0, t0, he0, hels0, htl0⟩ := hshape e (List.mem_cons_self _ _)
  obtain ⟨t0b, hmk0⟩ := markEntry_head_keep thr e h0 t0 he0
  obtain ⟨r0, hr0⟩ := entry_head_hash h0 hels0
  have hes2cons : es2 = markEntry thr e :: es.map (markEntry thr) := by
    rw [hes2, List.map_cons]
  have hes2f : es2.flatten = h0 :: (t0b ++ (es.map (markEntry thr)).flatten) := by
    rw [hes2cons, List.flatten_cons, hmk0, List.cons_append]
  have hsec_ne : secL ≠ [] := by
    intro h0s
    rw [h0s] at hws
    simp at hws
  have hrest_ne : restL ≠ [] := by
    intro h0r
    apply hsec_ne
    rw [hsec, h0r, List.takeWhile_nil]
  have hmem_sec_rest : ∀ ln ∈ secL, ln ∈ restL := by
    intro ln hln; rw [hsec] at hln; exact mem_of_mem_takeWhile _ _ _ hln
  have hmem_hd_sec : ∀ ln ∈ hdL, ln ∈ secL := by
    intro ln hln; rw [hhd] at hln; exact mem_of_mem_takeWhile _ _ _ hln
  have hmem_en_sec : ∀ ln ∈ enL, ln ∈ secL := by
    intro ln hln; rw [hen] at hln; exact mem_of_mem_dropWhile _ _ _ hln
  have hmem_rest_L : ∀ ln ∈ restL, ln ∈ toLines content := by
    intro ln hln; rw [hLc]; exact List.mem_append_right _ hln
  have hmem_pre_L : ∀ ln ∈ preL, ln ∈ toLines content := by
    intro ln hln; rw [hLc]; exact List.mem_append_left _ hln
  have hsls_sec : ∀ ln ∈ secL, sectionLineStart ln = false := by
    intro ln hln
    rw [hsec] at hln
    have h1 := List.mem_takeWhile_imp hln
    simpa using h1
  have hels_hd : ∀ ln ∈ hdL, entryLineStart ln = false := by
    intro ln hln
    rw [hhd] at hln
    have h1 := List.mem_takeWhile_imp hln
    simpa using h1
  have hmem_es2f : ∀ ln ∈ es2.flatten,
      ln ∈ enL ∨ ∃ d, dateShape d = true ∧ ln = staleLine d := by
    intro ln hln
    rcases List.mem_flatten.mp hln with ⟨g2, hg2, hlng⟩
    rw [hes2] at hg2
    rcases List.mem_map.mp hg2 with ⟨g, hg, hgg⟩
    rw [← hgg] at hlng
    rcases markEntry_mem thr g ln hlng with h1 | h2
    · left
      rw [← henf]
      exact List.mem_flatten.mpr ⟨g, hg, h1⟩
    · right; exact h2
  have hmem_sec2 : ∀ ln ∈ sec2,
      ln ∈ secL ∨ ∃ d, dateShape d = true ∧ ln = staleLine d := by
    intro ln hln
    rw [hsec2] at hln
    rcases List.mem_append.mp hln with h1 | h2
    · exact Or.inl (hmem_hd_sec ln h1)
    · rcases hmem_es2f ln h2 with h3 | h3
      · exact Or.inl (hmem_en_sec ln h3)
      · exact Or.inr h3
  have hmemW : ∀ ln ∈ W, ln ∈ secL ∨ (∃ d, dateShape d = true ∧ ln = staleLine d) ∨
      ∃ txt, ln = warnLine txt := by
    intro ln hln
    rcases hW with hWe | hWw
    · rw [hWe] at hln
      rcases hmem_sec2 ln hln with h1 | h2
      · exact Or.inl h1
      · exact Or.inr (Or.inl h2)
    · rw [hWw] at hln
      rcases List.mem_cons.mp hln with h1 | h1
      · exact Or.inr (Or.inr ⟨sec2.flatten, h1⟩)
      · rcases hmem_sec2 ln h1 with h2 | h2
        · exact Or.inl h2
        · exact Or.inr (Or.inl h2)
  have hslsW : ∀ ln ∈ W, sectionLineStart ln = false := by
    intro ln hln
    rcases hmemW ln hln with h1 | ⟨d, _, h2⟩ | ⟨txt, h2⟩
    · exact hsls_sec ln h1
    · rw [h2]; exact sectionLineStart_staleLine d
    · rw [h2]; exact sectionLineStart_warnLine txt
  have hproper_sec : ∀ ln ∈ secL, ProperLn ln := fun ln h =>
    toLines_proper content ln (hmem_rest_L ln (hmem_sec_rest ln h))
  have hproperW : ∀ ln ∈ W, ProperLn ln := by
    intro ln hln
    rcases hmemW ln hln with h1 | ⟨d, hd, h2⟩ | ⟨txt, h2⟩
    · exact hproper_sec ln h1
    · rw [h2]; exact properLn_staleLine d hd
    · rw [h2]; exact properLn_warnLine txt
  have hheadW : ∃ h t, W = h :: t ∧ skippable h = false := by
    rcases hW with hWe | hWw
    · cases hhdc : hdL with
      | nil =>
        refine ⟨h0, t0b ++ (es.map (markEntry thr)).flatten, ?_,
          skippable_hash h0 r0 hr0⟩
        rw [hWe, hsec2, hhdc, List.nil_append, hes2f]
      | cons x xs =>
        obtain ⟨t1, ht1, _⟩ := takeWhile_cons_inv _ secL x xs (by rw [← hhd, hhdc])
        obtain ⟨t2, ht2, _⟩ := takeWhile_cons_inv _ restL x t1 (by rw [← hsec, ht1])
        rcases findPinnedL_post _ _ _ hfp with h3 | ⟨h4, t4, hht4, hsk4⟩
        · exact absurd h3 hrest_ne
        · rw [ht2] at hht4
          injection hht4 with hx4 _
          refine ⟨x, xs ++ es2.flatten, ?_, by rw [hx4]; exact hsk4⟩
          rw [hWe, hsec2, hhdc, List.cons_append]
    · exact ⟨warnLine sec2.flatten, sec2, hWw, skippable_warnLine _⟩
  have hTELL : TEL (toLines content) := toLines_TEL content
  have hTELpr : TEL (preL ++ restL) := by rw [← hLc]; exact hTELL
  have hTEL2 : TEL (preL ++ (W ++ afterL)) := by
    by_cases hae : afterL = []
    · have hrs2 : restL = secL := by rw [← hrs, hae, List.append_nil]
      have hTELps : TEL (preL ++ secL) := by rw [← hrs2]; exact hTELpr
      obtain ⟨hdonePre, hTELsec⟩ := TEL_extract _ _ hTELps hsec_ne
      have henL_ne : enL ≠ [] := by
        rw [← henf]
        exact flatten_ne_nil _ hg_ne (List.cons_ne_nil _ _)
      have hTELhe : TEL (hdL ++ enL) := by rw [hhe]; exact hTELsec
      obtain ⟨hdoneHd, hTELen⟩ := TEL_extract _ _ hTELhe henL_ne
      have hTELes2 : TEL es2.flatten := by
        rw [hes2]
        apply TEL_flatten_mark thr _ hg_ne
        rw [henf]
        exact hTELen
      have hTELsec2 : TEL sec2 := by
        rw [hsec2]; exact TEL_append _ _ hdoneHd hTELes2
      have hTELW : TEL W := by
        rcases hW with hWe | hWw
        · rw [hWe]; exact hTELsec2
        · rw [hWw]
          have h1 : TEL ([warnLine sec2.flatten] ++ sec2) := by
            apply TEL_append
            · intro ln hln
              rw [List.mem_singleton.mp hln]
              exact lineDone_warnLine _
            · exact hTELsec2
          simpa using h1
      rw [hae, List.append_nil]
      exact TEL_append _ _ hdonePre hTELW
    · have hTELpsa : TEL (preL ++ (secL ++ afterL)) := by rw [hrs]; exact hTELpr
      have hsa_ne : secL ++ afterL ≠ [] := by
        intro h0z
        rcases List.append_eq_nil.mp h0z with ⟨_, h2⟩
        exact hae h2
      obtain ⟨hdonePre, hTELsa⟩ := TEL_extract _ _ hTELpsa hsa_ne
      obtain ⟨hdoneSec, hTELaf⟩ := TEL_extract _ _ hTELsa hae
      have hdoneW : ∀ ln ∈ W, lineDone ln = true := by
        intro ln hln
        rcases hmemW ln hln with h1 | ⟨d, _, h2⟩ | ⟨txt, h2⟩
        · exact hdoneSec ln h1
        · rw [h2]; exact lineDone_staleLine d
        · rw [h2]; exact lineDone_warnLine txt
      exact TEL_append _ _ hdonePre (TEL_append _ _ hdoneW hTELaf)
  have hproperAll : ProperL (preL ++ (W ++ afterL)) := by
    constructor
    · intro ln hln
      rcases List.mem_append.mp hln with h1 | h2
      · exact toLines_proper content ln (hmem_pre_L ln h1)
      · rcases List.mem_append.mp h2 with h3 | h4
        · exact hproperW ln h3
        · refine toLines_proper content ln (hmem_rest_L ln ?_)
          rw [haft] at h4
          exact mem_of_mem_dropWhile _ _ _ h4
    · exact hTEL2
  have houtf : preL.flatten ++ W.flatten ++ afterL.flatten =
      (preL ++ (W ++ afterL)).flatten := by
    rw [List.flatten_append, List.flatten_append, List.append_assoc]
  have hsubsec : secL.Sublist W := by
    have h1 : enL.Sublist es2.flatten := by
      rw [← henf, hes2]
      exact map_mark_sublist thr (e :: es)
    have h3 : secL.Sublist sec2 := by
      rw [← hhe, hsec2]
      exact List.Sublist.append (List.Sublist.refl hdL) h1
    rcases hW with hWe | hWw
    · rw [hWe]; exact h3
    · rw [hWw]
      exact h3.trans (List.sublist_cons_self _ _)
  have hsub : content.Sublist (preL.flatten ++ W.flatten ++ afterL.flatten) := by
    have hlines : (preL ++ (secL ++ afterL)).Sublist (preL ++ (W ++ afterL)) :=
      List.Sublist.append (List.Sublist.refl preL)
        (List.Sublist.append hsubsec (List.Sublist.refl afterL))
    have h2 := sublist_flatten hlines
    rw [houtf]
    have hc0 : content = (preL ++ (secL ++ afterL)).flatten := by
      rw [hrs, ← hLc, join_toLines]
    rw [hc0]
    exact h2
  refine ⟨hsub, ?_⟩
  have htl2 : toLines (preL.flatten ++ W.flatten ++ afterL.flatten) =
      preL ++ (W ++ afterL) := by
    rw [houtf]
    exact toLines_flatten _ hproperAll
  have hfpL : findPinnedL (preL ++ restL) = some (preL, restL) := by
    rw [← hLc]; exact hfp
  have hbrest : ∃ h t, restL = h :: t ∧ skippable h = false := by
    rcases findPinnedL_post _ _ _ hfp with h3 | h4
    · exact absurd h3 hrest_ne
    · exact h4
  have hbW : ∃ h t, W ++ afterL = h :: t ∧ skippable h = false := by
    obtain ⟨h, t, hht, hsk⟩ := hheadW
    exact ⟨h, t ++ afterL, by rw [hht, List.cons_append], hsk⟩
  have hfp2 : findPinnedL (preL ++ (W ++ afterL)) = some (preL, W ++ afterL) :=
    findPinnedL_stable preL restL (W ++ afterL) hfpL hbrest hbW
  have hafter_head : afterL = [] ∨
      ∃ h t, afterL = h :: t ∧ (fun l => !sectionLineStart l) h = false := by
    rcases dropWhile_head_false (fun l => !sectionLineStart l) restL with h0z | ⟨x, t, hxt, hx⟩
    · left; rw [haft]; exact h0z
    · right; exact ⟨x, t, by rw [haft]; exact hxt, hx⟩
  have hWsls : ∀ ln ∈ W, (fun l => !sectionLineStart l) ln = true := by
    intro ln hln; simp [hslsW ln hln]
  have hsw2 : (W ++ afterL).takeWhile (fun l => !sectionLineStart l) = W := by
    rw [takeWhile_append_all _ W afterL hWsls]
    rcases hafter_head with h0z | ⟨x, t, hxt, hx⟩
    · rw [h0z, List.takeWhile_nil, List.append_nil]
    · rw [hxt, takeWhile_nil_of_head (fun l => !sectionLineStart l) x t hx,
        List.append_nil]
  have hsd2 : (W ++ afterL).dropWhile (fun l => !sectionLineStart l) = afterL := by
    rw [dropWhile_append_all _ W afterL hWsls]
    rcases hafter_head with h0z | ⟨x, t, hxt, hx⟩
    · rw [h0z, List.dropWhile_nil]
    · rw [hxt]
      exact dropWhile_id_of_head (fun l => !sectionLineStart l) x t hx
  have hws2 : W.flatten.all isWS = false := by
    apply all_isWS_false_of_hash
    have hh0W : h0 ∈ W := by
      have h1 : h0 ∈ sec2 := by
        rw [hsec2]
        refine List.mem_append_right _ ?_
        rw [hes2f]
        exact List.mem_cons_self _ _
      rcases hW with hWe | hWw
      · rw [hWe]; exact h1
      · rw [hWw]; exact List.mem_cons_of_mem _ h1
    have h2 : '#' ∈ h0 := by rw [hr0]; exact List.mem_cons_self _ _
    exact List.mem_flatten.mpr ⟨h0, hh0W, h2⟩
  have htails_els : ∀ ln ∈ hdL, (fun l => !entryLineStart l) ln = true := by
    intro ln hln; simp [hels_hd ln hln]
  have hsec2drop : sec2.dropWhile (fun l => !entryLineStart l) = es2.flatten := by
    rw [hsec2, dropWhile_append_all _ hdL _ htails_els, hes2f]
    exact dropWhile_id_of_head (fun l => !entryLineStart l) _ _ (by simp [hels0])
  have hdrop2 : W.dropWhile (fun l => !entryLineStart l) = es2.flatten := by
    rcases hW with hWe | hWw
    · rw [hWe]; exact hsec2drop
    · rw [hWw, List.dropWhile_cons,
        if_pos (by simp [entryLineStart_warnLine] : (!entryLineStart (warnLine sec2.flatten)) = true)]
      exact hsec2drop
  have htake2 : W.takeWhile (fun l => !entryLineStart l) ++ es2.flatten = W := by
    rw [← hdrop2]
    exact List.takeWhile_append_dropWhile _ _
  have hgr2 : groupEntriesL (W.dropWhile (fun l => !entryLineStart l)) = es2 := by
    rw [hdrop2]
    have hshape2 : ∀ g2 ∈ es2, EntryShaped g2 := by
      intro g2 hg2
      rw [hes2] at hg2
      rcases List.mem_map.mp hg2 with ⟨g, hg, hgg⟩
      rw [← hgg]
      exact markEntry_shaped thr g (hshape g hg)
    exact groupEntriesL_exact es2 hshape2
  have hmapid : es2.map (markEntry thr) = es2 := by
    rw [hes2, List.map_map]
    exact List.map_congr_left (fun g _ => markEntry_idem thr g)
  have hms2 : markedSec thr W = W := by
    unfold markedSec
    rw [hgr2, hmapid, htake2]
  have hredO : check_pinned_staleness thr (preL.flatten ++ W.flatten ++ afterL.flatten) =
      (if ((W ++ afterL).takeWhile (fun l => !sectionLineStart l)).flatten.all isWS then
        preL.flatten ++ W.flatten ++ afterL.flatten
       else
        match groupEntriesL (((W ++ afterL).takeWhile
            (fun l => !sectionLineStart l)).dropWhile (fun l => !entryLineStart l)) with
        | [] => preL.flatten ++ W.flatten ++ afterL.flatten
        | _ :: _ =>
          preL.flatten ++
            (budgeted (markedSec thr
              ((W ++ afterL).takeWhile (fun l => !sectionLineStart l)))).flatten ++
            ((W ++ afterL).dropWhile (fun l => !sectionLineStart l)).flatten) := by
    unfold check_pinned_staleness
    rw [htl2, hfp2]
  rw [hredO, hsw2, hsd2, hgr2, hes2cons]
  rw [if_neg (by intro hc; rw [hws2] at hc; exact Bool.noConfusion hc)]
  show preL.flatten ++ (budgeted (markedSec thr W)).flatten ++ afterL.flatten =
    preL.flatten ++ W.flatten ++ afterL.flatten
  rw [hms2, hbud2]

end Staleness

namespace Staleness

theorem staleness_branch (thr : DT) (content : List Char)
    (preL restL : List (List Char)) (e : List (List Char))
    (es : List (List (List Char)))
    (hfp : findPinnedL (toLines content) = some (preL, restL))
    (hws : (restL.takeWhile (fun l => !sectionLineStart l)).flatten.all isWS = false)
    (hgr : groupEntriesL ((restL.takeWhile (fun l => !sectionLineStart l)).dropWhile
        (fun l => !entryLineStart l)) = e :: es) :
    content.Sublist
      (preL.flatten ++
        (budgeted (markedSec thr
          (restL.takeWhile (fun l => !sectionLineStart l)))).flatten ++
        (restL.dropWhile (fun l => !sectionLineStart l)).flatten) ∧
    check_pinned_staleness thr
      (preL.flatten ++
        (budgeted (markedSec thr
          (restL.takeWhile (fun l => !sectionLineStart l)))).flatten ++
        (restL.dropWhile (fun l => !sectionLineStart l)).flatten) =
      preL.flatten ++
        (budgeted (markedSec thr
          (restL.takeWhile (fun l => !sectionLineStart l)))).flatten ++
        (restL.dropWhile (fun l => !sectionLineStart l)).flatten := by
  have hms : markedSec thr (restL.takeWhile (fun l => !sectionLineStart l)) =
      (restL.takeWhile (fun l => !sectionLineStart l)).takeWhile
        (fun l => !entryLineStart l) ++ ((e :: es).map (markEntry thr)).flatten := by
    unfold markedSec
    rw [hgr]
  rw [hms]
  by_cases hbudg : (1200 < estTokens
      ((restL.takeWhile (fun l => !sectionLineStart l)).takeWhile
        (fun l => !entryLineStart l) ++ ((e :: es).map (markEntry thr)).flatten).flatten &&
      !containsSub warnLitL
        ((restL.takeWhile (fun l => !sectionLineStart l)).takeWhile
          (fun l => !entryLineStart l) ++
          ((e :: es).map (markEntry thr)).flatten).flatten) = true
  · have hBw : budgeted
        ((restL.takeWhile (fun l => !sectionLineStart l)).takeWhile
          (fun l => !entryLineStart l) ++ ((e :: es).map (markEntry thr)).flatten) =
        warnLine ((restL.takeWhile (fun l => !sectionLineStart l)).takeWhile
          (fun l => !entryLineStart l) ++
          ((e :: es).map (markEntry thr)).flatten).flatten ::
        ((restL.takeWhile (fun l => !sectionLineStart l)).takeWhile
          (fun l => !entryLineStart l) ++ ((e :: es).map (markEntry thr)).flatten) := by
      unfold budgeted
      rw [if_pos hbudg]
    rw [hBw]
    refine staleness_core thr content preL restL _ _ _ _ _ _ e es _ hfp rfl rfl hws rfl
      rfl hgr rfl rfl (Or.inr rfl) ?_
    have hc : containsSub warnLitL
        ((warnLine ((restL.takeWhile (fun l => !sectionLineStart l)).takeWhile
            (fun l => !entryLineStart l) ++
            ((e :: es).map (markEntry thr)).flatten).flatten ::
          ((restL.takeWhile (fun l => !sectionLineStart l)).takeWhile
            (fun l => !entryLineStart l) ++
            ((e :: es).map (markEntry thr)).flatten)).flatten) = true := by
      rw [List.flatten_cons]
      exact containsSub_of_startsWith _ _ (warnLine_startsWith _ _)
    unfold budgeted
    rw [if_neg (by rw [hc]; simp)]
  · have hBe : budgeted
        ((restL.takeWhile (fun l => !sectionLineStart l)).takeWhile
          (fun l => !entryLineStart l) ++ ((e :: es).map (markEntry thr)).flatten) =
        (restL.takeWhile (fun l => !sectionLineStart l)).takeWhile
          (fun l => !entryLineStart l) ++ ((e :: es).map (markEntry thr)).flatten := by
      unfold budgeted
      rw [if_neg hbudg]
    rw [hBe]
    refine staleness_core thr content preL restL _ _ _ _ _ _ e es _ hfp rfl rfl hws rfl
      rfl hgr rfl rfl (Or.inl rfl) hBe

end Staleness

/-- C9: `check_pinned_staleness` only inserts HTML-comment lines — a
stale marker under the heading of each newly detected stale entry and at
most one budget warning at the top of the pinned section — and never
deletes or alters existing text: the original content is a subsequence of
the rewritten content. At a fixed threshold datetime it is idempotent: a
second run on the rewritten content performs no further modification,
because already-marked entries are skipped and an existing budget warning
suppresses re-insertion. -/
theorem check_pinned_staleness_insert_only_idempotent
    (thr : Staleness.DT) (content : List Char) :
    content.Sublist (Staleness.check_pinned_staleness thr content) ∧
    Staleness.check_pinned_staleness thr
        (Staleness.check_pinned_staleness thr content) =
      Staleness.check_pinned_staleness thr content := by
  cases hfp : Staleness.findPinnedL (Staleness.toLines content) with
  | none =>
    have h1 : Staleness.check_pinned_staleness thr content = content := by
      unfold Staleness.check_pinned_staleness
      rw [hfp]
    rw [h1]
    exact ⟨List.Sublist.refl _, by rw [h1]⟩
  | some pr =>
    obtain ⟨preL, restL⟩ := pr
    by_cases hws : (restL.takeWhile
        (fun l => !Staleness.sectionLineStart l)).flatten.all Staleness.isWS = true
    · have h1 : Staleness.check_pinned_staleness thr content = content := by
        unfold Staleness.check_pinned_staleness
        rw [hfp]
        show (if (restL.takeWhile
            (fun l => !Staleness.sectionLineStart l)).flatten.all Staleness.isWS
          then content else _) = content
        rw [if_pos hws]
      rw [h1]
      exact ⟨List.Sublist.refl _, by rw [h1]⟩
    · have hws2 : (restL.takeWhile
          (fun l => !Staleness.sectionLineStart l)).flatten.all Staleness.isWS = false :=
        Bool.not_eq_true _ ▸ (by simpa using hws)
      cases hgr : Staleness.groupEntriesL ((restL.takeWhile
          (fun l => !Staleness.sectionLineStart l)).dropWhile
          (fun l => !Staleness.entryLineStart l)) with
      | nil =>
        have h1 : Staleness.check_pinned_staleness thr content = content := by
          unfold Staleness.check_pinned_staleness
          rw [hfp]
          show (if (restL.takeWhile
              (fun l => !Staleness.sectionLineStart l)).flatten.all Staleness.isWS
            then content else _) = content
          rw [if_neg (by rw [hws2]; exact Bool.false_ne_true), hgr]
        rw [h1]
        exact ⟨List.Sublist.refl _, by rw [h1]⟩
      | cons e es =>
        have hout : Staleness.check_pinned_staleness thr content =
            preL.flatten ++
              (Staleness.budgeted (Staleness.markedSec thr
                (restL.takeWhile (fun l => !Staleness.sectionLineStart l)))).flatten ++
              (restL.dropWhile (fun l => !Staleness.sectionLineStart l)).flatten := by
          unfold Staleness.check_pinned_staleness
          rw [hfp]
          show (if (restL.takeWhile
              (fun l => !Staleness.sectionLineStart l)).flatten.all Staleness.isWS
            then content else _) = _
          rw [if_neg (by rw [hws2]; exact Bool.false_ne_true), hgr]
        rw [hout]
        exact Staleness.staleness_branch thr content preL restL e es hfp hws2 hgr

/-! ## skills/pact-memory/scripts/models.py

The memory dataclasses are embedded with Python values restricted to the
types that can inhabit the declared dataclass fields plus the raw shapes
`from_dict` coerces (strings, `None`, lists, dicts, `datetime`): a value
of another runtime type stored into a typed field is outside the modelled
domain, and the fallible parsers return `none` there (as they do for the
`AttributeError` of `.get` on a non-dict). `json.loads` is a standard
library dependency and is passed in as an arbitrary decoder `jl`; naive
datetimes are modelled (the dataclass emits naive `isoformat` output, and
an offset suffix makes the modelled `fromisoformat` reject). -/

namespace Models

/-- A naive `datetime.datetime`. -/
structure DateTime where
  year : ℕ
  month : ℕ
  day : ℕ
  hour : ℕ
  minute : ℕ
  second : ℕ
  micro : ℕ

/-- Python values flowing through the memory dict round trip. -/
inductive PyVal where
  | none
  | str (s : String)
  | lst (xs : List PyVal)
  | dict (kvs : List (String × PyVal))
  | dt (d : DateTime)

def pad2 (n : ℕ) : List Char := [Staleness.digitChar (n / 10 % 10), Staleness.digitChar (n % 10)]

def pad4 (n : ℕ) : List Char :=
  [Staleness.digitChar (n / 1000 % 10), Staleness.digitChar (n / 100 % 10),
   Staleness.digitChar (n / 10 % 10), Staleness.digitChar (n % 10)]

def pad6 (n : ℕ) : List Char :=
  [Staleness.digitChar (n / 100000 % 10), Staleness.digitChar (n / 10000 % 10),
   Staleness.digitChar (n / 1000 % 10), Staleness.digitChar (n / 100 % 10),
   Staleness.digitChar (n / 10 % 10), Staleness.digitChar (n % 10)]

/-- `datetime.isoformat(sep=sep)`: microseconds are printed exactly when
nonzero. -/
def isoSepL (sep : Char) (d : DateTime) : List Char :=
  pad4 d.year ++ '-' :: (pad2 d.month ++ '-' :: (pad2 d.day ++ sep ::
    (pad2 d.hour ++ ':' :: (pad2 d.minute ++ ':' :: (pad2 d.second ++
      (if d.micro = 0 then [] else '.' :: pad6 d.micro))))))

def isoformatL (d : DateTime) : List Char := isoSepL 'T' d

def isoformat (d : DateTime) : String := String.mk (isoformatL d)

mutual
/-- `str(x)` on the modelled values (`repr` quoting for nested values). -/
def pyStrV : PyVal → String
  | .none => "None"
  | .str s => s
  | .dt d => String.mk (isoSepL ' ' d)
  | .lst xs => "[" ++ pyReprSeq xs ++ "]"
  | .dict kvs => "\x7b" ++ pyReprKV kvs ++ "\x7d"
def pyReprV : PyVal → String
  | .none => "None"
  | .str s => "\x27" ++ s ++ "\x27"
  | .dt d => "datetime.datetime(" ++ String.mk (isoSepL ' ' d) ++ ")"
  | .lst xs => "[" ++ pyReprSeq xs ++ "]"
  | .dict kvs => "\x7b" ++ pyReprKV kvs ++ "\x7d"
def pyReprSeq : List PyVal → String
  | [] => ""
  | [x] => pyReprV x
  | x :: y :: rest => pyReprV x ++ ", " ++ pyReprSeq (y :: rest)
def pyReprKV : List (String × PyVal) → String
  | [] => ""
  | [kv] => "\x27" ++ kv.1 ++ "\x27: " ++ pyReprV kv.2
  | kv :: kv2 :: rest => "\x27" ++ kv.1 ++ "\x27: " ++ pyReprV kv.2 ++ ", " ++ pyReprKV (kv2 :: rest)
end

/-- Python truthiness on the modelled values. -/
def pyTruthyV : PyVal → Bool
  | .none => false
  | .str s => s ≠ ""
  | .lst xs => !xs.isEmpty
  | .dict kvs => !kvs.isEmpty
  | .dt _ => true

def isNoneV : PyVal → Bool
  | .none => true
  | _ => false

/-- `data.get(k)` (an absent key and a stored `None` both give `None`). -/
def getV (data : List (String × PyVal)) (k : String) : PyVal :=
  (List.lookup k data).getD .none

/-- `data.get(k, dflt)`. -/
def getD (data : List (String × PyVal)) (k : String) (dflt : PyVal) : PyVal :=
  (List.lookup k data).getD dflt

/-- `x or []`. -/
def orEmpty (v : PyVal) : PyVal := if pyTruthyV v then v else .lst []

/-- Iteration: lists yield items, dicts their keys, strings their
characters; `None` and datetimes raise `TypeError`. -/
def pyIterV : PyVal → Option (List PyVal)
  | .lst xs => some xs
  | .dict kvs => some (kvs.map (fun kv => .str kv.1))
  | .str s => some (s.toList.map (fun c => .str (String.mk [c])))
  | _ => Option.none

def asStr : PyVal → Option String
  | .str s => some s
  | _ => Option.none

def asOptStr : PyVal → Option (Option String)
  | .none => some Option.none
  | .str s => some (some s)
  | _ => Option.none

def asStrList (xs : List PyVal) : Option (List String) := xs.mapM asStr

def asOptStrList : PyVal → Option (Option (List String))
  | .none => some Option.none
  | .lst xs => (asStrList xs).map some
  | _ => Option.none

structure TaskItem where
  task : String
  status : String
  priority : Option String

/-- `TaskItem.from_dict` (`None` when a field value violates the declared
dataclass types). -/
def TaskItem.from_dict (v : PyVal) : Option TaskItem :=
  match v with
  | .str s => some ⟨s, "pending", Option.none⟩
  | .dict kvs =>
    (asStr (getD kvs "task" (.str ""))).bind fun task =>
    (asStr (getD kvs "status" (.str "pending"))).bind fun status =>
    (asOptStr (getV kvs "priority")).bind fun priority =>
    some ⟨task, status, priority⟩
  | _ => Option.none

def TaskItem.to_dict (t : TaskItem) : List (String × PyVal) :=
  [("task", .str t.task), ("status", .str t.status)] ++
    (match t.priority with
     | some p => if p ≠ "" then [("priority", PyVal.str p)] else []
     | Option.none => [])

structure Decision where
  decision : String
  rationale : Option String
  alternatives : Option (List String)

def Decision.from_dict (v : PyVal) : Option Decision :=
  match v with
  | .str s => some ⟨s, Option.none, Option.none⟩
  | .dict kvs =>
    (asStr (getD kvs "decision" (.str ""))).bind fun decision =>
    (asOptStr (getV kvs "rationale")).bind fun rationale =>
    (asOptStrList (getV kvs "alternatives")).bind fun alternatives =>
    some ⟨decision, rationale, alternatives⟩
  | _ => Option.none

def Decision.to_dict (d : Decision) : List (String × PyVal) :=
  [("decision", .str d.decision)] ++
    (match d.rationale with
     | some r => if r ≠ "" then [("rationale", PyVal.str r)] else []
     | Option.none => []) ++
    (match d.alternatives with
     | some alts => if !alts.isEmpty then [("alternatives", PyVal.lst (alts.map PyVal.str))] else []
     | Option.none => [])

structure Entity where
  name : String
  type : Option String
  notes : Option String

def Entity.from_dict (v : PyVal) : Option Entity :=
  match v with
  | .str s => some ⟨s, Option.none, Option.none⟩
  | .dict kvs =>
    (asStr (getD kvs "name" (.str ""))).bind fun name =>
    (asOptStr (getV kvs "type")).bind fun ty =>
    (asOptStr (getV kvs "notes")).bind fun notes =>
    some ⟨name, ty, notes⟩
  | _ => Option.none

def Entity.to_dict (e : Entity) : List (String × PyVal) :=
  [("name", .str e.name)] ++
    (match e.type with
     | some ty => if ty ≠ "" then [("type", PyVal.str ty)] else []
     | Option.none => []) ++
    (match e.notes with
     | some n => if n ≠ "" then [("notes", PyVal.str n)] else []
     | Option.none => [])

/-- `_parse_string_list`. -/
def _parse_string_list (jl : String → Option PyVal) (raw : PyVal) : List String :=
  if pyTruthyV raw = false then []
  else
    match raw with
    | .lst xs => xs.filterMap (fun item =>
        if isNoneV item then Option.none else some (pyStrV item))
    | .str s =>
      match jl s with
      | some (.lst xs) => xs.filterMap (fun item =>
          if isNoneV item then Option.none else some (pyStrV item))
      | some _ => [s]
      | Option.none => if s ≠ "" then [s] else []
    | _ => []

/-- The shared `raw -> list` coercion of `from_dict` for the three nested
lists: a string is JSON-decoded, a non-list decode or a decode error wraps
the string into a single seed dict under `key`. -/
def coerceWrap (jl : String → Option PyVal) (key : String) (raw : PyVal) : PyVal :=
  match raw with
  | .str s =>
    match jl s with
    | some (.lst xs) => .lst xs
    | some _ => .lst [.dict [(key, .str s)]]
    | Option.none => if s ≠ "" then .lst [.dict [(key, .str s)]] else .lst []
  | v => v

/-- Iterate the coerced value, drop `None` items, and parse each. -/
def parsedItems {α : Type} (jl : String → Option PyVal) (key : String)
    (p : PyVal → Option α) (v : PyVal) : Option (List α) :=
  match pyIterV (coerceWrap jl key (orEmpty v)) with
  | Option.none => Option.none
  | some items => (items.filter (fun t => !isNoneV t)).mapM p

/-- `files` parsing: kept as-is when already a list, JSON-decoded when a
string (with the decode result stored without a list check). -/
def filesOf (jl : String → Option PyVal) (v : PyVal) : Option (List String) :=
  match orEmpty v with
  | .str s =>
    match jl s with
    | some (.lst xs) => asStrList xs
    | some _ => Option.none
    | Option.none => some (if s ≠ "" then [s] else [])
  | .lst xs => asStrList xs
  | _ => Option.none

def replaceZ (s : String) : String :=
  String.mk ((s.toList.map (fun c => if c = 'Z' then ("+00:00").toList else [c])).flatten)

def twoDigit (a b : Char) : Option ℕ :=
  if a.isDigit && b.isDigit then some (Staleness.digitVal a * 10 + Staleness.digitVal b)
  else Option.none

/-- The time part `HH:MM:SS[.ffffff]` accepted by
`datetime.fromisoformat` on the strings this module emits. -/
def parseTimeL : List Char → Option (ℕ × ℕ × ℕ × ℕ)
  | [h1, h2, c1, m1, m2, c2, s1, s2] =>
    if c1 = ':' ∧ c2 = ':' then
      (twoDigit h1 h2).bind fun hh =>
      (twoDigit m1 m2).bind fun mi =>
      (twoDigit s1 s2).bind fun ss =>
      if hh < 24 ∧ mi < 60 ∧ ss < 60 then some (hh, mi, ss, 0) else Option.none
    else Option.none
  | [h1, h2, c1, m1, m2, c2, s1, s2, dot, u1, u2, u3, u4, u5, u6] =>
    if c1 = ':' ∧ c2 = ':' ∧ dot = '.' ∧
        (u1.isDigit ∧ u2.isDigit ∧ u3.isDigit ∧ u4.isDigit ∧ u5.isDigit ∧ u6.isDigit) then
      (twoDigit h1 h2).bind fun hh =>
      (twoDigit m1 m2).bind fun mi =>
      (twoDigit s1 s2).bind fun ss =>
      if hh < 24 ∧ mi < 60 ∧ ss < 60 then
        some (hh, mi, ss,
          Staleness.digitVal u1 * 100000 + Staleness.digitVal u2 * 10000 +
          Staleness.digitVal u3 * 1000 + Staleness.digitVal u4 * 100 +
          Staleness.digitVal u5 * 10 + Staleness.digitVal u6)
      else Option.none
    else Option.none
  | _ => Option.none

/-- The date/time assembly step of `fromisoformat`. -/
def fromisoDT (ymd0 : Option (ℕ × ℕ × ℕ)) (rest : List Char) : Option DateTime :=
  match ymd0 with
  | some ymd =>
    match rest with
    | [] => some ⟨ymd.1, ymd.2.1, ymd.2.2, 0, 0, 0, 0⟩
    | _sep :: t =>
      match parseTimeL t with
      | some hms => some ⟨ymd.1, ymd.2.1, ymd.2.2, hms.1, hms.2.1, hms.2.2.1, hms.2.2.2⟩
      | Option.none => Option.none
  | Option.none => Option.none

/-- `datetime.fromisoformat` on the naive subset this module emits: a
calendar-validated `YYYY-MM-DD`, optionally one separator character and a
time part. -/
def fromisoformat (s : String) : Option DateTime :=
  match s.toList with
  | a :: b :: c :: d :: h1 :: e :: f :: h2 :: g :: k :: rest =>
    fromisoDT (Staleness.parseDate [a, b, c, d, h1, e, f, h2, g, k]) rest
  | _ => Option.none

/-- `%Y-%m-%d %H:%M:%S`. -/
def strptimeDT (s : String) : Option DateTime :=
  match s.toList with
  | a :: b :: c :: d :: h1 :: e :: f :: h2 :: g :: k :: sp :: t =>
    if sp = ' ' then
      match Staleness.parseDate [a, b, c, d, h1, e, f, h2, g, k] with
      | some ymd =>
        match parseTimeL t with
        | some hms =>
          if hms.2.2.2 = 0 then
            some ⟨ymd.1, ymd.2.1, ymd.2.2, hms.1, hms.2.1, hms.2.2.1, 0⟩
          else Option.none
        | Option.none => Option.none
      | Option.none => Option.none
    else Option.none
  | _ => Option.none

/-- `_parse_datetime`. -/
def _parse_datetime (v : PyVal) : Option DateTime :=
  match v with
  | .dt d => some d
  | .str s =>
    match fromisoformat (replaceZ s) with
    | some d => some d
    | Option.none =>
      match strptimeDT s with
      | some d => some d
      | Option.none =>
        match Staleness.parseDate s.toList with
        | some ymd => some ⟨ymd.1, ymd.2.1, ymd.2.2, 0, 0, 0, 0⟩
        | Option.none => Option.none
  | _ => Option.none

structure MemoryObject where
  id : String
  context : Option String
  goal : Option String
  active_tasks : List TaskItem
  lessons_learned : List String
  decisions : List Decision
  entities : List Entity
  reasoning_chains : List String
  agreements_reached : List String
  disagreements_resolved : List String
  files : List String
  project_id : Option String
  session_id : Option String
  created_at : Option DateTime
  updated_at : Option DateTime

def optStrV : Option String → PyVal
  | some s => .str s
  | Option.none => .none

def optDtV : Option DateTime → PyVal
  | some d => .str (isoformat d)
  | Option.none => .none

def MemoryObject.to_dict (m : MemoryObject) : List (String × PyVal) :=
  [("id", .str m.id),
   ("context", optStrV m.context),
   ("goal", optStrV m.goal),
   ("active_tasks", .lst (m.active_tasks.map (fun t => .dict t.to_dict))),
   ("lessons_learned", .lst (m.lessons_learned.map PyVal.str)),
   ("decisions", .lst (m.decisions.map (fun d => .dict d.to_dict))),
   ("entities", .lst (m.entities.map (fun e => .dict e.to_dict))),
   ("reasoning_chains", .lst (m.reasoning_chains.map PyVal.str)),
   ("agreements_reached", .lst (m.agreements_reached.map PyVal.str)),
   ("disagreements_resolved", .lst (m.disagreements_resolved.map PyVal.str)),
   ("files", .lst (m.files.map PyVal.str)),
   ("project_id", optStrV m.project_id),
   ("session_id", optStrV m.session_id),
   ("created_at", optDtV m.created_at),
   ("updated_at", optDtV m.updated_at)]

def MemoryObject.from_dict (jl : String → Option PyVal)
    (data : List (String × PyVal)) : Option MemoryObject :=
  (parsedItems jl "task" TaskItem.from_dict (getV data "active_tasks")).bind
    fun active_tasks =>
  (parsedItems jl "decision" Decision.from_dict (getV data "decisions")).bind
    fun decisions =>
  (parsedItems jl "name" Entity.from_dict (getV data "entities")).bind
    fun entities =>
  (filesOf jl (getV data "files")).bind fun files =>
  (asStr (getD data "id" (.str ""))).bind fun id =>
  (asOptStr (getV data "context")).bind fun context =>
  (asOptStr (getV data "goal")).bind fun goal =>
  (asOptStr (getV data "project_id")).bind fun project_id =>
  (asOptStr (getV data "session_id")).bind fun session_id =>
  some
    { id := id, context := context, goal := goal,
      active_tasks := active_tasks,
      lessons_learned := _parse_string_list jl (getV data "lessons_learned"),
      decisions := decisions, entities := entities,
      reasoning_chains := _parse_string_list jl (getV data "reasoning_chains"),
      agreements_reached := _parse_string_list jl (getV data "agreements_reached"),
      disagreements_resolved := _parse_string_list jl (getV data "disagreements_resolved"),
      files := files, project_id := project_id, session_id := session_id,
      created_at := _parse_datetime (getV data "created_at"),
      updated_at := _parse_datetime (getV data "updated_at") }

end Models

namespace Models

theorem digitChar_isDigit (k : ℕ) : (Staleness.digitChar k).isDigit = true := by
  unfold Staleness.digitChar
  split <;> decide

theorem digitVal_digitChar (k : ℕ) (h : k < 10) :
    Staleness.digitVal (Staleness.digitChar k) = k := by
  interval_cases k <;> rfl

theorem isDigit_ne_Z (c : Char) (h : c.isDigit = true) : c ≠ 'Z' := by
  intro he
  rw [he] at h
  exact absurd h (by decide)

theorem twoDigit_pad2 (n : ℕ) (h : n < 100) :
    twoDigit (Staleness.digitChar (n / 10 % 10)) (Staleness.digitChar (n % 10)) =
      some n := by
  unfold twoDigit
  rw [if_pos (by rw [digitChar_isDigit, digitChar_isDigit]; rfl)]
  rw [digitVal_digitChar _ (Nat.mod_lt _ (by decide)),
    digitVal_digitChar _ (Nat.mod_lt _ (by decide))]
  congr 1
  omega

theorem parseDate_pads (y mo dd : ℕ) (h1 : 1 ≤ y) (h2 : y ≤ 9999) (h3 : 1 ≤ mo)
    (h4 : mo ≤ 12) (h5 : 1 ≤ dd) (h6 : dd ≤ Staleness.daysInMonth y mo) :
    Staleness.parseDate
      [Staleness.digitChar (y / 1000 % 10), Staleness.digitChar (y / 100 % 10),
       Staleness.digitChar (y / 10 % 10), Staleness.digitChar (y % 10), '-',
       Staleness.digitChar (mo / 10 % 10), Staleness.digitChar (mo % 10), '-',
       Staleness.digitChar (dd / 10 % 10), Staleness.digitChar (dd % 10)] =
      some (y, mo, dd) := by
  have hshape : Staleness.dateShape
      [Staleness.digitChar (y / 1000 % 10), Staleness.digitChar (y / 100 % 10),
       Staleness.digitChar (y / 10 % 10), Staleness.digitChar (y % 10), '-',
       Staleness.digitChar (mo / 10 % 10), Staleness.digitChar (mo % 10), '-',
       Staleness.digitChar (dd / 10 % 10), Staleness.digitChar (dd % 10)] = true := by
    simp [Staleness.dateShape, digitChar_isDigit]
  simp only [Staleness.parseDate, hshape, if_true]
  rw [digitVal_digitChar _ (Nat.mod_lt _ (by decide)),
    digitVal_digitChar _ (Nat.mod_lt _ (by decide)),
    digitVal_digitChar _ (Nat.mod_lt _ (by decide)),
    digitVal_digitChar _ (Nat.mod_lt _ (by decide)),
    digitVal_digitChar _ (Nat.mod_lt _ (by decide)),
    digitVal_digitChar _ (Nat.mod_lt _ (by decide)),
    digitVal_digitChar _ (Nat.mod_lt _ (by decide)),
    digitVal_digitChar _ (Nat.mod_lt _ (by decide))]
  have hy : y / 1000 % 10 * 1000 + y / 100 % 10 * 100 + y / 10 % 10 * 10 + y % 10 = y := by
    have g1 : y / 10 / 10 = y / 100 := by rw [Nat.div_div_eq_div_mul]
    have g2 : y / 100 / 10 = y / 1000 := by rw [Nat.div_div_eq_div_mul]
    have g3 : y / 1000 / 10 = y / 10000 := by rw [Nat.div_div_eq_div_mul]
    omega
  have hmo : mo / 10 % 10 * 10 + mo % 10 = mo := by
    have g1 : mo / 10 / 10 = mo / 100 := by rw [Nat.div_div_eq_div_mul]
    omega
  have hdd : dd / 10 % 10 * 10 + dd % 10 = dd := by
    have g1 : dd / 10 / 10 = dd / 100 := by rw [Nat.div_div_eq_div_mul]
    have hlt : dd < 100 := by
      have := h6
      unfold Staleness.daysInMonth at this
      split at this <;> first | omega | (split at this <;> omega)
    omega
  rw [hy, hmo, hdd, if_pos ⟨h1, h3, h4, h5, h6⟩]

end Models

namespace Models

/-- Validity invariant of Python `datetime` objects. -/
def ValidDT (d : DateTime) : Prop :=
  1 ≤ d.year ∧ d.year ≤ 9999 ∧ 1 ≤ d.month ∧ d.month ≤ 12 ∧ 1 ≤ d.day ∧
    d.day ≤ Staleness.daysInMonth d.year d.month ∧ d.hour < 24 ∧ d.minute < 60 ∧
    d.second < 60 ∧ d.micro < 1000000

theorem parseTimeL_pads0 (hh mi ss : ℕ) (h1 : hh < 24) (h2 : mi < 60) (h3 : ss < 60) :
    parseTimeL (pad2 hh ++ ':' :: (pad2 mi ++ ':' :: pad2 ss)) = some (hh, mi, ss, 0) := by
  show parseTimeL [Staleness.digitChar (hh / 10 % 10), Staleness.digitChar (hh % 10), ':',
    Staleness.digitChar (mi / 10 % 10), Staleness.digitChar (mi % 10), ':',
    Staleness.digitChar (ss / 10 % 10), Staleness.digitChar (ss % 10)] = some (hh, mi, ss, 0)
  simp only [parseTimeL]
  rw [if_pos (⟨trivial, trivial⟩ : True ∧ True), twoDigit_pad2 hh (by omega),
    twoDigit_pad2 mi (by omega), twoDigit_pad2 ss (by omega)]
  show (if hh < 24 ∧ mi < 60 ∧ ss < 60 then some (hh, mi, ss, 0) else Option.none) = _
  rw [if_pos ⟨h1, h2, h3⟩]

theorem split6 (n : ℕ) (h : n < 1000000) :
    n / 100000 % 10 * 100000 + n / 10000 % 10 * 10000 + n / 1000 % 10 * 1000 +
      n / 100 % 10 * 100 + n / 10 % 10 * 10 + n % 10 = n := by
  have g1 : n / 10 / 10 = n / 100 := by rw [Nat.div_div_eq_div_mul]
  have g2 : n / 100 / 10 = n / 1000 := by rw [Nat.div_div_eq_div_mul]
  have g3 : n / 1000 / 10 = n / 10000 := by rw [Nat.div_div_eq_div_mul]
  have g4 : n / 10000 / 10 = n / 100000 := by rw [Nat.div_div_eq_div_mul]
  have g5 : n / 100000 / 10 = n / 1000000 := by rw [Nat.div_div_eq_div_mul]
  omega

theorem parseTimeL_pads6 (hh mi ss mic : ℕ) (h1 : hh < 24) (h2 : mi < 60)
    (h3 : ss < 60) (h4 : mic < 1000000) :
    parseTimeL (pad2 hh ++ ':' :: (pad2 mi ++ ':' :: (pad2 ss ++ '.' :: pad6 mic))) =
      some (hh, mi, ss, mic) := by
  show parseTimeL [Staleness.digitChar (hh / 10 % 10), Staleness.digitChar (hh % 10), ':',
    Staleness.digitChar (mi / 10 % 10), Staleness.digitChar (mi % 10), ':',
    Staleness.digitChar (ss / 10 % 10), Staleness.digitChar (ss % 10), '.',
    Staleness.digitChar (mic / 100000 % 10), Staleness.digitChar (mic / 10000 % 10),
    Staleness.digitChar (mic / 1000 % 10), Staleness.digitChar (mic / 100 % 10),
    Staleness.digitChar (mic / 10 % 10), Staleness.digitChar (mic % 10)] =
    some (hh, mi, ss, mic)
  simp only [parseTimeL]
  rw [if_pos ⟨trivial, trivial, trivial, digitChar_isDigit _, digitChar_isDigit _,
      digitChar_isDigit _, digitChar_isDigit _, digitChar_isDigit _, digitChar_isDigit _⟩,
    twoDigit_pad2 hh (by omega), twoDigit_pad2 mi (by omega), twoDigit_pad2 ss (by omega)]
  show (if hh < 24 ∧ mi < 60 ∧ ss < 60 then
      some (hh, mi, ss,
        Staleness.digitVal (Staleness.digitChar (mic / 100000 % 10)) * 100000 +
        Staleness.digitVal (Staleness.digitChar (mic / 10000 % 10)) * 10000 +
        Staleness.digitVal (Staleness.digitChar (mic / 1000 % 10)) * 1000 +
        Staleness.digitVal (Staleness.digitChar (mic / 100 % 10)) * 100 +
        Staleness.digitVal (Staleness.digitChar (mic / 10 % 10)) * 10 +
        Staleness.digitVal (Staleness.digitChar (mic % 10)))
    else Option.none) = _
  rw [if_pos ⟨h1, h2, h3⟩,
    digitVal_digitChar _ (Nat.mod_lt _ (by decide)),
    digitVal_digitChar _ (Nat.mod_lt _ (by decide)),
    digitVal_digitChar _ (Nat.mod_lt _ (by decide)),
    digitVal_digitChar _ (Nat.mod_lt _ (by decide)),
    digitVal_digitChar _ (Nat.mod_lt _ (by decide)),
    digitVal_digitChar _ (Nat.mod_lt _ (by decide))]
  rw [split6 mic h4]

theorem fromiso_cons (a b c d0 e1 f1 g1 h1 i1 j1 sep : Char) (t : List Char)
    (y mo dd : ℕ)
    (hpd : Staleness.parseDate [a, b, c, d0, e1, f1, g1, h1, i1, j1] = some (y, mo, dd))
    (hh mi ss mic : ℕ) (hpt : parseTimeL t = some (hh, mi, ss, mic)) :
    fromisoformat (String.mk (a :: b :: c :: d0 :: e1 :: f1 :: g1 :: h1 :: i1 :: j1 ::
      sep :: t)) = some ⟨y, mo, dd, hh, mi, ss, mic⟩ := by
  have hred : fromisoformat (String.mk (a :: b :: c :: d0 :: e1 :: f1 :: g1 :: h1 ::
      i1 :: j1 :: sep :: t)) =
      fromisoDT (Staleness.parseDate [a, b, c, d0, e1, f1, g1, h1, i1, j1]) (sep :: t) := rfl
  rw [hred, hpd]
  have hred2 : fromisoDT (some (y, mo, dd)) (sep :: t) =
      (match parseTimeL t with
       | some hms => some ⟨y, mo, dd, hms.1, hms.2.1, hms.2.2.1, hms.2.2.2⟩
       | Option.none => Option.none) := rfl
  rw [hred2, hpt]

theorem fromisoformat_isoformat (d : DateTime) (h : ValidDT d) :
    fromisoformat (isoformat d) = some d := by
  obtain ⟨hy1, hy2, hm1, hm2, hd1, hd2, hhh, hmi, hss, hmic⟩ := h
  obtain ⟨year, month, day, hour, minute, second, micro⟩ := d
  simp only at hy1 hy2 hm1 hm2 hd1 hd2 hhh hmi hss hmic
  have hpd := parseDate_pads year month day hy1 hy2 hm1 hm2 hd1 hd2
  by_cases hm0 : micro = 0
  · subst hm0
    have hiso : isoformat ⟨year, month, day, hour, minute, second, 0⟩ =
        String.mk (Staleness.digitChar (year / 1000 % 10) ::
          Staleness.digitChar (year / 100 % 10) :: Staleness.digitChar (year / 10 % 10) ::
          Staleness.digitChar (year % 10) :: '-' :: Staleness.digitChar (month / 10 % 10) ::
          Staleness.digitChar (month % 10) :: '-' :: Staleness.digitChar (day / 10 % 10) ::
          Staleness.digitChar (day % 10) :: 'T' ::
          (pad2 hour ++ ':' :: (pad2 minute ++ ':' :: pad2 second))) := by
      simp [isoformat, isoformatL, isoSepL, pad4, pad2]
    rw [hiso, fromiso_cons _ _ _ _ _ _ _ _ _ _ _ _ year month day hpd hour minute second 0
      (parseTimeL_pads0 hour minute second hhh hmi hss)]
  · have hiso : isoformat ⟨year, month, day, hour, minute, second, micro⟩ =
        String.mk (Staleness.digitChar (year / 1000 % 10) ::
          Staleness.digitChar (year / 100 % 10) :: Staleness.digitChar (year / 10 % 10) ::
          Staleness.digitChar (year % 10) :: '-' :: Staleness.digitChar (month / 10 % 10) ::
          Staleness.digitChar (month % 10) :: '-' :: Staleness.digitChar (day / 10 % 10) ::
          Staleness.digitChar (day % 10) :: 'T' ::
          (pad2 hour ++ ':' :: (pad2 minute ++ ':' :: (pad2 second ++ '.' :: pad6 micro)))) := by
      simp [isoformat, isoformatL, isoSepL, pad4, pad2, hm0]
    rw [hiso, fromiso_cons _ _ _ _ _ _ _ _ _ _ _ _ year month day hpd hour minute second micro
      (parseTimeL_pads6 hour minute second micro hhh hmi hss hmic)]

end Models

namespace Models

theorem flatten_singletons (l : List Char) (h : ∀ c ∈ l, c ≠ 'Z') :
    (l.map (fun c => if c = 'Z' then ("+00:00").toList else [c])).flatten = l := by
  induction l with
  | nil => rfl
  | cons c rest ih =>
    rw [List.map_cons, List.flatten_cons, if_neg (h c (List.mem_cons_self _ _)),
      ih (fun x hx => h x (List.mem_cons_of_mem _ hx))]
    rfl

theorem replaceZ_id (s : String) (h : ∀ c ∈ s.toList, c ≠ 'Z') : replaceZ s = s := by
  unfold replaceZ
  rw [flatten_singletons _ h]
  cases s
  rfl

theorem pad2_mem (n : ℕ) (c : Char) (h : c ∈ pad2 n) :
    ∃ k, c = Staleness.digitChar k := by
  simp only [pad2, List.mem_cons, List.not_mem_nil, or_false] at h
  rcases h with h | h <;> exact ⟨_, h⟩

theorem pad4_mem (n : ℕ) (c : Char) (h : c ∈ pad4 n) :
    ∃ k, c = Staleness.digitChar k := by
  simp only [pad4, List.mem_cons, List.not_mem_nil, or_false] at h
  rcases h with h | h | h | h <;> exact ⟨_, h⟩

theorem pad6_mem (n : ℕ) (c : Char) (h : c ∈ pad6 n) :
    ∃ k, c = Staleness.digitChar k := by
  simp only [pad6, List.mem_cons, List.not_mem_nil, or_false] at h
  rcases h with h | h | h | h | h | h <;> exact ⟨_, h⟩

theorem isoformatL_no_Z (d : DateTime) : ∀ c ∈ isoformatL d, c ≠ 'Z' := by
  intro c hc
  have hdg : ∀ k, Staleness.digitChar k ≠ 'Z' :=
    fun k => isDigit_ne_Z _ (digitChar_isDigit k)
  unfold isoformatL isoSepL at hc
  rcases List.mem_append.mp hc with h | h
  · obtain ⟨k, rfl⟩ := pad4_mem _ _ h; exact hdg k
  rcases List.mem_cons.mp h with rfl | h
  · decide
  rcases List.mem_append.mp h with h | h
  · obtain ⟨k, rfl⟩ := pad2_mem _ _ h; exact hdg k
  rcases List.mem_cons.mp h with rfl | h
  · decide
  rcases List.mem_append.mp h with h | h
  · obtain ⟨k, rfl⟩ := pad2_mem _ _ h; exact hdg k
  rcases List.mem_cons.mp h with rfl | h
  · decide
  rcases List.mem_append.mp h with h | h
  · obtain ⟨k, rfl⟩ := pad2_mem _ _ h; exact hdg k
  rcases List.mem_cons.mp h with rfl | h
  · decide
  rcases List.mem_append.mp h with h | h
  · obtain ⟨k, rfl⟩ := pad2_mem _ _ h; exact hdg k
  rcases List.mem_cons.mp h with rfl | h
  · decide
  rcases List.mem_append.mp h with h | h
  · obtain ⟨k, rfl⟩ := pad2_mem _ _ h; exact hdg k
  by_cases hm : d.micro = 0
  · rw [if_pos hm] at h
    exact absurd h (List.not_mem_nil c)
  · rw [if_neg hm] at h
    rcases List.mem_cons.mp h with rfl | h
    · decide
    · obtain ⟨k, rfl⟩ := pad6_mem _ _ h; exact hdg k

end Models

namespace Models

theorem parse_datetime_opt (o : Option DateTime)
    (h : o = Option.none ∨ ∃ d, o = some d ∧ ValidDT d) :
    _parse_datetime (optDtV o) = o := by
  rcases h with h0 | ⟨d, h0, hv⟩ <;> subst h0
  · rfl
  · show _parse_datetime (.str (isoformat d)) = some d
    show (match fromisoformat (replaceZ (isoformat d)) with
      | some d2 => some d2
      | Option.none =>
        match strptimeDT (isoformat d) with
        | some d2 => some d2
        | Option.none =>
          match Staleness.parseDate (isoformat d).toList with
          | some ymd => some (⟨ymd.1, ymd.2.1, ymd.2.2, 0, 0, 0, 0⟩ : DateTime)
          | Option.none => Option.none) = some d
    rw [replaceZ_id _ (by
      intro c hc
      exact isoformatL_no_Z d c (by simpa [isoformat] using hc))]
    rw [fromisoformat_isoformat d hv]

theorem asStrList_map (xs : List String) : asStrList (xs.map PyVal.str) = some xs := by
  induction xs with
  | nil => rfl
  | cons x rest ih =>
    simp only [List.map_cons, asStrList, List.mapM_cons] at ih ⊢
    rw [show asStr (.str x) = some x from rfl]
    simp only [ih]
    rfl

theorem orEmpty_lst (l : List PyVal) : orEmpty (.lst l) = .lst l := by
  cases l <;> rfl

theorem filterMap_str (ls : List String) :
    (ls.map PyVal.str).filterMap (fun item =>
      if isNoneV item then Option.none else some (pyStrV item)) = ls := by
  induction ls with
  | nil => rfl
  | cons y ys ih =>
    simp only [List.map_cons, List.filterMap_cons, ih]
    rfl

theorem string_list_roundtrip (jl : String → Option PyVal) (ls : List String) :
    _parse_string_list jl (.lst (ls.map PyVal.str)) = ls := by
  cases ls with
  | nil => rfl
  | cons x rest =>
    show _parse_string_list jl (.lst ((x :: rest).map PyVal.str)) = x :: rest
    unfold _parse_string_list
    rw [if_neg (by simp [pyTruthyV, List.isEmpty])]
    exact filterMap_str (x :: rest)

end Models

namespace Models

/-- The claim's restriction on an optional scalar: absent or non-empty. -/
def OptNE (o : Option String) : Prop := o = Option.none ∨ ∃ s, o = some s ∧ s ≠ ""

theorem taskItem_roundtrip (t : TaskItem) (h : OptNE t.priority) :
    TaskItem.from_dict (.dict t.to_dict) = some t := by
  obtain ⟨task, status, priority⟩ := t
  rcases h with h0 | ⟨p, h0, hp⟩ <;> simp only [] at h0 <;> subst h0
  · rfl
  · have ht : TaskItem.to_dict ⟨task, status, some p⟩ =
        [("task", .str task), ("status", .str status), ("priority", .str p)] := by
      simp [TaskItem.to_dict, hp]
    rw [ht]
    rfl

theorem decision_roundtrip (d : Decision) (h1 : OptNE d.rationale)
    (h2 : d.alternatives = Option.none ∨
      ∃ alts, d.alternatives = some alts ∧ alts ≠ []) :
    Decision.from_dict (.dict d.to_dict) = some d := by
  obtain ⟨dec, rationale, alternatives⟩ := d
  rcases h1 with h0 | ⟨r, h0, hr⟩ <;> simp only [] at h0 <;> subst h0 <;>
    rcases h2 with h3 | ⟨alts, h3, halts⟩ <;> simp only [] at h3 <;> subst h3
  · rfl
  · have ht : Decision.to_dict ⟨dec, Option.none, some alts⟩ =
        [("decision", .str dec), ("alternatives", .lst (alts.map PyVal.str))] := by
      simp [Decision.to_dict, List.isEmpty_eq_true, halts]
    rw [ht]
    show (asStr (.str dec)).bind (fun decision =>
      (asOptStr (getV [("decision", .str dec),
        ("alternatives", .lst (alts.map PyVal.str))] "rationale")).bind fun rationale =>
      (asOptStrList (getV [("decision", .str dec),
        ("alternatives", .lst (alts.map PyVal.str))] "alternatives")).bind fun alternatives =>
      some (⟨decision, rationale, alternatives⟩ : Decision)) = _
    have hga : getV [("decision", .str dec),
        ("alternatives", .lst (alts.map PyVal.str))] "alternatives" =
        .lst (alts.map PyVal.str) := rfl
    rw [hga]
    show (asOptStrList (.lst (alts.map PyVal.str))).bind (fun alternatives =>
      some (⟨dec, Option.none, alternatives⟩ : Decision)) = _
    have haosl : asOptStrList (.lst (alts.map PyVal.str)) = some (some alts) := by
      show Option.map some (asStrList (alts.map PyVal.str)) = some (some alts)
      rw [asStrList_map]
      rfl
    rw [haosl]
    rfl
  · have ht : Decision.to_dict ⟨dec, some r, Option.none⟩ =
        [("decision", .str dec), ("rationale", .str r)] := by
      simp [Decision.to_dict, hr]
    rw [ht]
    rfl
  · have ht : Decision.to_dict ⟨dec, some r, some alts⟩ =
        [("decision", .str dec), ("rationale", .str r),
         ("alternatives", .lst (alts.map PyVal.str))] := by
      simp [Decision.to_dict, hr, List.isEmpty_eq_true, halts]
    rw [ht]
    show (asStr (.str dec)).bind (fun decision =>
      (asOptStr (.str r)).bind fun rationale =>
      (asOptStrList (.lst (alts.map PyVal.str))).bind fun alternatives =>
      some (⟨decision, rationale, alternatives⟩ : Decision)) = _
    have haosl : asOptStrList (.lst (alts.map PyVal.str)) = some (some alts) := by
      show Option.map some (asStrList (alts.map PyVal.str)) = some (some alts)
      rw [asStrList_map]
      rfl
    rw [haosl]
    rfl

theorem entity_roundtrip (e : Entity) (h1 : OptNE e.type) (h2 : OptNE e.notes) :
    Entity.from_dict (.dict e.to_dict) = some e := by
  obtain ⟨name, ty, notes⟩ := e
  rcases h1 with h0 | ⟨r, h0, hr⟩ <;> simp only [] at h0 <;> subst h0 <;>
    rcases h2 with h3 | ⟨n2, h3, hn2⟩ <;> simp only [] at h3 <;> subst h3
  · rfl
  · have ht : Entity.to_dict ⟨name, Option.none, some n2⟩ =
        [("name", .str name), ("notes", .str n2)] := by
      simp [Entity.to_dict, hn2]
    rw [ht]
    rfl
  · have ht : Entity.to_dict ⟨name, some r, Option.none⟩ =
        [("name", .str name), ("type", .str r)] := by
      simp [Entity.to_dict, hr]
    rw [ht]
    rfl
  · have ht : Entity.to_dict ⟨name, some r, some n2⟩ =
        [("name", .str name), ("type", .str r), ("notes", .str n2)] := by
      simp [Entity.to_dict, hr, hn2]
    rw [ht]
    rfl

theorem mapM_map_id {α β : Type} (f : α → β) (p : β → Option α) (xs : List α)
    (h : ∀ x ∈ xs, p (f x) = some x) : (xs.map f).mapM p = some xs := by
  induction xs with
  | nil => rfl
  | cons x rest ih =>
    rw [List.map_cons, List.mapM_cons, h x (List.mem_cons_self _ _),
      ih (fun z hz => h z (List.mem_cons_of_mem _ hz))]
    rfl

theorem parsedItems_roundtrip {α : Type} (jl : String → Option PyVal) (key : String)
    (p : PyVal → Option α) (enc : α → List (String × PyVal)) (xs : List α)
    (h : ∀ x ∈ xs, p (.dict (enc x)) = some x) :
    parsedItems jl key p (.lst (xs.map (fun x => .dict (enc x)))) = some xs := by
  unfold parsedItems
  rw [orEmpty_lst]
  have hco : coerceWrap jl key (.lst (xs.map (fun x => .dict (enc x)))) =
      .lst (xs.map (fun x => .dict (enc x))) := rfl
  rw [hco]
  show ((xs.map (fun x => PyVal.dict (enc x))).filter (fun t => !isNoneV t)).mapM p =
    some xs
  have hfil : (xs.map (fun x => PyVal.dict (enc x))).filter (fun t => !isNoneV t) =
      xs.map (fun x => PyVal.dict (enc x)) := by
    apply List.filter_eq_self.mpr
    intro v hv
    rcases List.mem_map.mp hv with ⟨x, _, hx⟩
    rw [← hx]
    rfl
  rw [hfil]
  exact mapM_map_id _ p xs h

theorem filesOf_roundtrip (jl : String → Option PyVal) (fs : List String) :
    filesOf jl (.lst (fs.map PyVal.str)) = some fs := by
  unfold filesOf
  rw [orEmpty_lst]
  show asStrList (fs.map PyVal.str) = some fs
  exact asStrList_map fs

end Models

namespace Models

theorem asOptStr_optStr (o : Option String) : asOptStr (optStrV o) = some o := by
  cases o <;> rfl

instance (d : DateTime) : Decidable (ValidDT d) := by
  unfold ValidDT
  infer_instance

instance (o : Option String) : Decidable (OptNE o) :=
  match o with
  | Option.none => isTrue (Or.inl rfl)
  | some s =>
    if h : s = "" then
      isFalse (by
        rintro (h1 | ⟨s2, h2, h3⟩)
        · exact Option.noConfusion h1
        · injection h2 with h4
          exact h3 (h4 ▸ h))
    else isTrue (Or.inr ⟨s, rfl, h⟩)

end Models

/-- C10: for every memory object whose optional scalar sub-fields (task
priority, decision rationale and alternatives, entity type and notes,
context, goal) are each absent or non-empty — and whose datetimes satisfy
the validity invariant every Python `datetime` carries — the round trip
`MemoryObject.from_dict(m.to_dict())` reproduces the object exactly,
including the nested task, decision, and entity lists and the parsed
`created_at`/`updated_at` datetimes, for every JSON decoder (the decoder
is never consulted on the values `to_dict` emits). -/
theorem memory_object_roundtrip (jl : String → Option Models.PyVal)
    (m : Models.MemoryObject)
    (htask : ∀ t ∈ m.active_tasks, Models.OptNE t.priority)
    (hdec : ∀ d ∈ m.decisions, Models.OptNE d.rationale ∧
      (d.alternatives = Option.none ∨ ∃ alts, d.alternatives = some alts ∧ alts ≠ []))
    (hent : ∀ e ∈ m.entities, Models.OptNE e.type ∧ Models.OptNE e.notes)
    (hctx : Models.OptNE m.context) (hgoal : Models.OptNE m.goal)
    (hca : m.created_at = Option.none ∨
      ∃ d, m.created_at = some d ∧ Models.ValidDT d)
    (hua : m.updated_at = Option.none ∨
      ∃ d, m.updated_at = some d ∧ Models.ValidDT d) :
    Models.MemoryObject.from_dict jl (Models.MemoryObject.to_dict m) = some m := by
  have ht : Models.parsedItems jl "task" Models.TaskItem.from_dict
      (Models.getV (Models.MemoryObject.to_dict m) "active_tasks") = some m.active_tasks := by
    rw [show Models.getV (Models.MemoryObject.to_dict m) "active_tasks" =
      .lst (m.active_tasks.map (fun t => .dict t.to_dict)) from rfl]
    exact Models.parsedItems_roundtrip jl "task" _ Models.TaskItem.to_dict m.active_tasks
      (fun x hx => Models.taskItem_roundtrip x (htask x hx))
  have hd : Models.parsedItems jl "decision" Models.Decision.from_dict
      (Models.getV (Models.MemoryObject.to_dict m) "decisions") = some m.decisions := by
    rw [show Models.getV (Models.MemoryObject.to_dict m) "decisions" =
      .lst (m.decisions.map (fun d => .dict d.to_dict)) from rfl]
    exact Models.parsedItems_roundtrip jl "decision" _ Models.Decision.to_dict m.decisions
      (fun x hx => Models.decision_roundtrip x (hdec x hx).1 (hdec x hx).2)
  have he : Models.parsedItems jl "name" Models.Entity.from_dict
      (Models.getV (Models.MemoryObject.to_dict m) "entities") = some m.entities := by
    rw [show Models.getV (Models.MemoryObject.to_dict m) "entities" =
      .lst (m.entities.map (fun e => .dict e.to_dict)) from rfl]
    exact Models.parsedItems_roundtrip jl "name" _ Models.Entity.to_dict m.entities
      (fun x hx => Models.entity_roundtrip x (hent x hx).1 (hent x hx).2)
  have hf : Models.filesOf jl (Models.getV (Models.MemoryObject.to_dict m) "files") =
      some m.files := by
    rw [show Models.getV (Models.MemoryObject.to_dict m) "files" =
      .lst (m.files.map Models.PyVal.str) from rfl]
    exact Models.filesOf_roundtrip jl m.files
  have hid : Models.asStr (Models.getD (Models.MemoryObject.to_dict m) "id" (.str "")) =
      some m.id := rfl
  have hcx : Models.asOptStr (Models.getV (Models.MemoryObject.to_dict m) "context") =
      some m.context := by
    rw [show Models.getV (Models.MemoryObject.to_dict m) "context" =
      Models.optStrV m.context from rfl]
    exact Models.asOptStr_optStr _
  have hgl : Models.asOptStr (Models.getV (Models.MemoryObject.to_dict m) "goal") =
      some m.goal := by
    rw [show Models.getV (Models.MemoryObject.to_dict m) "goal" =
      Models.optStrV m.goal from rfl]
    exact Models.asOptStr_optStr _
  have hpid : Models.asOptStr (Models.getV (Models.MemoryObject.to_dict m) "project_id") =
      some m.project_id := by
    rw [show Models.getV (Models.MemoryObject.to_dict m) "project_id" =
      Models.optStrV m.project_id from rfl]
    exact Models.asOptStr_optStr _
  have hsid : Models.asOptStr (Models.getV (Models.MemoryObject.to_dict m) "session_id") =
      some m.session_id := by
    rw [show Models.getV (Models.MemoryObject.to_dict m) "session_id" =
      Models.optStrV m.session_id from rfl]
    exact Models.asOptStr_optStr _
  have hls : Models._parse_string_list jl
      (Models.getV (Models.MemoryObject.to_dict m) "lessons_learned") =
      m.lessons_learned := by
    rw [show Models.getV (Models.MemoryObject.to_dict m) "lessons_learned" =
      .lst (m.lessons_learned.map Models.PyVal.str) from rfl]
    exact Models.string_list_roundtrip jl _
  have hrc : Models._parse_string_list jl
      (Models.getV (Models.MemoryObject.to_dict m) "reasoning_chains") =
      m.reasoning_chains := by
    rw [show Models.getV (Models.MemoryObject.to_dict m) "reasoning_chains" =
      .lst (m.reasoning_chains.map Models.PyVal.str) from rfl]
    exact Models.string_list_roundtrip jl _
  have har : Models._parse_string_list jl
      (Models.getV (Models.MemoryObject.to_dict m) "agreements_reached") =
      m.agreements_reached := by
    rw [show Models.getV (Models.MemoryObject.to_dict m) "agreements_reached" =
      .lst (m.agreements_reached.map Models.PyVal.str) from rfl]
    exact Models.string_list_roundtrip jl _
  have hdr : Models._parse_string_list jl
      (Models.getV (Models.MemoryObject.to_dict m) "disagreements_resolved") =
      m.disagreements_resolved := by
    rw [show Models.getV (Models.MemoryObject.to_dict m) "disagreements_resolved" =
      .lst (m.disagreements_resolved.map Models.PyVal.str) from rfl]
    exact Models.string_list_roundtrip jl _
  have hcat : Models._parse_datetime
      (Models.getV (Models.MemoryObject.to_dict m) "created_at") = m.created_at := by
    rw [show Models.getV (Models.MemoryObject.to_dict m) "created_at" =
      Models.optDtV m.created_at from rfl]
    exact Models.parse_datetime_opt _ hca
  have hupd : Models._parse_datetime
      (Models.getV (Models.MemoryObject.to_dict m) "updated_at") = m.updated_at := by
    rw [show Models.getV (Models.MemoryObject.to_dict m) "updated_at" =
      Models.optDtV m.updated_at from rfl]
    exact Models.parse_datetime_opt _ hua
  unfold Models.MemoryObject.from_dict
  rw [ht, hd, he, hf, hid, hcx, hgl, hpid, hsid, hls, hrc, har, hdr, hcat, hupd]
  rfl

/-- A concrete memory object exercising every nested field. -/
def sampleMemory : Models.MemoryObject :=
  { id := "m1", context := some "ctx", goal := Option.none,
    active_tasks := [⟨"write tests", "pending", some "high"⟩,
                     ⟨"ship", "completed", Option.none⟩],
    lessons_learned := ["lesson one"],
    decisions := [⟨"use sqlite", some "simple", some ["postgres"]⟩,
                  ⟨"plain", Option.none, Option.none⟩],
    entities := [⟨"api", some "service", Option.none⟩],
    reasoning_chains := [], agreements_reached := ["agreed"],
    disagreements_resolved := [],
    files := ["src/a.py"],
    project_id := some "p1", session_id := Option.none,
    created_at := some ⟨2024, 5, 17, 10, 30, 0, 0⟩,
    updated_at := some ⟨2024, 5, 17, 10, 30, 5, 123456⟩ }

/-- C10 witness: the round trip at a concrete object, with the decoder
that always fails. -/
theorem memory_object_roundtrip_witness :
    Models.MemoryObject.from_dict (fun _ => Option.none)
      (Models.MemoryObject.to_dict sampleMemory) = some sampleMemory :=
  memory_object_roundtrip (fun _ => Option.none) sampleMemory
    (by decide) (by decide) (by decide) (by decide) (by decide)
    (Or.inr ⟨⟨2024, 5, 17, 10, 30, 0, 0⟩, rfl, by decide⟩)
    (Or.inr ⟨⟨2024, 5, 17, 10, 30, 5, 123456⟩, rfl, by decide⟩)
